import Mathlib

/-! YOLOv8 post-processing (`yolov8_detect.cpp`): decoding and non-maximum suppression

A shallow embedding of the post-processing code of `yolov8_detect.cpp`: the function
`nms` (lines 38-71) and the decoding block of `main` (lines 151-227).

* `int` values are `Int` in the range of the 32-bit `int`.  Where the source file
  computes in `int` (the product of `area()`, the sums and differences of the clip,
  the conversion `int(round(...))`) the result is wrapped to 32 bits (`wrapInt`) or,
  for the conversion, replaced by `INT_MIN` when it is out of range.
* `float` values are modelled by the rational numbers they denote (finite values, no
  NaN).  Every place where the machine rounds (an `int` to `float` conversion, a float
  multiplication, division or subtraction) applies a rounding function `fl : ℚ → ℚ`,
  which is a parameter of the definitions.  The general theorems hold for every `fl`
  that satisfies `IsRounding`; `roundF32` is IEEE-754 binary32 round-to-nearest-even
  and satisfies it (`roundF32_isRounding`).
* `cv::Rect` and its operators `&`, `|`, `area()`, `empty()` follow OpenCV
  `core/types.hpp`.  The corner sums `x + width` and `y + height` inside `&` and `|`
  are exact, so these two operators are modelled for rectangles whose far corner fits
  `int`.
* `std::sort` is a parameter `sort` of `nms`: the C++ standard fixes only that its
  result is a permutation of the input ordered by the comparator (`IsStdSort`), not the
  relative order of equivalent elements.  Two concrete sorts are given: `stableSort`,
  an insertion sort, and `gccSort`, the introsort of libstdc++.

Definitions come first, theorems after them.
-/

namespace Yolo

/-! ## Data model -/

/-- The `cv::Rect` of OpenCV: `x`, `y`, `width`, `height` as `int`. -/
structure Rect where
  x : Int
  y : Int
  width : Int
  height : Int
deriving DecidableEq, Repr, Inhabited

/-- The `struct Detection` of the source (lines 27-31). -/
structure Detection where
  box : Rect
  confidence : ℚ
  classId : Int
deriving DecidableEq, Repr, Inhabited

/-- The method `Rect::empty()`: `width <= 0 || height <= 0`. -/
def Rect.empty (r : Rect) : Bool :=
  decide (r.width ≤ 0) || decide (r.height ≤ 0)

/-- The value of an `int` expression whose exact result is `n`: the result modulo
`2^32` in the range `[-2^31, 2^31)` of the 32-bit two's-complement `int`, which is what
the compiled code leaves when the exact result does not fit. -/
def wrapInt (n : Int) : Int :=
  (n + 2147483648) % 4294967296 - 2147483648

/-- The number of pixels of the rectangle, the exact product of width and height. -/
def Rect.pixels (r : Rect) : Int :=
  r.width * r.height

/-- The method `Rect::area()`: `width * height`, a product of two `int` values in
`int`. -/
def Rect.area (r : Rect) : Int :=
  wrapInt (r.width * r.height)

/-- The default-constructed `Rect()`. -/
def Rect.zero : Rect := ⟨0, 0, 0, 0⟩

/-- The `operator&` of `cv::Rect` (OpenCV `core/types.hpp`): the intersection
rectangle, `Rect()` when it is empty. -/
def Rect.inter (a b : Rect) : Rect :=
  if a.empty || b.empty then Rect.zero
  else
    let x1 := max a.x b.x
    let y1 := max a.y b.y
    let r : Rect :=
      ⟨x1, y1, min (a.x + a.width) (b.x + b.width) - x1,
        min (a.y + a.height) (b.y + b.height) - y1⟩
    if r.empty then Rect.zero else r

/-- The `operator|` of `cv::Rect` (OpenCV `core/types.hpp`): the minimal rectangle
that contains both operands; an empty operand is ignored. -/
def Rect.union (a b : Rect) : Rect :=
  if a.empty then b
  else if !b.empty then
    let x1 := min a.x b.x
    let y1 := min a.y b.y
    ⟨x1, y1, max (a.x + a.width) (b.x + b.width) - x1,
      max (a.y + a.height) (b.y + b.height) - y1⟩
  else a

/-- The method `Rect::contains(Point(px, py))`:
`x <= px && px < x + width && y <= py && py < y + height`. -/
def Rect.contains (r : Rect) (px py : Int) : Prop :=
  r.x ≤ px ∧ px < r.x + r.width ∧ r.y ≤ py ∧ py < r.y + r.height

/-! ## The rounding of `float` arithmetic -/

/-- Rounding of a rational to the nearest integer, ties to the even one. -/
def roundHalfEven (q : ℚ) : Int :=
  let f := ⌊q⌋
  if q - f < 1 / 2 then f
  else if 1 / 2 < q - f then f + 1
  else if f % 2 = 0 then f else f + 1

/-- The binary exponent of the binary32 format at `q`: `⌊log₂ |q|⌋`, and `-126` in
the subnormal range. -/
def binade (q : ℚ) : Int := max (Int.log 2 |q|) (-126)

/-- IEEE-754 binary32 rounding (round to nearest, ties to even) of a rational in the
finite range of the format: the significand has 24 bits. -/
def roundF32 (q : ℚ) : ℚ :=
  (roundHalfEven (q / (2 : ℚ) ^ (binade q - 23)) : ℚ) * (2 : ℚ) ^ (binade q - 23)

/-- What the proofs use of the rounding to `float`: it is monotone, and a value that
is a binary32 number (a 24-bit integer times a power of two in the exponent range) is
not changed. -/
structure IsRounding (fl : ℚ → ℚ) : Prop where
  mono : ∀ a b : ℚ, a ≤ b → fl a ≤ fl b
  exact : ∀ m e : Int, |m| < 2 ^ 24 → -149 ≤ e → e ≤ 104 →
    fl ((m : ℚ) * (2 : ℚ) ^ e) = (m : ℚ) * (2 : ℚ) ^ e

/-! ## Non-maximum suppression (source lines 38-71) -/

/-- Lines 55-57: the value the code calls `iou`.  `inter` is `a & b`, `uni` is
`a | b`, and both areas are converted to `float` before the float division. -/
def iou (fl : ℚ → ℚ) (a b : Rect) : ℚ :=
  let inter := a.inter b
  let uni := a.union b
  if 0 < uni.area then fl (fl (inter.area : ℚ) / fl (uni.area : ℚ)) else 0

/-- Lines 52-61: one iteration of the inner loop, for the index `j`. -/
def innerStep (fl : ℚ → ℚ) (dets : List Detection) (nmsThreshold : ℚ) (i : Nat)
    (suppressed : List Bool) (j : Nat) : List Bool :=
  if suppressed.getD j false then suppressed
  else if nmsThreshold < iou fl (dets.getD i default).box (dets.getD j default).box then
    suppressed.set j true
  else suppressed

/-- Lines 51-62: the inner loop `for (j = i + 1; j < detections.size(); ++j)`. -/
def innerLoop (fl : ℚ → ℚ) (dets : List Detection) (nmsThreshold : ℚ) (i : Nat)
    (suppressed : List Bool) : List Bool :=
  (List.range' (i + 1) (dets.length - (i + 1))).foldl
    (innerStep fl dets nmsThreshold i) suppressed

/-- Lines 49-63: one iteration of the outer loop, for the index `i`. -/
def outerStep (fl : ℚ → ℚ) (dets : List Detection) (nmsThreshold : ℚ)
    (suppressed : List Bool) (i : Nat) : List Bool :=
  if suppressed.getD i false then suppressed
  else innerLoop fl dets nmsThreshold i suppressed

/-- Lines 46-63: the vector `suppressed` after the two nested loops, started from
`vector<bool> suppressed(detections.size(), false)`. -/
def suppressLoop (fl : ℚ → ℚ) (dets : List Detection) (nmsThreshold : ℚ) : List Bool :=
  (List.range dets.length).foldl (outerStep fl dets nmsThreshold)
    (List.replicate dets.length false)

/-- Lines 66-68: `finalDetections`, the detections whose flag is not set, pushed in
index order. -/
def collect (dets : List Detection) (suppressed : List Bool) : List Detection :=
  (List.range dets.length).foldl
    (fun acc i => if suppressed.getD i false then acc else acc ++ [dets.getD i default]) []

/-- Lines 46-70: everything `nms` does after the sort. -/
def nmsSorted (fl : ℚ → ℚ) (dets : List Detection) (nmsThreshold : ℚ) : List Detection :=
  collect dets (suppressLoop fl dets nmsThreshold)

/-- The function `nms` (lines 38-71); the result is the final value of the vector
`detections`.  `sort` stands for the call of `std::sort` with the comparator
`a.confidence > b.confidence`. -/
def nms (fl : ℚ → ℚ) (sort : List Detection → List Detection)
    (detections : List Detection) (nmsThreshold : ℚ) : List Detection :=
  if detections.isEmpty then detections
  else nmsSorted fl (sort detections) nmsThreshold

/-- Line 60: the test `iou > nmsThreshold` for the boxes of `a` (the index `i`) and
`b` (the index `j`). -/
def suppresses (fl : ℚ → ℚ) (t : ℚ) (a b : Detection) : Prop :=
  t < iou fl a.box b.box

instance (fl : ℚ → ℚ) (t : ℚ) (a b : Detection) : Decidable (suppresses fl t a b) := by
  unfold suppresses; infer_instance

/-- The state of `suppressed` when the outer loop has run for the indices below `k`:
the flag of `j` is set exactly when an unflagged earlier index below `k` overlaps it
by more than the threshold. -/
def SupInv (fl : ℚ → ℚ) (dets : List Detection) (t : ℚ) (k : Nat) (sup : List Bool) : Prop :=
  sup.length = dets.length ∧
  ∀ j, j < dets.length → (sup.getD j false = true ↔
    ∃ i, i < k ∧ i < j ∧ sup.getD i false = false ∧
      t < iou fl (dets.getD i default).box (dets.getD j default).box)

/-! ## The call of `std::sort` -/

/-- The comparator of line 43 orders by descending confidence: what the C++ standard
guarantees of `std::sort` with it is that the result is a permutation of the input in
which no element compares before an earlier one. -/
def IsStdSort (sort : List Detection → List Detection) : Prop :=
  ∀ l, (sort l).Perm l ∧ (sort l).Pairwise (fun a b => ¬ (b.confidence > a.confidence))

/-- A `std::sort` that is stable: insertion sort by descending confidence (what
libstdc++ runs on ranges of at most 16 elements). -/
def stableSort (l : List Detection) : List Detection :=
  List.insertionSort (fun a b => a.confidence ≥ b.confidence) l

/-! ### The `std::sort` of libstdc++ (GCC `bits/stl_algo.h`, `bits/stl_heap.h`)

The range is a list and iterators are indices into it; `comp a b` is the comparator.
Loops whose trip count is bounded by the length of the range take that bound as fuel. -/

namespace StdSort

variable {α : Type} [Inhabited α]

/-- The element `*(begin + i)` of the range being sorted. -/
def elemAt (a : List α) (i : Nat) : α := a.getD i default

/-- The call `std::iter_swap(begin + i, begin + j)`. -/
def iterSwap (a : List α) (i j : Nat) : List α :=
  (a.set i (elemAt a j)).set j (elemAt a i)

/-- The loop `while (__comp(__val, __next))` of `__unguarded_linear_insert`, entered with
`__last = next + 1`: the range after the moves and the final position `__last`. -/
def linearInsertLoop (comp : α → α → Bool) (val : α) : Nat → List α → List α × Nat
  | 0, a => (a, 0)
  | next + 1, a =>
    if comp val (elemAt a next) then linearInsertLoop comp val next (a.set (next + 1) (elemAt a next))
    else (a, next + 1)

/-- The function `__unguarded_linear_insert(__last, __comp)`. -/
def unguardedLinearInsert (comp : α → α → Bool) (a : List α) (last : Nat) : List α :=
  let val := elemAt a last
  let r := linearInsertLoop comp val last a
  r.1.set r.2 val

/-- The call `std::move_backward(first, i, i + 1)`: the elements of `[first, i)` move
one place to the right, the last one first. -/
def moveBackward (a : List α) (first i : Nat) : List α :=
  (List.range (i - first)).foldl (fun b k => b.set (i - k) (elemAt b (i - k - 1))) a

/-- The body of the loop of `__insertion_sort` for the iterator `i`. -/
def insertionStep (comp : α → α → Bool) (first : Nat) (a : List α) (i : Nat) : List α :=
  if comp (elemAt a i) (elemAt a first) then
    let val := elemAt a i
    (moveBackward a first i).set first val
  else unguardedLinearInsert comp a i

/-- The function `__insertion_sort(first, last, comp)`. -/
def insertionSort (comp : α → α → Bool) (a : List α) (first last : Nat) : List α :=
  if first = last then a
  else (List.range' (first + 1) (last - (first + 1))).foldl (insertionStep comp first) a

/-- The function `__unguarded_insertion_sort(first, last, comp)`. -/
def unguardedInsertionSort (comp : α → α → Bool) (a : List α) (first last : Nat) : List α :=
  (List.range' first (last - first)).foldl (unguardedLinearInsert comp) a

/-- The function `__final_insertion_sort(first, last, comp)`, with `_S_threshold = 16`. -/
def finalInsertionSort (comp : α → α → Bool) (a : List α) (first last : Nat) : List α :=
  if last - first > 16 then
    unguardedInsertionSort comp (insertionSort comp a first (first + 16)) (first + 16) last
  else insertionSort comp a first last

/-- The loop `while (__comp(__first, __pivot)) ++__first` of `__unguarded_partition`. -/
def scanUp (comp : α → α → Bool) (a : List α) (pivot : Nat) : Nat → Nat → Nat
  | 0, first => first
  | fuel + 1, first =>
    if comp (elemAt a first) (elemAt a pivot) then scanUp comp a pivot fuel (first + 1) else first

/-- The loop `while (__comp(__pivot, __last)) --__last` of `__unguarded_partition`. -/
def scanDown (comp : α → α → Bool) (a : List α) (pivot : Nat) : Nat → Nat
  | 0 => 0
  | last + 1 => if comp (elemAt a pivot) (elemAt a (last + 1)) then scanDown comp a pivot last else last + 1

/-- The function `__unguarded_partition(first, last, pivot, comp)`: the range after the
swaps and the cut it returns. -/
def unguardedPartition (comp : α → α → Bool) (pivot : Nat) :
    Nat → List α → Nat → Nat → List α × Nat
  | 0, a, first, _ => (a, first)
  | fuel + 1, a, first, last =>
    let first1 := scanUp comp a pivot a.length first
    let last1 := scanDown comp a pivot (last - 1)
    if first1 < last1 then unguardedPartition comp pivot fuel (iterSwap a first1 last1) (first1 + 1) last1
    else (a, first1)

/-- The function `__move_median_to_first(result, a, b, c, comp)` for the iterators
`x`, `y`, `z`. -/
def moveMedianToFirst (comp : α → α → Bool) (a : List α) (result x y z : Nat) : List α :=
  if comp (elemAt a x) (elemAt a y) then
    if comp (elemAt a y) (elemAt a z) then iterSwap a result y
    else if comp (elemAt a x) (elemAt a z) then iterSwap a result z
    else iterSwap a result x
  else if comp (elemAt a x) (elemAt a z) then iterSwap a result x
  else if comp (elemAt a y) (elemAt a z) then iterSwap a result z
  else iterSwap a result y

/-- The function `__unguarded_partition_pivot(first, last, comp)`. -/
def unguardedPartitionPivot (comp : α → α → Bool) (a : List α) (first last : Nat) : List α × Nat :=
  let mid := first + (last - first) / 2
  let a1 := moveMedianToFirst comp a first (first + 1) mid (last - 1)
  unguardedPartition comp first a1.length a1 (first + 1) last

/-- The loop of `__push_heap`: the range after the moves and the final `__holeIndex`. -/
def pushHeapLoop (comp : α → α → Bool) (first topIndex : Nat) (value : α) :
    Nat → List α → Nat → List α × Nat
  | 0, a, holeIndex => (a, holeIndex)
  | fuel + 1, a, holeIndex =>
    let parent := (holeIndex - 1) / 2
    if holeIndex > topIndex && comp (elemAt a (first + parent)) value then
      pushHeapLoop comp first topIndex value fuel (a.set (first + holeIndex) (elemAt a (first + parent))) parent
    else (a, holeIndex)

/-- The function `__push_heap(first, holeIndex, topIndex, value, comp)`. -/
def pushHeap (comp : α → α → Bool) (a : List α) (first holeIndex topIndex : Nat) (value : α) :
    List α :=
  let r := pushHeapLoop comp first topIndex value (holeIndex + 1) a holeIndex
  r.1.set (first + r.2) value

/-- The loop `while (__secondChild < (__len - 1) / 2)` of `__adjust_heap`: the range,
the final `__holeIndex` and the final `__secondChild`. -/
def adjustHeapLoop (comp : α → α → Bool) (first len : Nat) :
    Nat → List α → Nat → Nat → List α × Nat × Nat
  | 0, a, holeIndex, secondChild => (a, holeIndex, secondChild)
  | fuel + 1, a, holeIndex, secondChild =>
    if secondChild < (len - 1) / 2 then
      let sc := 2 * (secondChild + 1)
      let sc1 := if comp (elemAt a (first + sc)) (elemAt a (first + (sc - 1))) then sc - 1 else sc
      adjustHeapLoop comp first len fuel (a.set (first + holeIndex) (elemAt a (first + sc1))) sc1 sc1
    else (a, holeIndex, secondChild)

/-- The function `__adjust_heap(first, holeIndex, len, value, comp)`. -/
def adjustHeap (comp : α → α → Bool) (a : List α) (first holeIndex len : Nat) (value : α) :
    List α :=
  let topIndex := holeIndex
  let r := adjustHeapLoop comp first len len a holeIndex holeIndex
  let a1 := r.1
  let hole1 := r.2.1
  let sc1 := r.2.2
  if len % 2 = 0 && sc1 = (len - 2) / 2 then
    let sc2 := 2 * (sc1 + 1)
    pushHeap comp (a1.set (first + hole1) (elemAt a1 (first + (sc2 - 1)))) first (sc2 - 1) topIndex value
  else pushHeap comp a1 first hole1 topIndex value

/-- The function `__pop_heap(first, last, result, comp)`. -/
def popHeap (comp : α → α → Bool) (a : List α) (first last result : Nat) : List α :=
  let value := elemAt a result
  adjustHeap comp (a.set result (elemAt a first)) first 0 (last - first) value

/-- The loop of `__make_heap`, from `__parent` down to 0. -/
def makeHeapLoop (comp : α → α → Bool) (first len : Nat) : Nat → List α → List α
  | 0, a => adjustHeap comp a first 0 len (elemAt a first)
  | parent + 1, a =>
    makeHeapLoop comp first len parent (adjustHeap comp a first (parent + 1) len (elemAt a (first + (parent + 1))))

/-- The function `__make_heap(first, last, comp)`. -/
def makeHeap (comp : α → α → Bool) (a : List α) (first last : Nat) : List α :=
  if last - first < 2 then a
  else makeHeapLoop comp first (last - first) ((last - first - 2) / 2) a

/-- The function `__sort_heap(first, last, comp)`, by recursion on `last - first`. -/
def sortHeap (comp : α → α → Bool) (first : Nat) : Nat → List α → List α
  | 0, a => a
  | n + 1, a =>
    -- here `last - first = n + 1`
    if n + 1 > 1 then sortHeap comp first n (popHeap comp a first (first + n) (first + n)) else a

/-- The function `__heap_select(first, middle, last, comp)`. -/
def heapSelect (comp : α → α → Bool) (a : List α) (first middle last : Nat) : List α :=
  (List.range' middle (last - middle)).foldl
    (fun b i => if comp (elemAt b i) (elemAt b first) then popHeap comp b first middle i else b)
    (makeHeap comp a first middle)

/-- The function `__partial_sort(first, middle, last, comp)`. -/
def partialSort (comp : α → α → Bool) (a : List α) (first middle last : Nat) : List α :=
  sortHeap comp first (middle - first) (heapSelect comp a first middle last)

/-- The function `__introsort_loop(first, last, depth_limit, comp)`; the first argument
is `depth_limit`. -/
def introsortLoop (comp : α → α → Bool) : Nat → List α → Nat → Nat → List α
  | 0, a, first, last =>
    if last - first > 16 then partialSort comp a first last last else a
  | depth + 1, a, first, last =>
    if last - first > 16 then
      let r := unguardedPartitionPivot comp a first last
      introsortLoop comp depth (introsortLoop comp depth r.1 r.2 last) first r.2
    else a

/-- The body of `std::__sort` for a given depth limit: `__introsort_loop` followed by
`__final_insertion_sort` on the whole range. -/
def sortWithDepth (comp : α → α → Bool) (a : List α) (depth : Nat) : List α :=
  if a.length = 0 then a
  else finalInsertionSort comp (introsortLoop comp depth a 0 a.length) 0 a.length

/-- The function `std::sort(begin, end, comp)`: the depth limit is `2 * __lg(end - begin)`. -/
def sort (comp : α → α → Bool) (a : List α) : List α :=
  sortWithDepth comp a (Nat.log2 a.length * 2)

end StdSort

/-- The call of line 42 as libstdc++ runs it:
`sort(detections.begin(), detections.end(), comp)` with
`comp(a, b) = a.confidence > b.confidence`. -/
def gccSort (l : List Detection) : List Detection :=
  StdSort.sort (fun a b => decide (a.confidence > b.confidence)) l

/-! ## The decoder (source lines 151-227) -/

/-- Line 110: `const int inputSize = 640`. -/
def inputSize : Int := 640

/-- Line 195: the value of the `float` literal `0.3f`, 10066330 / 2^25. -/
def confThreshold : ℚ := 10066330 / 33554432

/-- The `cv::Mat out` as far as the decoder reads it: `size` lists `out.size[i]` (so
`out.dims` is its length) and `data` is the row-major buffer of `float` values. -/
structure Mat where
  size : List Int
  data : List ℚ

/-- The call `std::round(x)`: rounding to the nearest integer, halfway cases away from
zero. -/
def roundHalfAway (q : ℚ) : Int :=
  if 0 ≤ q then ⌊q + 1 / 2⌋ else -⌊-q + 1 / 2⌋

/-- The call `std::round(x)` followed by the conversion `int(...)`.  A rounded value
outside the range of `int` is converted to `INT_MIN`, the result of the conversion
instruction of x86-64. -/
def roundToInt (q : ℚ) : Int :=
  if -2147483648 ≤ roundHalfAway q ∧ roundHalfAway q ≤ 2147483647 then roundHalfAway q
  else -2147483648

/-- The scan of `minMaxLoc` over one row of scores: the running maximum and its
column, replaced only by a strictly greater score (the first maximum wins). -/
def maxLocFrom : List ℚ → Nat → ℚ × Nat → ℚ × Nat
  | [], _, best => best
  | s :: rest, i, best => maxLocFrom rest (i + 1) (if best.1 < s then (s, i) else best)

/-- Line 191: `minMaxLoc(scores, 0, &maxClassScore, 0, &classIdPoint)` on the
`1 × num_classes` matrix `scores`: the maximum and the column of its first occurrence. -/
def minMaxLoc (scores : List ℚ) : ℚ × Nat :=
  match scores with
  | [] => (0, 0)
  | s :: rest => maxLocFrom rest 1 (s, 0)

/-- Line 169: `has_objectness = (ch == 85)`. -/
def hasObjectness (ch : Int) : Bool := decide (ch = 85)

/-- Line 182: `objectness = has_objectness ? data[4] : 1.0f`. -/
def objectness (ch : Int) (data : List ℚ) : ℚ :=
  if hasObjectness ch then data.getD 4 0 else 1

/-- Line 183: `class_offset = has_objectness ? 5 : 4`. -/
def classOffset (ch : Int) : Nat := if hasObjectness ch then 5 else 4

/-- Line 188: the matrix `scores`, the `num_classes = ch - class_offset` values of the
row from `data + class_offset` on. -/
def classScores (ch : Int) (data : List ℚ) : List ℚ :=
  (data.drop (classOffset ch)).take (ch - (classOffset ch : Int)).toNat

/-- Lines 189-191: the pair `(maxClassScore, classIdPoint.x)` of the row `data`. -/
def bestClass (ch : Int) (data : List ℚ) : ℚ × Nat :=
  minMaxLoc (classScores ch data)

/-- Line 194: `conf = objectness * (float)maxClassScore`, a `float` product. -/
def combinedConfidence (fl : ℚ → ℚ) (ch : Int) (data : List ℚ) : ℚ :=
  fl (objectness ch data * (bestClass ch data).1)

/-- Lines 211-215: the clip of the rounded box `(rx, ry, rw, rh)` against the image;
`none` is the `continue` of line 213.  The differences and the sums `rx + rw`,
`ry + rh` are `int` arithmetic. -/
def clipBox (origW origH : Int) (rx ry rw rh : Int) : Option Rect :=
  let rx1 := max 0 (min rx (wrapInt (origW - 1)))
  let ry1 := max 0 (min ry (wrapInt (origH - 1)))
  if rw ≤ 0 ∨ rh ≤ 0 then none
  else
    let rw1 := if wrapInt (rx1 + rw) > origW then wrapInt (origW - rx1) else rw
    let rh1 := if wrapInt (ry1 + rh) > origH then wrapInt (origH - ry1) else rh
    some ⟨rx1, ry1, rw1, rh1⟩

/-- Lines 173-219: the body of the decoding loop for one row `data` of `ch` values.
The result is the detection pushed to `detections`, and `none` when the iteration ends
in one of the `continue` statements. `classCount` is `class_names.size()`. -/
def decodeRow (fl : ℚ → ℚ) (classCount : Nat) (origW origH : Int) (ch : Int)
    (data : List ℚ) : Option Detection :=
  let scaleX := fl (fl (origW : ℚ) / fl (inputSize : ℚ))
  let scaleY := fl (fl (origH : ℚ) / fl (inputSize : ℚ))
  let cx := fl (data.getD 0 0 * fl (inputSize : ℚ))
  let cy := fl (data.getD 1 0 * fl (inputSize : ℚ))
  let w := fl (data.getD 2 0 * fl (inputSize : ℚ))
  let h := fl (data.getD 3 0 * fl (inputSize : ℚ))
  let num_classes : Int := ch - (classOffset ch : Int)
  if num_classes ≤ 0 then none
  else
    let conf := combinedConfidence fl ch data
    if conf ≤ confThreshold then none
    else
      let cls : Int := ((bestClass ch data).2 : Int)
      if cls < 0 ∨ cls ≥ (classCount : Int) then none
      else
        let x1 := fl (cx - fl (w / 2))
        let y1 := fl (cy - fl (h / 2))
        let rx := roundToInt (fl (x1 * scaleX))
        let ry := roundToInt (fl (y1 * scaleY))
        let rw := roundToInt (fl (w * scaleX))
        let rh := roundToInt (fl (h * scaleY))
        match clipBox origW origH rx ry rw rh with
        | none => none
        | some box => some ⟨box, conf, cls⟩

/-- Line 168 and 173: row `i` of `reshaped = out.reshape(1, ch).t()`, a matrix of
`rows` rows and `ch` columns whose entry `(i, c)` is `out.data[c * rows + i]`. -/
def reshapedRow (out : Mat) (ch rows i : Nat) : List ℚ :=
  (List.range ch).map (fun c => out.data.getD (c * rows + i) 0)

/-- Lines 151-227: the vector `detections` when the decoding block is left. -/
def decode (fl : ℚ → ℚ) (classCount : Nat) (origW origH : Int) (out : Mat) :
    List Detection :=
  if out.size.length = 3 then
    let ch := out.size.getD 1 0
    let detCount := out.size.getD 2 0
    if (ch = 84 ∨ ch = 85) ∧ detCount = 8400 then
      let rows := (out.size.getD 0 0 * detCount).toNat
      (List.range rows).filterMap
        (fun i => decodeRow fl classCount origW origH ch (reshapedRow out ch.toNat rows i))
    else []
  else []

/-! ## Constants and inputs of the scenarios -/

/-- Line 232: the value of the `float` literal `0.45f`, 15099494 / 2^25. -/
def nmsThreshold : ℚ := 15099494 / 33554432

/-- Box A of the scenario: (10,10,50,50), confidence 0.9, class 0. -/
def detA : Detection := ⟨⟨10, 10, 50, 50⟩, 9 / 10, 0⟩

/-- Box B of the scenario: (12,12,48,48), confidence 0.7, class 0. -/
def detB : Detection := ⟨⟨12, 12, 48, 48⟩, 7 / 10, 0⟩

/-- Box C of the scenario: (200,200,30,30), confidence 0.6, class 2. -/
def detC : Detection := ⟨⟨200, 200, 30, 30⟩, 6 / 10, 2⟩

/-- Seventeen detections of equal confidence on one row, no two of them overlapping:
boxes `(10 i, 0, 5, 5)` for `i = 0 .. 16`, confidence 1/2, class `i`. -/
def row17 : List Detection :=
  (List.range 17).map (fun i => ⟨⟨10 * (i : Int), 0, 5, 5⟩, 1 / 2, (i : Int)⟩)

/-- The IoU in the words of the specification: the area of the intersection over
`area(a) + area(b) - area(intersection)`, and 0 when that sum is 0; the areas are the
exact numbers of pixels and the quotient is computed in `float` like the value of the
code. -/
def iouInclusionExclusion (fl : ℚ → ℚ) (a b : Rect) : ℚ :=
  let inter := (a.inter b).pixels
  let uni := a.pixels + b.pixels - inter
  if 0 < uni then fl (fl (inter : ℚ) / fl (uni : ℚ)) else 0

/-- Two overlapping detections of equal confidence: boxes (0,0,10,10) and (1,1,10,10),
confidence 1/2, classes 0 and 1. -/
def tieX : Detection := ⟨⟨0, 0, 10, 10⟩, 1 / 2, 0⟩

/-- The second detection of the tie, see `tieX`. -/
def tieY : Detection := ⟨⟨1, 1, 10, 10⟩, 1 / 2, 1⟩

/-- Four detections, in descending confidence order: box (0,7,10,10) conf 0.9,
box (0,0,10,10) conf 0.8, box (0,0,5,10) conf 0.7, box (5,0,5,10) conf 0.6. -/
def mono4 : List Detection :=
  [⟨⟨0, 7, 10, 10⟩, 9 / 10, 0⟩, ⟨⟨0, 0, 10, 10⟩, 8 / 10, 0⟩, ⟨⟨0, 0, 5, 10⟩, 7 / 10, 0⟩,
    ⟨⟨5, 0, 5, 10⟩, 6 / 10, 0⟩]

/-- Two detections whose boxes (0,0,10,10) and (2,2,10,10) share an 8 × 8 square. -/
def shiftA : Detection := ⟨⟨0, 0, 10, 10⟩, 9 / 10, 0⟩

/-- The second detection of the shifted pair, see `shiftA`. -/
def shiftB : Detection := ⟨⟨2, 2, 10, 10⟩, 8 / 10, 0⟩

/-- Lines 160-227: the branch the shape check of the decoder takes.  The two error
branches carry what their message prints: the three sizes, or `out.dims`. -/
inductive DecodeBranch where
  | decoded
  | unexpectedShape (s0 s1 s2 : Int)
  | unexpectedDims (dims : Nat)
deriving DecidableEq, Repr

/-- Lines 160-165 and 221-227: which branch is taken for the tensor `out`. -/
def decodeBranch (out : Mat) : DecodeBranch :=
  if out.size.length = 3 then
    let ch := out.size.getD 1 0
    let detCount := out.size.getD 2 0
    if (ch = 84 ∨ ch = 85) ∧ detCount = 8400 then DecodeBranch.decoded
    else DecodeBranch.unexpectedShape (out.size.getD 0 0) (out.size.getD 1 0) (out.size.getD 2 0)
  else DecodeBranch.unexpectedDims out.size.length

/-- Lines 176-179 and 201-208: the rounded rescaled box `(rx, ry, rw, rh)` of a row,
before the clip of lines 211-215. -/
def roundedBox (fl : ℚ → ℚ) (origW origH : Int) (data : List ℚ) : Int × Int × Int × Int :=
  let scaleX := fl (fl (origW : ℚ) / fl (inputSize : ℚ))
  let scaleY := fl (fl (origH : ℚ) / fl (inputSize : ℚ))
  let cx := fl (data.getD 0 0 * fl (inputSize : ℚ))
  let cy := fl (data.getD 1 0 * fl (inputSize : ℚ))
  let w := fl (data.getD 2 0 * fl (inputSize : ℚ))
  let h := fl (data.getD 3 0 * fl (inputSize : ℚ))
  let x1 := fl (cx - fl (w / 2))
  let y1 := fl (cy - fl (h / 2))
  (roundToInt (fl (x1 * scaleX)), roundToInt (fl (y1 * scaleY)),
    roundToInt (fl (w * scaleX)), roundToInt (fl (h * scaleY)))

/-- The image rectangle `[0, origW) × [0, origH)` as a `cv::Rect`. -/
def imageRect (origW origH : Int) : Rect := ⟨0, 0, origW, origH⟩

/-- A row of 84 values (no objectness channel): centre (1/2, 1/2), size (1/4, 1/4),
class 0 with score 1/2, the other 79 classes with score 0.  In a 640 × 640 image its
box is (240, 240, 160, 160). -/
def rowCentre : List ℚ := [1 / 2, 1 / 2, 1 / 4, 1 / 4, 1 / 2] ++ List.replicate 79 0

/-- A row of 84 values whose box starts left of the image: centre (0, 15) and size
(10, 10) in pixels of a 640 × 640 image, so the rounded box is (-5, 10, 10, 10); class
0 with score 1/2. -/
def rowLeftEdge : List ℚ := [0, 3 / 128, 1 / 64, 1 / 64, 1 / 2] ++ List.replicate 79 0

/-- A row of 84 values whose box lies right of the image: centre (705, 15) and size
(10, 10) in pixels of a 640 × 640 image, so the rounded box is (700, 10, 10, 10); class
0 with score 1/2. -/
def rowOutside : List ℚ := [141 / 128, 3 / 128, 1 / 64, 1 / 64, 1 / 2] ++ List.replicate 79 0

/-- A tensor of shape `[1, row.length, 8400]` whose candidate 0 is `row` and whose
other candidates are all zero. -/
def tensorOfRow (row : List ℚ) : Mat :=
  ⟨[1, (row.length : Int), 8400],
    (List.range (row.length * 8400)).map
      (fun k => if k % 8400 = 0 then row.getD (k / 8400) 0 else 0)⟩

/-! ## Containment, positions and comparison sorts -/

/-- The rectangle `a` contains the rectangle `b`, edge by edge. -/
def Rect.containsRect (a b : Rect) : Prop :=
  a.x ≤ b.x ∧ a.y ≤ b.y ∧ b.x + b.width ≤ a.x + a.width ∧ b.y + b.height ≤ a.y + a.height

/-- The template `std::sort` reads the elements only through the comparator, and the
comparator of line 43 reads the confidence only: changing the other fields of the
elements changes nothing in the order the sort produces. -/
def IsComparisonSort (sort : List Detection → List Detection) : Prop :=
  ∀ f : Detection → Detection, (∀ d, (f d).confidence = d.confidence) →
    ∀ l, sort (l.map f) = (sort l).map f

/-- The input list with the class of every detection replaced by its position. -/
def withIndex (D : List Detection) : List Detection :=
  (List.range D.length).map
    (fun i => ⟨(D.getD i default).box, (D.getD i default).confidence, (i : Int)⟩)

/-- The detection `d` with its class replaced by the class of the detection of `D` at
the position that the class of `d` names. -/
def classFrom (D : List Detection) (d : Detection) : Detection :=
  ⟨d.box, d.confidence, (D.getD d.classId.toNat default).classId⟩

/-! ## Ties of the sort and a row with objectness -/

/-- The sort keeps the detections of equal confidence of `l` in their input order: for
every confidence `c` the detections of confidence `c` come in the same order in
`sort l` and in `l`. -/
def KeepsTieOrder (sort : List Detection → List Detection) (l : List Detection) : Prop :=
  ∀ c : ℚ, (sort l).filter (fun d => decide (d.confidence = c)) =
    l.filter (fun d => decide (d.confidence = c))

/-- A row of 85 values (with objectness channel): centre (1/2, 1/2), size (1/4, 1/4),
objectness 1/2, class 0 with score 1, the other 79 classes with score 0. -/
def rowObjectness : List ℚ := [1 / 2, 1 / 2, 1 / 4, 1 / 4, 1 / 2, 1] ++ List.replicate 79 0

/-! ## Inputs beyond the range of `int` -/

/-- A row of 84 values whose box is far wider than the image: centre x and width
3355443 (in units of the 640-pixel input, so `cx * 640 = w * 640 = 2147483520`, which
is `2^31 - 128`), centre y 1/2 and height 1/4; class 0 with score 1/2.  Every value
is a `float`, and the rounded box (1073741760, 240, 2147483520, 160) fits `int`. -/
def rowWide : List ℚ := [3355443, 1 / 2, 3355443, 1 / 4, 1 / 2] ++ List.replicate 79 0

/-- A square of 65536 × 65536 pixels: its number of pixels is `2^32`. -/
def bigSquare : Rect := ⟨0, 0, 65536, 65536⟩

/-- A rectangle of 65536 × 65537 pixels: its number of pixels is `2^32 + 65536`. -/
def bigRect : Rect := ⟨0, 0, 65536, 65537⟩

/-- The box the decoder emits for the row `rowWide` in a 640 × 640 image. -/
def wideBox : Rect := ⟨639, 240, 2147483520, 160⟩

/-- A square of 1000 × 1000 pixels inside `bigRect`. -/
def smallSquare : Rect := ⟨0, 0, 1000, 1000⟩

/-! ## Binary32 rounding is a rounding -/

theorem roundHalfEven_intCast (n : Int) : roundHalfEven (n : ℚ) = n := by
  unfold roundHalfEven
  simp

theorem roundHalfEven_floor_le (q : ℚ) : ⌊q⌋ ≤ roundHalfEven q := by
  unfold roundHalfEven
  dsimp only
  split_ifs <;> omega

theorem roundHalfEven_le_floor_succ (q : ℚ) : roundHalfEven q ≤ ⌊q⌋ + 1 := by
  unfold roundHalfEven
  dsimp only
  split_ifs <;> omega

theorem roundHalfEven_mono (a b : ℚ) (h : a ≤ b) : roundHalfEven a ≤ roundHalfEven b := by
  have hf : ⌊a⌋ ≤ ⌊b⌋ := Int.floor_mono h
  rcases lt_or_eq_of_le hf with hlt | heq
  · calc roundHalfEven a ≤ ⌊a⌋ + 1 := roundHalfEven_le_floor_succ a
      _ ≤ ⌊b⌋ := hlt
      _ ≤ roundHalfEven b := roundHalfEven_floor_le b
  · have hr : a - (⌊a⌋ : ℚ) ≤ b - (⌊a⌋ : ℚ) := by linarith
    unfold roundHalfEven
    dsimp only
    rw [← heq]
    split_ifs with h1 h2 h3 h4 h5 h6 h7 h8 <;> first | omega | (exfalso; linarith)

theorem roundHalfEven_neg (q : ℚ) : roundHalfEven (-q) = -roundHalfEven q := by
  by_cases hq : (⌊q⌋ : ℚ) = q
  · rw [← hq, ← Int.cast_neg, roundHalfEven_intCast, roundHalfEven_intCast]
  · have hlt : (⌊q⌋ : ℚ) < q := lt_of_le_of_ne (Int.floor_le q) hq
    have hfl : ⌊-q⌋ = -⌊q⌋ - 1 := by
      rw [Int.floor_eq_iff]
      have := Int.lt_floor_add_one q
      push_cast
      constructor <;> linarith
    unfold roundHalfEven
    dsimp only
    rw [hfl]
    push_cast
    split_ifs with h1 h2 h3 h4 h5 h6 h7 h8 h9 h10 <;>
      first | omega | (exfalso; linarith)

theorem binade_neg (q : ℚ) : binade (-q) = binade q := by
  unfold binade; rw [abs_neg]

theorem two_zpow_pos (e : Int) : (0 : ℚ) < (2 : ℚ) ^ e := zpow_pos (by norm_num) e

theorem roundF32_neg (q : ℚ) : roundF32 (-q) = -roundF32 q := by
  unfold roundF32
  rw [binade_neg, neg_div, roundHalfEven_neg]
  push_cast
  ring

theorem roundF32_nonneg (q : ℚ) (h : 0 ≤ q) : 0 ≤ roundF32 q := by
  unfold roundF32
  have h1 : (0 : ℚ) ≤ q / (2 : ℚ) ^ (binade q - 23) := div_nonneg h (le_of_lt (two_zpow_pos _))
  have h2 := roundHalfEven_mono _ _ h1
  have h0 : roundHalfEven 0 = 0 := by
    have := roundHalfEven_intCast 0
    simpa using this
  rw [h0] at h2
  exact mul_nonneg (by exact_mod_cast h2) (le_of_lt (two_zpow_pos _))

theorem roundF32_le_pow (q : ℚ) (h : 0 < q) : roundF32 q ≤ (2 : ℚ) ^ (binade q + 1) := by
  have hlog : q < (2 : ℚ) ^ (Int.log 2 q + 1) := by
    have := Int.lt_zpow_succ_log_self (b := 2) (by norm_num) q
    simpa using this
  have hb : Int.log 2 q ≤ binade q := by
    unfold binade; rw [abs_of_pos h]; exact le_max_left _ _
  have hq : q < (2 : ℚ) ^ (binade q + 1) :=
    lt_of_lt_of_le hlog (zpow_le_zpow_right₀ (by norm_num) (by omega))
  have hsplit : (2 : ℚ) ^ (binade q + 1) = (2 : ℚ) ^ (24 : ℕ) * (2 : ℚ) ^ (binade q - 23) := by
    rw [← zpow_natCast, ← zpow_add₀ (by norm_num)]
    congr 1; push_cast; ring
  have hdiv : q / (2 : ℚ) ^ (binade q - 23) ≤ (((2 ^ 24 : Int)) : ℚ) := by
    rw [div_le_iff₀ (two_zpow_pos _)]
    have e : (((2 ^ 24 : Int)) : ℚ) = (2 : ℚ) ^ (24 : ℕ) := by norm_num
    rw [e, ← hsplit]
    exact le_of_lt hq
  have h2 := roundHalfEven_mono _ _ hdiv
  rw [roundHalfEven_intCast] at h2
  unfold roundF32
  rw [hsplit]
  apply mul_le_mul_of_nonneg_right _ (le_of_lt (two_zpow_pos _))
  exact_mod_cast h2

theorem pow_le_roundF32 (q : ℚ) (h : 0 < q) (hn : -126 ≤ Int.log 2 q) :
    (2 : ℚ) ^ (binade q) ≤ roundF32 q := by
  have hb : binade q = Int.log 2 q := by
    unfold binade; rw [abs_of_pos h]; exact max_eq_left hn
  have hlog : (2 : ℚ) ^ (Int.log 2 q) ≤ q := by
    have := Int.zpow_log_le_self (b := 2) (by norm_num) h
    simpa using this
  have hsplit : (2 : ℚ) ^ (binade q) = (2 : ℚ) ^ (23 : ℕ) * (2 : ℚ) ^ (binade q - 23) := by
    rw [← zpow_natCast, ← zpow_add₀ (by norm_num)]
    congr 1; push_cast; ring
  have hdiv : (((2 ^ 23 : Int)) : ℚ) ≤ q / (2 : ℚ) ^ (binade q - 23) := by
    rw [le_div_iff₀ (two_zpow_pos _)]
    have e : (((2 ^ 23 : Int)) : ℚ) = (2 : ℚ) ^ (23 : ℕ) := by norm_num
    rw [e, ← hsplit, hb]
    exact hlog
  have h2 := roundHalfEven_mono _ _ hdiv
  rw [roundHalfEven_intCast] at h2
  unfold roundF32
  rw [hsplit]
  apply mul_le_mul_of_nonneg_right _ (le_of_lt (two_zpow_pos _))
  exact_mod_cast h2

theorem roundF32_mono_pos (a b : ℚ) (ha : 0 < a) (h : a ≤ b) : roundF32 a ≤ roundF32 b := by
  have hb : 0 < b := lt_of_lt_of_le ha h
  have hlog : Int.log 2 a ≤ Int.log 2 b := Int.log_mono_right ha h
  have hbin : binade a ≤ binade b := by
    unfold binade
    rw [abs_of_pos ha, abs_of_pos hb]
    exact max_le_max hlog (le_refl _)
  rcases lt_or_eq_of_le hbin with hlt | heq
  · have hn : -126 ≤ Int.log 2 b := by
      by_contra hc
      have h1 : binade b = -126 := by
        unfold binade; rw [abs_of_pos hb]; exact max_eq_right (by omega)
      have h2 : -126 ≤ binade a := le_max_right _ _
      omega
    calc roundF32 a ≤ (2 : ℚ) ^ (binade a + 1) := roundF32_le_pow a ha
      _ ≤ (2 : ℚ) ^ (binade b) := zpow_le_zpow_right₀ (by norm_num) (by omega)
      _ ≤ roundF32 b := pow_le_roundF32 b hb hn
  · unfold roundF32
    rw [heq]
    apply mul_le_mul_of_nonneg_right _ (le_of_lt (two_zpow_pos _))
    have : a / (2 : ℚ) ^ (binade b - 23) ≤ b / (2 : ℚ) ^ (binade b - 23) :=
      div_le_div_of_nonneg_right h (le_of_lt (two_zpow_pos _))
    exact_mod_cast roundHalfEven_mono _ _ this

theorem roundF32_zero : roundF32 0 = 0 := by
  unfold roundF32
  have h0 : roundHalfEven 0 = 0 := by
    have := roundHalfEven_intCast 0
    simpa using this
  simp [h0]

theorem roundF32_mono_nonneg (a b : ℚ) (ha : 0 ≤ a) (h : a ≤ b) : roundF32 a ≤ roundF32 b := by
  rcases lt_or_eq_of_le ha with hpos | hz
  · exact roundF32_mono_pos a b hpos h
  · rw [← hz, roundF32_zero]
    exact roundF32_nonneg b (le_trans ha h)

theorem roundF32_mono (a b : ℚ) (h : a ≤ b) : roundF32 a ≤ roundF32 b := by
  by_cases ha : 0 ≤ a
  · exact roundF32_mono_nonneg a b ha h
  · have ha' : 0 ≤ -a := by linarith
    by_cases hb : 0 ≤ b
    · have h1 := roundF32_nonneg (-a) ha'
      rw [roundF32_neg] at h1
      have h2 := roundF32_nonneg b hb
      linarith
    · have hb' : 0 ≤ -b := by linarith
      have := roundF32_mono_nonneg (-b) (-a) hb' (by linarith)
      rw [roundF32_neg, roundF32_neg] at this
      linarith

theorem roundF32_exact (m e : Int) (hm : |m| < 2 ^ 24) (he : -149 ≤ e) :
    roundF32 ((m : ℚ) * (2 : ℚ) ^ e) = (m : ℚ) * (2 : ℚ) ^ e := by
  by_cases hm0 : m = 0
  · subst hm0; simp [roundF32_zero]
  · have hmq : |(m : ℚ)| < (2 : ℚ) ^ (24 : ℕ) := by
      have : ((|m| : Int) : ℚ) < (((2 ^ 24 : Int)) : ℚ) := by exact_mod_cast hm
      rw [Int.cast_abs] at this
      have e2 : (((2 ^ 24 : Int)) : ℚ) = (2 : ℚ) ^ (24 : ℕ) := by norm_num
      rwa [e2] at this
    have hmpos : 0 < |(m : ℚ)| := abs_pos.2 (by exact_mod_cast hm0)
    have habs : |(m : ℚ) * (2 : ℚ) ^ e| = |(m : ℚ)| * (2 : ℚ) ^ e := by
      rw [abs_mul, abs_of_pos (two_zpow_pos e)]
    have hqpos : 0 < |(m : ℚ) * (2 : ℚ) ^ e| := by
      rw [habs]; exact mul_pos hmpos (two_zpow_pos e)
    have hlt : |(m : ℚ) * (2 : ℚ) ^ e| < ((2 : ℕ) : ℚ) ^ (24 + e) := by
      rw [habs, zpow_add₀ (by norm_num)]
      have : ((2 : ℕ) : ℚ) ^ (24 : Int) = (2 : ℚ) ^ (24 : ℕ) := by norm_num
      rw [this]
      have h2 : ((2 : ℕ) : ℚ) ^ e = (2 : ℚ) ^ e := by norm_num
      rw [h2]
      exact mul_lt_mul_of_pos_right hmq (two_zpow_pos e)
    have hlog : Int.log 2 |(m : ℚ) * (2 : ℚ) ^ e| < 24 + e :=
      (Int.lt_zpow_iff_log_lt (b := 2) (by norm_num) hqpos).1 hlt
    have hbin : binade ((m : ℚ) * (2 : ℚ) ^ e) - 23 ≤ e := by
      unfold binade
      have := max_le (a := Int.log 2 |(m : ℚ) * (2 : ℚ) ^ e|) (b := -126) (c := 23 + e)
        (by omega) (by omega)
      omega
    obtain ⟨k, hk⟩ := Int.eq_ofNat_of_zero_le (sub_nonneg.2 hbin)
    have hdiv : (m : ℚ) * (2 : ℚ) ^ e / (2 : ℚ) ^ (binade ((m : ℚ) * (2 : ℚ) ^ e) - 23) =
        ((m * 2 ^ k : Int) : ℚ) := by
      rw [mul_div_assoc, ← zpow_sub₀ (by norm_num), hk]
      push_cast
      rw [zpow_natCast]
    unfold roundF32
    rw [hdiv, roundHalfEven_intCast]
    push_cast
    rw [mul_assoc, ← zpow_natCast, ← zpow_add₀ (by norm_num), ← hk]
    congr 2
    ring

/-! ## The loops in terms of their indices -/

theorem innerStep_length (fl : ℚ → ℚ) (dets : List Detection) (t : ℚ) (i : Nat)
    (sup : List Bool) (j : Nat) : (innerStep fl dets t i sup j).length = sup.length := by
  unfold innerStep
  split_ifs <;> simp

theorem getD_set_true (sup : List Bool) (j k : Nat) (hj : j < sup.length) :
    (sup.set j true).getD k false = true ↔ (sup.getD k false = true ∨ k = j) := by
  simp only [List.getD_eq_getElem?_getD, List.getElem?_set]
  by_cases hk : j = k
  · subst hk; simp [hj]
  · have hk2 : ¬ k = j := fun h => hk h.symm
    simp [hk, hk2]

theorem innerStep_getD (fl : ℚ → ℚ) (dets : List Detection) (t : ℚ) (i : Nat)
    (sup : List Bool) (j : Nat) (hj : j < sup.length) (k : Nat) :
    (innerStep fl dets t i sup j).getD k false = true ↔
      (sup.getD k false = true ∨
        (k = j ∧ t < iou fl (dets.getD i default).box (dets.getD j default).box)) := by
  unfold innerStep
  by_cases hs : sup.getD j false = true
  · rw [if_pos hs]
    constructor
    · exact Or.inl
    · rintro (h | ⟨rfl, -⟩)
      · exact h
      · exact hs
  · rw [if_neg hs]
    by_cases hlt : t < iou fl (dets.getD i default).box (dets.getD j default).box
    · rw [if_pos hlt, getD_set_true sup j k hj]
      constructor
      · rintro (h | h)
        · exact Or.inl h
        · exact Or.inr ⟨h, hlt⟩
      · rintro (h | ⟨h, -⟩)
        · exact Or.inl h
        · exact Or.inr h
    · rw [if_neg hlt]
      constructor
      · exact Or.inl
      · rintro (h | ⟨-, h⟩)
        · exact h
        · exact absurd h hlt

theorem innerFold_spec (fl : ℚ → ℚ) (dets : List Detection) (t : ℚ) (i : Nat) :
    ∀ (m start : Nat) (sup : List Bool), start + m ≤ sup.length →
      ((List.range' start m).foldl (innerStep fl dets t i) sup).length = sup.length ∧
      ∀ k, ((List.range' start m).foldl (innerStep fl dets t i) sup).getD k false = true ↔
        (sup.getD k false = true ∨
          (start ≤ k ∧ k < start + m ∧
            t < iou fl (dets.getD i default).box (dets.getD k default).box)) := by
  intro m
  induction m with
  | zero =>
    intro start sup _
    refine ⟨rfl, fun k => ?_⟩
    simp only [List.range'_zero, List.foldl_nil]
    constructor
    · exact Or.inl
    · rintro (h | ⟨h1, h2, -⟩)
      · exact h
      · omega
  | succ m ih =>
    intro start sup hlen
    have hstart : start < sup.length := by omega
    have hlen1 : (start + 1) + m ≤ (innerStep fl dets t i sup start).length := by
      rw [innerStep_length]; omega
    obtain ⟨ihl, ihk⟩ := ih (start + 1) (innerStep fl dets t i sup start) hlen1
    simp only [List.range'_succ, List.foldl_cons]
    refine ⟨by rw [ihl, innerStep_length], fun k => ?_⟩
    rw [ihk k, innerStep_getD fl dets t i sup start hstart k]
    constructor
    · rintro ((h | ⟨rfl, h⟩) | ⟨h1, h2, h3⟩)
      · exact Or.inl h
      · exact Or.inr ⟨le_refl _, by omega, h⟩
      · exact Or.inr ⟨by omega, by omega, h3⟩
    · rintro (h | ⟨h1, h2, h3⟩)
      · exact Or.inl (Or.inl h)
      · by_cases hk : k = start
        · subst hk; exact Or.inl (Or.inr ⟨rfl, h3⟩)
        · exact Or.inr ⟨by omega, by omega, h3⟩

theorem innerLoop_spec (fl : ℚ → ℚ) (dets : List Detection) (t : ℚ) (i : Nat)
    (sup : List Bool) (hlen : sup.length = dets.length) (hi : i < dets.length) :
    (innerLoop fl dets t i sup).length = dets.length ∧
    ∀ k, (innerLoop fl dets t i sup).getD k false = true ↔
      (sup.getD k false = true ∨
        (i < k ∧ k < dets.length ∧
          t < iou fl (dets.getD i default).box (dets.getD k default).box)) := by
  have h := innerFold_spec fl dets t i (dets.length - (i + 1)) (i + 1) sup (by omega)
  unfold innerLoop
  refine ⟨by rw [h.1, hlen], fun k => ?_⟩
  rw [h.2 k]
  constructor
  · rintro (h | ⟨h1, h2, h3⟩)
    · exact Or.inl h
    · exact Or.inr ⟨by omega, by omega, h3⟩
  · rintro (h | ⟨h1, h2, h3⟩)
    · exact Or.inl h
    · exact Or.inr ⟨by omega, by omega, h3⟩

theorem supInv_init (fl : ℚ → ℚ) (dets : List Detection) (t : ℚ) :
    SupInv fl dets t 0 (List.replicate dets.length false) := by
  refine ⟨by simp, fun j hj => ?_⟩
  constructor
  · intro h
    simp [List.getD_eq_getElem?_getD, List.getElem?_replicate, hj] at h
  · rintro ⟨i, hi, -⟩
    omega

theorem supInv_step (fl : ℚ → ℚ) (dets : List Detection) (t : ℚ) (k : Nat) (sup : List Bool)
    (hk : k < dets.length) (h : SupInv fl dets t k sup) :
    SupInv fl dets t (k + 1) (outerStep fl dets t sup k) := by
  obtain ⟨hlen, hinv⟩ := h
  unfold outerStep
  by_cases hs : sup.getD k false = true
  · rw [if_pos hs]
    refine ⟨hlen, fun j hj => ?_⟩
    rw [hinv j hj]
    constructor
    · rintro ⟨i, h1, h2, h3, h4⟩
      exact ⟨i, by omega, h2, h3, h4⟩
    · rintro ⟨i, h1, h2, h3, h4⟩
      have hik : i ≠ k := by
        rintro rfl
        rw [hs] at h3
        exact Bool.noConfusion h3
      exact ⟨i, by omega, h2, h3, h4⟩
  · rw [if_neg hs]
    obtain ⟨hl, hget⟩ := innerLoop_spec fl dets t k sup hlen hk
    have hsame : ∀ i, i ≤ k → ((innerLoop fl dets t k sup).getD i false = false ↔
        sup.getD i false = false) := by
      intro i hi
      rw [← Bool.not_eq_true, ← Bool.not_eq_true, hget i]
      constructor
      · intro h1 h2
        exact h1 (Or.inl h2)
      · rintro h1 (h2 | ⟨h2, -⟩)
        · exact h1 h2
        · omega
    refine ⟨hl, fun j hj => ?_⟩
    rw [hget j]
    constructor
    · rintro (h1 | ⟨h1, h2, h3⟩)
      · obtain ⟨i, g1, g2, g3, g4⟩ := (hinv j hj).1 h1
        exact ⟨i, by omega, g2, (hsame i (by omega)).2 g3, g4⟩
      · exact ⟨k, by omega, h1, (hsame k (le_refl k)).2 (by simpa using hs), h3⟩
    · rintro ⟨i, g1, g2, g3, g4⟩
      by_cases hik : i = k
      · subst hik
        exact Or.inr ⟨g2, hj, g4⟩
      · exact Or.inl ((hinv j hj).2 ⟨i, by omega, g2, (hsame i (by omega)).1 g3, g4⟩)

theorem supInv_fold (fl : ℚ → ℚ) (dets : List Detection) (t : ℚ) :
    ∀ k, k ≤ dets.length →
      SupInv fl dets t k
        ((List.range k).foldl (outerStep fl dets t) (List.replicate dets.length false)) := by
  intro k
  induction k with
  | zero => intro _; exact supInv_init fl dets t
  | succ k ih =>
    intro hk
    rw [List.range_succ, List.foldl_append]
    exact supInv_step fl dets t k _ (by omega) (ih (by omega))

/-- What the nested loops compute: the flag of `j` is set exactly when some earlier
index that is itself not flagged overlaps `j` by more than the threshold. -/
theorem suppressLoop_spec (fl : ℚ → ℚ) (dets : List Detection) (t : ℚ) :
    (suppressLoop fl dets t).length = dets.length ∧
    ∀ j, j < dets.length → ((suppressLoop fl dets t).getD j false = true ↔
      ∃ i, i < j ∧ (suppressLoop fl dets t).getD i false = false ∧
        t < iou fl (dets.getD i default).box (dets.getD j default).box) := by
  obtain ⟨hl, h⟩ := supInv_fold fl dets t dets.length (le_refl _)
  refine ⟨hl, fun j hj => ?_⟩
  unfold suppressLoop
  rw [h j hj]
  constructor
  · rintro ⟨i, -, h2, h3, h4⟩
    exact ⟨i, h2, h3, h4⟩
  · rintro ⟨i, h2, h3, h4⟩
    exact ⟨i, by omega, h2, h3, h4⟩

/-! ## The result list in terms of the flags -/

theorem collect_fold (dets : List Detection) (sup : List Bool)
    (hlen : sup.length = dets.length) :
    ∀ k, k ≤ dets.length →
      (List.range k).foldl
        (fun acc i => if sup.getD i false then acc else acc ++ [dets.getD i default]) [] =
      (((dets.take k).zip (sup.take k)).filter (fun p => !p.2)).map Prod.fst := by
  intro k
  induction k with
  | zero => intro _; simp
  | succ k ih =>
    intro hk
    have hkd : k < dets.length := by omega
    have hks : k < sup.length := by omega
    rw [List.range_succ, List.foldl_append, ih (by omega)]
    rw [List.take_succ, List.take_succ, List.getElem?_eq_getElem hkd,
      List.getElem?_eq_getElem hks]
    simp only [Option.toList_some]
    rw [List.zip_append (by simp [Nat.min_eq_left, Nat.le_of_lt hkd, Nat.le_of_lt hks])]
    rw [List.filter_append, List.map_append]
    simp only [List.foldl_cons, List.foldl_nil, List.getD_eq_getElem _ _ hkd,
      List.getD_eq_getElem _ _ hks]
    cases hb : sup[k] <;> simp [hb]

theorem collect_eq (dets : List Detection) (sup : List Bool)
    (hlen : sup.length = dets.length) :
    collect dets sup = ((dets.zip sup).filter (fun p => !p.2)).map Prod.fst := by
  unfold collect
  rw [collect_fold dets sup hlen dets.length (le_refl _)]
  rw [List.take_of_length_le (le_refl _), List.take_of_length_le (by omega)]

theorem collect_sublist (dets : List Detection) (sup : List Bool)
    (hlen : sup.length = dets.length) : (collect dets sup).Sublist dets := by
  rw [collect_eq dets sup hlen]
  have h1 : (((dets.zip sup).filter (fun p => !p.2)).map Prod.fst).Sublist
      ((dets.zip sup).map Prod.fst) := List.Sublist.map _ (List.filter_sublist _)
  rwa [List.map_fst_zip _ _ (by omega)] at h1

theorem mem_collect (dets : List Detection) (sup : List Bool)
    (hlen : sup.length = dets.length) (d : Detection) :
    d ∈ collect dets sup ↔
      ∃ j, j < dets.length ∧ sup.getD j false = false ∧ dets.getD j default = d := by
  rw [collect_eq dets sup hlen]
  simp only [List.mem_map, List.mem_filter, Prod.exists, exists_and_right, exists_eq_right,
    Bool.not_eq_eq_eq_not, Bool.not_true]
  constructor
  · intro hmem
    obtain ⟨n, hn, hget⟩ := List.mem_iff_getElem.1 hmem
    have hn1 : n < dets.length := by
      have := hn; simp only [List.length_zip] at this; omega
    have hn2 : n < sup.length := by omega
    rw [List.getElem_zip] at hget
    refine ⟨n, hn1, ?_, ?_⟩
    · rw [List.getD_eq_getElem _ _ hn2]
      exact congrArg Prod.snd hget
    · rw [List.getD_eq_getElem _ _ hn1]
      exact congrArg Prod.fst hget
  · rintro ⟨j, hj, hs, hd⟩
    have hj2 : j < sup.length := by omega
    rw [List.getD_eq_getElem _ _ hj2] at hs
    rw [List.getD_eq_getElem _ _ hj] at hd
    refine List.mem_iff_getElem.2 ⟨j, by simp [List.length_zip]; omega, ?_⟩
    rw [List.getElem_zip, hs, hd]

theorem nmsSorted_sublist (fl : ℚ → ℚ) (dets : List Detection) (t : ℚ) :
    (nmsSorted fl dets t).Sublist dets :=
  collect_sublist dets _ (suppressLoop_spec fl dets t).1

theorem nmsSorted_pairwise (fl : ℚ → ℚ) (dets : List Detection) (t : ℚ) :
    (nmsSorted fl dets t).Pairwise (fun a b => ¬ suppresses fl t a b) := by
  obtain ⟨hlen, hspec⟩ := suppressLoop_spec fl dets t
  unfold nmsSorted
  rw [collect_eq dets _ hlen, List.pairwise_map]
  have hz : (dets.zip (suppressLoop fl dets t)).Pairwise
      (fun p q => p.2 = false → q.2 = false → ¬ suppresses fl t p.1 q.1) := by
    rw [List.pairwise_iff_getElem]
    intro i j hi hj hij hpi hqj hsup
    have hj1 : j < dets.length := by
      have := hj; simp only [List.length_zip] at this; omega
    have hi1 : i < dets.length := by omega
    simp only [List.getElem_zip] at hpi hqj hsup
    have hset := (hspec j hj1).2 ⟨i, hij, by
      rw [List.getD_eq_getElem _ _ (by omega : i < (suppressLoop fl dets t).length)]
      exact hpi, by
      rw [List.getD_eq_getElem _ _ hi1, List.getD_eq_getElem _ _ hj1]
      exact hsup⟩
    rw [List.getD_eq_getElem _ _ (by omega : j < (suppressLoop fl dets t).length), hqj] at hset
    exact Bool.noConfusion hset
  refine List.Pairwise.imp_of_mem ?_ (List.Pairwise.filter _ hz)
  intro p q hp hq h
  have hp2 : p.2 = false := by simpa using (List.mem_filter.1 hp).2
  have hq2 : q.2 = false := by simpa using (List.mem_filter.1 hq).2
  exact h hp2 hq2

theorem suppressLoop_all_false (fl : ℚ → ℚ) (dets : List Detection) (t : ℚ)
    (h : dets.Pairwise (fun a b => ¬ suppresses fl t a b)) :
    ∀ j, (suppressLoop fl dets t).getD j false = false := by
  obtain ⟨hlen, hspec⟩ := suppressLoop_spec fl dets t
  intro j
  by_cases hj : j < dets.length
  · rw [← Bool.not_eq_true]
    intro hset
    obtain ⟨i, hij, -, hsup⟩ := (hspec j hj).1 hset
    have hi : i < dets.length := by omega
    rw [List.getD_eq_getElem _ _ hi, List.getD_eq_getElem _ _ hj] at hsup
    exact (List.pairwise_iff_getElem.1 h) i j hi hj hij hsup
  · rw [List.getD_eq_default _ _ (by omega)]

theorem nmsSorted_eq_self (fl : ℚ → ℚ) (dets : List Detection) (t : ℚ)
    (h : dets.Pairwise (fun a b => ¬ suppresses fl t a b)) :
    nmsSorted fl dets t = dets := by
  obtain ⟨hlen, -⟩ := suppressLoop_spec fl dets t
  have hall := suppressLoop_all_false fl dets t h
  unfold nmsSorted
  rw [collect_eq dets _ hlen]
  have hf : (dets.zip (suppressLoop fl dets t)).filter (fun p => !p.2) =
      dets.zip (suppressLoop fl dets t) := by
    rw [List.filter_eq_self]
    intro p hp
    obtain ⟨n, hn, hget⟩ := List.mem_iff_getElem.1 hp
    have hn2 : n < (suppressLoop fl dets t).length := by
      have := hn; simp only [List.length_zip] at this; omega
    rw [List.getElem_zip] at hget
    have h2 : (suppressLoop fl dets t)[n] = p.2 := congrArg Prod.snd hget
    have h3 := hall n
    rw [List.getD_eq_getElem _ _ hn2, h2] at h3
    simp [h3]
  rw [hf, List.map_fst_zip _ _ (by omega)]

/-- Every index whose flag is set was overlapped, by more than the threshold, by an
earlier index whose detection is in the result. -/
theorem nmsSorted_dropped (fl : ℚ → ℚ) (dets : List Detection) (t : ℚ) (j : Nat)
    (hj : j < dets.length) (hset : (suppressLoop fl dets t).getD j false = true) :
    ∃ i, i < j ∧ dets.getD i default ∈ nmsSorted fl dets t ∧
      suppresses fl t (dets.getD i default) (dets.getD j default) := by
  obtain ⟨hlen, hspec⟩ := suppressLoop_spec fl dets t
  obtain ⟨i, hij, hkept, hsup⟩ := (hspec j hj).1 hset
  refine ⟨i, hij, ?_, hsup⟩
  unfold nmsSorted
  rw [mem_collect dets _ hlen]
  exact ⟨i, by omega, hkept, rfl⟩

/-! ## The geometry of `iou` -/

theorem IsRounding.int {fl : ℚ → ℚ} (h : IsRounding fl) (m : Int) (hm : |m| < 2 ^ 24) :
    fl (m : ℚ) = (m : ℚ) := by
  have := h.exact m 0 hm (by norm_num) (by norm_num)
  simpa using this

theorem IsRounding.zero {fl : ℚ → ℚ} (h : IsRounding fl) : fl 0 = 0 := by
  have := h.int 0 (by norm_num)
  simpa using this

theorem IsRounding.one {fl : ℚ → ℚ} (h : IsRounding fl) : fl 1 = 1 := by
  have := h.int 1 (by norm_num)
  simpa using this

theorem IsRounding.half {fl : ℚ → ℚ} (h : IsRounding fl) : fl (1 / 2) = 1 / 2 := by
  have := h.exact 1 (-1) (by norm_num) (by norm_num) (by norm_num)
  have e : ((1 : Int) : ℚ) * (2 : ℚ) ^ (-1 : Int) = 1 / 2 := by norm_num
  rwa [e] at this

theorem IsRounding.pos_int {fl : ℚ → ℚ} (h : IsRounding fl) (n : Int) (hn : 0 < n) :
    1 ≤ fl (n : ℚ) := by
  have h1 : (1 : ℚ) ≤ (n : ℚ) := by exact_mod_cast hn
  have := h.mono 1 n h1
  rwa [h.one] at this

theorem isRounding_id : IsRounding id :=
  ⟨fun _ _ h => h, fun _ _ _ _ _ => rfl⟩

theorem Rect.inter_comm (a b : Rect) : a.inter b = b.inter a := by
  unfold Rect.inter
  rw [Bool.or_comm a.empty b.empty, max_comm a.x b.x, max_comm a.y b.y,
    min_comm (a.x + a.width) (b.x + b.width), min_comm (a.y + a.height) (b.y + b.height)]

theorem wrapInt_of_fits (n : Int) (h0 : -2147483648 ≤ n) (h1 : n < 2147483648) :
    wrapInt n = n := by
  unfold wrapInt
  omega

/-- The method `area()` returns the number of pixels when that number fits `int`. -/
theorem Rect.area_eq_pixels (r : Rect) (h0 : -2147483648 ≤ r.pixels)
    (h1 : r.pixels < 2147483648) : r.area = r.pixels :=
  wrapInt_of_fits _ h0 h1

theorem Rect.zero_area : Rect.zero.area = 0 := by
  decide

theorem Rect.inter_of_empty_left (a b : Rect) (h : a.empty = true) : a.inter b = Rect.zero := by
  unfold Rect.inter
  simp [h]

theorem Rect.inter_of_empty_right (a b : Rect) (h : b.empty = true) : a.inter b = Rect.zero := by
  unfold Rect.inter
  simp [h]

/-- The number of pixels of `a & b` is never negative. -/
theorem Rect.inter_area_nonneg (a b : Rect) : 0 ≤ (a.inter b).pixels := by
  unfold Rect.inter
  dsimp only
  split_ifs with h1 h2
  · decide
  · decide
  · simp only [Rect.empty, Bool.or_eq_true, decide_eq_true_eq, not_or, not_le] at h2
    exact le_of_lt (mul_pos h2.1 h2.2)

theorem iou_of_inter_area_zero (fl : ℚ → ℚ) (hfl : fl 0 = 0) (a b : Rect)
    (h : (a.inter b).area = 0) : iou fl a b = 0 := by
  unfold iou
  simp only [h, Int.cast_zero, hfl, zero_div, ite_self]

theorem iou_comm (fl : ℚ → ℚ) (hfl : fl 0 = 0) (a b : Rect) : iou fl a b = iou fl b a := by
  by_cases ha : a.empty = true
  · rw [iou_of_inter_area_zero fl hfl a b (by rw [Rect.inter_of_empty_left a b ha, Rect.zero_area]),
      iou_of_inter_area_zero fl hfl b a (by rw [Rect.inter_of_empty_right b a ha, Rect.zero_area])]
  · by_cases hb : b.empty = true
    · rw [iou_of_inter_area_zero fl hfl a b
          (by rw [Rect.inter_of_empty_right a b hb, Rect.zero_area]),
        iou_of_inter_area_zero fl hfl b a
          (by rw [Rect.inter_of_empty_left b a hb, Rect.zero_area])]
    · have hu : a.union b = b.union a := by
        unfold Rect.union
        simp only [ha, hb, Bool.false_eq_true, if_false, Bool.not_false, if_true]
        rw [min_comm a.x b.x, min_comm a.y b.y, max_comm (a.x + a.width) (b.x + b.width),
          max_comm (a.y + a.height) (b.y + b.height)]
      unfold iou
      simp only [hu, Rect.inter_comm a b]

theorem suppresses_comm (fl : ℚ → ℚ) (hfl : fl 0 = 0) (t : ℚ) (a b : Detection) :
    suppresses fl t a b ↔ suppresses fl t b a := by
  unfold suppresses
  rw [iou_comm fl hfl a.box b.box]

theorem Rect.inter_self (a : Rect) (hw : 0 < a.width) (hh : 0 < a.height) : a.inter a = a := by
  have he : a.empty = false := by
    simp [Rect.empty, hw, hh]
  unfold Rect.inter
  simp only [he, Bool.or_self, Bool.false_eq_true, if_false, max_self, min_self,
    add_sub_cancel_left]

theorem Rect.union_self (a : Rect) (hw : 0 < a.width) (hh : 0 < a.height) : a.union a = a := by
  have he : a.empty = false := by
    simp [Rect.empty, hw, hh]
  unfold Rect.union
  simp [he]

/-- Two boxes with the same coordinates and positive size, whose number of pixels fits
`int`: the value of `iou` is 1. -/
theorem iou_self (fl : ℚ → ℚ) (hfl : IsRounding fl) (a : Rect) (hw : 0 < a.width)
    (hh : 0 < a.height) (hfit : a.pixels < 2147483648) : iou fl a a = 1 := by
  have hpix : 0 < a.pixels := mul_pos hw hh
  have hpos : 0 < a.area := by
    rw [Rect.area_eq_pixels a (by omega) hfit]
    exact hpix
  have h1 := hfl.pos_int a.area hpos
  have hne : fl (a.area : ℚ) ≠ 0 := by
    intro h0; rw [h0] at h1; norm_num at h1
  unfold iou
  simp only [Rect.inter_self a hw hh, Rect.union_self a hw hh, hpos, if_true]
  rw [div_self hne, hfl.one]

/-! ## The sort -/

theorem stableSort_isStdSort : IsStdSort stableSort := by
  intro l
  refine ⟨List.perm_insertionSort _ l, ?_⟩
  haveI : IsTotal Detection (fun a b => a.confidence ≥ b.confidence) :=
    ⟨fun a b => le_total b.confidence a.confidence⟩
  haveI : IsTrans Detection (fun a b => a.confidence ≥ b.confidence) :=
    ⟨fun a b c h1 h2 => le_trans h2 h1⟩
  have h := List.sorted_insertionSort (fun a b : Detection => a.confidence ≥ b.confidence) l
  exact List.Pairwise.imp (fun {a b} hab => not_lt.2 hab) h

theorem IsStdSort.perm {sort : List Detection → List Detection} (h : IsStdSort sort)
    (l : List Detection) : (sort l).Perm l := (h l).1

theorem IsStdSort.desc {sort : List Detection → List Detection} (h : IsStdSort sort)
    (l : List Detection) : (sort l).Pairwise (fun a b => b.confidence ≤ a.confidence) :=
  List.Pairwise.imp (fun {_ _} hab => not_lt.1 hab) (h l).2

/-- Two lists with the same elements, both in descending confidence order, are equal
when no two of the confidences are equal. -/
theorem eq_of_perm_of_desc_of_nodup (l₁ l₂ : List Detection) (hp : l₁.Perm l₂)
    (h₁ : l₁.Pairwise (fun a b => b.confidence ≤ a.confidence))
    (h₂ : l₂.Pairwise (fun a b => b.confidence ≤ a.confidence))
    (hnd : (l₂.map Detection.confidence).Nodup) : l₁ = l₂ := by
  haveI : IsAntisymm Detection (fun a b => b.confidence < a.confidence) :=
    ⟨fun _ _ h1 h2 => absurd h1 (not_lt_of_gt h2)⟩
  have hnd₁ : (l₁.map Detection.confidence).Nodup := (hp.map _).nodup_iff.2 hnd
  have strict : ∀ l : List Detection, l.Pairwise (fun a b => b.confidence ≤ a.confidence) →
      (l.map Detection.confidence).Nodup →
      l.Pairwise (fun a b => b.confidence < a.confidence) := by
    intro l hl hn
    have hne : l.Pairwise (fun a b => a.confidence ≠ b.confidence) := List.pairwise_map.1 hn
    exact List.Pairwise.imp₂ (fun _ _ h1 h2 => lt_of_le_of_ne h1 (Ne.symm h2)) hl hne
  exact List.eq_of_perm_of_sorted hp (strict l₁ h₁ hnd₁) (strict l₂ h₂ hnd)

theorem perm_pair {α : Type} [DecidableEq α] (l : List α) (a b : α) (h : l.Perm [a, b]) :
    l = [a, b] ∨ l = [b, a] := by
  have hlen := h.length_eq
  match l, hlen with
  | [x, y], _ =>
    have h2 := List.cons_perm_iff_perm_erase.1 h
    obtain ⟨hx, hy⟩ := h2
    by_cases hxa : x = a
    · subst hxa
      simp only [List.erase_cons_head] at hy
      have : y = b := by simpa using hy
      left; rw [this]
    · have hxb : x = b := by
        simp only [List.mem_cons, List.mem_singleton, List.not_mem_nil, or_false] at hx
        rcases hx with h | h
        · exact absurd h hxa
        · exact h
      subst hxb
      have hne : a ≠ x := fun h => hxa h.symm
      have he : [a, x].erase x = [a] := by
        simp [List.erase_cons, hne]
      rw [he] at hy
      have : y = a := by simpa using hy
      right; rw [this]

theorem nmsSorted_nil (fl : ℚ → ℚ) (t : ℚ) : nmsSorted fl [] t = [] := rfl

theorem nms_eq_nmsSorted (fl : ℚ → ℚ) (sort : List Detection → List Detection)
    (hs : IsStdSort sort) (D : List Detection) (t : ℚ) :
    nms fl sort D t = nmsSorted fl (sort D) t := by
  unfold nms
  cases D with
  | nil =>
    have : sort [] = [] := List.perm_nil.1 (hs.perm [])
    simp [this, nmsSorted_nil]
  | cons d ds => simp

theorem nmsSorted_pair (fl : ℚ → ℚ) (a b : Detection) (t : ℚ) :
    nmsSorted fl [a, b] t = if t < iou fl a.box b.box then [a] else [a, b] := by
  by_cases h : t < iou fl a.box b.box
  · simp [nmsSorted, suppressLoop, collect, outerStep, innerLoop, innerStep, List.range,
      List.range.loop, List.range', h]
  · simp [nmsSorted, suppressLoop, collect, outerStep, innerLoop, innerStep, List.range,
      List.range.loop, List.range', h]

/-! ## Properties of `nms` -/

theorem Rect.inter_eq_zero_of_empty (a b : Rect) (h : (a.inter b).empty = true) :
    a.inter b = Rect.zero := by
  unfold Rect.inter at h ⊢
  dsimp only at h ⊢
  split_ifs with h1 h2
  · rfl
  · rfl
  · rw [if_neg h1, if_neg h2] at h
    exact absurd h h2

/-- The rectangle `a & b` is empty exactly when no pixel lies in both `a` and `b`. -/
theorem Rect.inter_empty_iff (a b : Rect) :
    (a.inter b).empty = true ↔ ∀ px py : Int, ¬ (a.contains px py ∧ b.contains px py) := by
  unfold Rect.inter Rect.contains
  dsimp only
  by_cases h1 : (a.empty || b.empty) = true
  · rw [if_pos h1]
    simp only [Rect.empty, Bool.or_eq_true, decide_eq_true_eq] at h1
    constructor
    · intro _ px py
      omega
    · intro _
      simp [Rect.zero, Rect.empty]
  · rw [if_neg h1]
    simp only [Rect.empty, Bool.or_eq_true, decide_eq_true_eq, not_or, not_le] at h1
    by_cases h2 : (Rect.mk (max a.x b.x) (max a.y b.y)
        (min (a.x + a.width) (b.x + b.width) - max a.x b.x)
        (min (a.y + a.height) (b.y + b.height) - max a.y b.y)).empty = true
    · rw [if_pos h2]
      simp only [Rect.empty, Bool.or_eq_true, decide_eq_true_eq] at h2
      constructor
      · intro _ px py
        omega
      · intro _
        simp [Rect.zero, Rect.empty]
    · rw [if_neg h2]
      constructor
      · intro h
        exact absurd h h2
      · intro h
        exfalso
        simp only [Rect.empty, Bool.or_eq_true, decide_eq_true_eq, not_or, not_le] at h2
        exact h (max a.x b.x) (max a.y b.y) (by omega)

theorem nms_eq_sort_of_pairwise (fl : ℚ → ℚ) (hfl : IsRounding fl)
    (sort : List Detection → List Detection) (hs : IsStdSort sort) (D : List Detection)
    (t : ℚ) (h : D.Pairwise (fun a b => ¬ suppresses fl t a b)) :
    nms fl sort D t = sort D := by
  rw [nms_eq_nmsSorted fl sort hs]
  apply nmsSorted_eq_self
  refine (List.Perm.pairwise_iff ?_ (hs.perm D)).2 h
  intro a b hab hba
  exact hab ((suppresses_comm fl hfl.zero t a b).2 hba)

theorem nms_pairwise (fl : ℚ → ℚ) (sort : List Detection → List Detection)
    (hs : IsStdSort sort) (D : List Detection) (t : ℚ) :
    (nms fl sort D t).Pairwise (fun a b => ¬ suppresses fl t a b) := by
  rw [nms_eq_nmsSorted fl sort hs]
  exact nmsSorted_pairwise fl (sort D) t

theorem nms_desc (fl : ℚ → ℚ) (sort : List Detection → List Detection)
    (hs : IsStdSort sort) (D : List Detection) (t : ℚ) :
    (nms fl sort D t).Pairwise (fun a b => b.confidence ≤ a.confidence) := by
  rw [nms_eq_nmsSorted fl sort hs]
  exact List.Pairwise.sublist (nmsSorted_sublist fl (sort D) t) (hs.desc D)

/-- C6: the list left by `nms` is in descending confidence order: each detection of
the output has a confidence greater than or equal to that of every later one. -/
theorem nms_output_descending (fl : ℚ → ℚ) (sort : List Detection → List Detection)
    (hs : IsStdSort sort) (D : List Detection) (t : ℚ) :
    (nms fl sort D t).Pairwise (fun a b => a.confidence ≥ b.confidence) :=
  nms_desc fl sort hs D t

/-- C9: a detection is removed only because of a kept detection that is at least as
confident.  Every detection of the input that is absent from the output has a detection
in the output with confidence greater than or equal to its own and `iou` with it above
the threshold; the same holds index by index for every flagged position of the sorted
list; and the output of a non-empty input contains a detection of highest confidence. -/
theorem nms_removed_only_by_kept (fl : ℚ → ℚ) (sort : List Detection → List Detection)
    (hs : IsStdSort sort) (D : List Detection) (t : ℚ) :
    (∀ e ∈ D, e ∉ nms fl sort D t →
      ∃ d ∈ nms fl sort D t, d.confidence ≥ e.confidence ∧ t < iou fl d.box e.box) ∧
    (∀ j, j < (sort D).length → (suppressLoop fl (sort D) t).getD j false = true →
      ∃ i, i < j ∧ (suppressLoop fl (sort D) t).getD i false = false ∧
        (sort D).getD i default ∈ nms fl sort D t ∧
        ((sort D).getD i default).confidence ≥ ((sort D).getD j default).confidence ∧
        t < iou fl ((sort D).getD i default).box ((sort D).getD j default).box) ∧
    (D ≠ [] → ∃ d ∈ nms fl sort D t, ∀ e ∈ D, e.confidence ≤ d.confidence) := by
  obtain ⟨hlen, hspec⟩ := suppressLoop_spec fl (sort D) t
  have hdesc := List.pairwise_iff_getElem.1 (hs.desc D)
  have hmem : ∀ i, i < (sort D).length → (suppressLoop fl (sort D) t).getD i false = false →
      (sort D).getD i default ∈ nms fl sort D t := by
    intro i hi hkept
    rw [nms_eq_nmsSorted fl sort hs]
    unfold nmsSorted
    rw [mem_collect _ _ hlen]
    exact ⟨i, hi, hkept, rfl⟩
  have hidx : ∀ j, j < (sort D).length → (suppressLoop fl (sort D) t).getD j false = true →
      ∃ i, i < j ∧ (suppressLoop fl (sort D) t).getD i false = false ∧
        (sort D).getD i default ∈ nms fl sort D t ∧
        ((sort D).getD i default).confidence ≥ ((sort D).getD j default).confidence ∧
        t < iou fl ((sort D).getD i default).box ((sort D).getD j default).box := by
    intro j hj hset
    obtain ⟨i, hij, hkept, hsup⟩ := (hspec j hj).1 hset
    have hi : i < (sort D).length := by omega
    refine ⟨i, hij, hkept, hmem i hi hkept, ?_, hsup⟩
    rw [List.getD_eq_getElem _ _ hi, List.getD_eq_getElem _ _ hj]
    exact hdesc i j hi hj hij
  refine ⟨?_, hidx, ?_⟩
  · intro e he hne
    have he' : e ∈ sort D := (hs.perm D).mem_iff.2 he
    obtain ⟨j, hj, hget⟩ := List.mem_iff_getElem.1 he'
    have hset : (suppressLoop fl (sort D) t).getD j false = true := by
      by_contra hc
      apply hne
      have := hmem j hj (by simpa using hc)
      rwa [List.getD_eq_getElem _ _ hj, hget] at this
    obtain ⟨i, -, -, h3, h4, h5⟩ := hidx j hj hset
    rw [List.getD_eq_getElem _ _ hj, hget] at h4 h5
    exact ⟨_, h3, h4, h5⟩
  · intro hD
    have hpos : 0 < (sort D).length := by
      rw [(hs.perm D).length_eq]
      exact List.length_pos.2 hD
    have h0 : (suppressLoop fl (sort D) t).getD 0 false = false := by
      rw [← Bool.not_eq_true]
      intro hset
      obtain ⟨i, hi, -⟩ := (hspec 0 hpos).1 hset
      omega
    refine ⟨_, hmem 0 hpos h0, ?_⟩
    intro e he
    have he' : e ∈ sort D := (hs.perm D).mem_iff.2 he
    obtain ⟨j, hj, hget⟩ := List.mem_iff_getElem.1 he'
    rw [List.getD_eq_getElem _ _ hpos, ← hget]
    by_cases hj0 : j = 0
    · subst hj0; exact le_refl _
    · exact hdesc 0 j hpos hj (by omega)

/-- C7: for two detections whose boxes have an empty intersection the value of `iou`
is 0 (in both orders), and for every threshold `t ≥ 0` the result of `nms` on the
two-element list keeps both detections. -/
theorem nms_disjoint_pair (fl : ℚ → ℚ) (hfl : IsRounding fl)
    (sort : List Detection → List Detection) (hs : IsStdSort sort) (d₁ d₂ : Detection)
    (hdis : (d₁.box.inter d₂.box).empty = true) (t : ℚ) (ht : 0 ≤ t) :
    iou fl d₁.box d₂.box = 0 ∧ iou fl d₂.box d₁.box = 0 ∧
      (nms fl sort [d₁, d₂] t).Perm [d₁, d₂] := by
  have h12 : iou fl d₁.box d₂.box = 0 :=
    iou_of_inter_area_zero fl hfl.zero _ _
      (by rw [Rect.inter_eq_zero_of_empty _ _ hdis, Rect.zero_area])
  have h21 : iou fl d₂.box d₁.box = 0 := by rw [iou_comm fl hfl.zero, h12]
  refine ⟨h12, h21, ?_⟩
  rcases perm_pair _ _ _ (hs.perm [d₁, d₂]) with h | h
  · rw [nms_eq_nmsSorted fl sort hs, h, nmsSorted_pair, h12, if_neg (not_lt.2 ht)]
  · rw [nms_eq_nmsSorted fl sort hs, h, nmsSorted_pair, h21, if_neg (not_lt.2 ht)]
    exact List.Perm.swap d₁ d₂ []

/-- Two detections with the same box coordinates, positive width and height and a
number of pixels that fits `int` (below `2^31`): the value of `iou` is exactly 1, and
for every threshold `t < 1` the result of `nms` on the two-element list is a single
detection, one of the two, whose confidence is the highest. -/
theorem nms_identical_pair_of_fits (fl : ℚ → ℚ) (hfl : IsRounding fl)
    (sort : List Detection → List Detection) (hs : IsStdSort sort) (d₁ d₂ : Detection)
    (hbox : d₁.box = d₂.box) (hw : 0 < d₁.box.width) (hh : 0 < d₁.box.height)
    (hfit : d₁.box.pixels < 2147483648) (t : ℚ) (ht : t < 1) :
    iou fl d₁.box d₂.box = 1 ∧
      ∃ d, nms fl sort [d₁, d₂] t = [d] ∧ (d = d₁ ∨ d = d₂) ∧
        d₁.confidence ≤ d.confidence ∧ d₂.confidence ≤ d.confidence := by
  have h11 : iou fl d₁.box d₁.box = 1 := iou_self fl hfl d₁.box hw hh hfit
  have h12 : iou fl d₁.box d₂.box = 1 := by rw [← hbox]; exact h11
  have h21 : iou fl d₂.box d₁.box = 1 := by rw [← hbox]; exact h11
  refine ⟨h12, ?_⟩
  have hdesc := hs.desc [d₁, d₂]
  rcases perm_pair _ _ _ (hs.perm [d₁, d₂]) with h | h
  · rw [h] at hdesc
    have hc : d₂.confidence ≤ d₁.confidence := by
      simpa using hdesc
    exact ⟨d₁, by rw [nms_eq_nmsSorted fl sort hs, h, nmsSorted_pair, h12, if_pos ht],
      Or.inl rfl, le_refl _, hc⟩
  · rw [h] at hdesc
    have hc : d₁.confidence ≤ d₂.confidence := by
      simpa using hdesc
    exact ⟨d₂, by rw [nms_eq_nmsSorted fl sort hs, h, nmsSorted_pair, h21, if_pos ht],
      Or.inr rfl, hc, le_refl _⟩

/-! ## The three-detection scenario -/

theorem iou_detA_detB (fl : ℚ → ℚ) (hfl : IsRounding fl) : 1 / 2 ≤ iou fl detA.box detB.box := by
  have e : iou fl detA.box detB.box = fl (fl ((2304 : Int) : ℚ) / fl ((2500 : Int) : ℚ)) := by
    have ei : (detA.box.inter detB.box).area = 2304 := by decide
    have eu : (detA.box.union detB.box).area = 2500 := by decide
    unfold iou
    dsimp only
    rw [ei, eu, if_pos (by decide)]
  rw [e, hfl.int 2304 (by norm_num), hfl.int 2500 (by norm_num), ← hfl.half]
  exact hfl.mono _ _ (by norm_num)

theorem iou_detA_detC (fl : ℚ → ℚ) (hfl : IsRounding fl) : iou fl detA.box detC.box = 0 := by
  apply iou_of_inter_area_zero fl hfl.zero
  decide

theorem nmsSorted_scenario (fl : ℚ → ℚ) (hfl : IsRounding fl) (t : ℚ) (h0 : 0 ≤ t)
    (h1 : t < 1 / 2) : nmsSorted fl [detA, detB, detC] t = [detA, detC] := by
  have hAB : t < iou fl detA.box detB.box := lt_of_lt_of_le h1 (iou_detA_detB fl hfl)
  have hAC : ¬ t < iou fl detA.box detC.box := by
    rw [iou_detA_detC fl hfl]; exact not_lt.2 h0
  simp [nmsSorted, suppressLoop, collect, outerStep, innerLoop, innerStep, List.range,
    List.range.loop, List.range', hAB, hAC]

theorem sort_scenario (sort : List Detection → List Detection) (hs : IsStdSort sort)
    (D : List Detection) (hD : D.Perm [detA, detB, detC]) : sort D = [detA, detB, detC] := by
  apply eq_of_perm_of_desc_of_nodup _ _ ((hs.perm D).trans hD) (hs.desc D)
  · simp [detA, detB, detC]; norm_num
  · simp [detA, detB, detC]; norm_num

/-- C1: for the detections A = (10,10,50,50) conf 0.9 class 0, B = (12,12,48,48)
conf 0.7 class 0 and C = (200,200,30,30) conf 0.6 class 2, given in any order, `nms`
with the threshold 0.45 (as the rational 9/20 and as the `float` 0.45f of line 232)
leaves exactly the list [A, C]. -/
theorem nms_scenario (fl : ℚ → ℚ) (hfl : IsRounding fl)
    (sort : List Detection → List Detection) (hs : IsStdSort sort)
    (D : List Detection) (hD : D.Perm [detA, detB, detC]) :
    nms fl sort D (9 / 20) = [detA, detC] ∧ nms fl sort D nmsThreshold = [detA, detC] := by
  rw [nms_eq_nmsSorted fl sort hs, nms_eq_nmsSorted fl sort hs, sort_scenario sort hs D hD]
  exact ⟨nmsSorted_scenario fl hfl _ (by norm_num) (by norm_num),
    nmsSorted_scenario fl hfl _ (by norm_num [nmsThreshold]) (by norm_num [nmsThreshold])⟩

/-! ## Repeated application, thresholds and input order -/

/-- C3, as the code has it: `nms` applied to its own result keeps every detection.
The second result is a permutation of the first; it is the same list, order included,
when the kept detections have pairwise distinct confidences, and for every sort that
leaves a list already in descending confidence order unchanged. -/
theorem nms_nms_perm (fl : ℚ → ℚ) (hfl : IsRounding fl)
    (sort : List Detection → List Detection) (hs : IsStdSort sort) (D : List Detection)
    (t : ℚ) :
    (nms fl sort (nms fl sort D t) t).Perm (nms fl sort D t) ∧
    (((nms fl sort D t).map Detection.confidence).Nodup →
      nms fl sort (nms fl sort D t) t = nms fl sort D t) ∧
    ((∀ l : List Detection, l.Pairwise (fun a b => b.confidence ≤ a.confidence) → sort l = l) →
      nms fl sort (nms fl sort D t) t = nms fl sort D t) := by
  have hsort : nms fl sort (nms fl sort D t) t = sort (nms fl sort D t) :=
    nms_eq_sort_of_pairwise fl hfl sort hs _ t (nms_pairwise fl sort hs D t)
  have hdesc : (nms fl sort D t).Pairwise (fun a b => b.confidence ≤ a.confidence) :=
    nms_desc fl sort hs D t
  refine ⟨?_, ?_, ?_⟩
  · rw [hsort]
    exact hs.perm _
  · intro hnd
    rw [hsort]
    exact eq_of_perm_of_desc_of_nodup _ _ (hs.perm _) (hs.desc _) hdesc hnd
  · intro hfix
    rw [hsort]
    exact hfix _ hdesc

/-- C4, as the code has it: for thresholds `t₁ ≤ t₂`, a pair of boxes that passes the
suppression test at `t₂` passes it at `t₁`; if `nms` at `t₁` removes nothing from `D`
then `nms` at `t₂` removes nothing from `D`; and `nms` at `t₂` removes nothing from the
result of `nms` at `t₁`. -/
theorem nms_threshold_mono (fl : ℚ → ℚ) (hfl : IsRounding fl)
    (sort : List Detection → List Detection) (hs : IsStdSort sort) (D : List Detection)
    (t₁ t₂ : ℚ) (ht : t₁ ≤ t₂) :
    (∀ a b : Detection, suppresses fl t₂ a b → suppresses fl t₁ a b) ∧
    ((nms fl sort D t₁).length = D.length → (nms fl sort D t₂).length = D.length) ∧
    (nms fl sort (nms fl sort D t₁) t₂).Perm (nms fl sort D t₁) := by
  have hmono : ∀ a b : Detection, suppresses fl t₂ a b → suppresses fl t₁ a b :=
    fun a b h => lt_of_le_of_lt ht h
  have hpw : ∀ l : List Detection, l.Pairwise (fun a b => ¬ suppresses fl t₁ a b) →
      l.Pairwise (fun a b => ¬ suppresses fl t₂ a b) :=
    fun l h => List.Pairwise.imp (fun {a b} hab h2 => hab (hmono a b h2)) h
  refine ⟨hmono, ?_, ?_⟩
  · intro hlen
    rw [nms_eq_nmsSorted fl sort hs] at hlen ⊢
    have hsub := nmsSorted_sublist fl (sort D) t₁
    have heq : nmsSorted fl (sort D) t₁ = sort D :=
      hsub.eq_of_length (by rw [hlen, (hs.perm D).length_eq])
    have h1 := nmsSorted_pairwise fl (sort D) t₁
    rw [heq] at h1
    rw [nmsSorted_eq_self fl (sort D) t₂ (hpw _ h1), (hs.perm D).length_eq]
  · rw [nms_eq_sort_of_pairwise fl hfl sort hs _ t₂ (hpw _ (nms_pairwise fl sort hs D t₁))]
    exact hs.perm _

/-- C5, as the code has it: when no two detections of `D` have the same confidence,
`nms` gives the same list for `D` and for every permutation of `D`. -/
theorem nms_perm_invariant (fl : ℚ → ℚ) (sort : List Detection → List Detection)
    (hs : IsStdSort sort) (D D' : List Detection) (hp : D'.Perm D)
    (hnd : (D.map Detection.confidence).Nodup) (t : ℚ) :
    nms fl sort D' t = nms fl sort D t := by
  rw [nms_eq_nmsSorted fl sort hs, nms_eq_nmsSorted fl sort hs]
  have hnd' : ((sort D).map Detection.confidence).Nodup := ((hs.perm D).map _).nodup_iff.2 hnd
  rw [eq_of_perm_of_desc_of_nodup (sort D') (sort D)
    (((hs.perm D').trans hp).trans (hs.perm D).symm) (hs.desc D') (hs.desc D) hnd']

/-! ## The confidence filter of the decoder -/

theorem mem_decode (fl : ℚ → ℚ) (classCount : Nat) (origW origH : Int) (out : Mat)
    (d : Detection) (h : d ∈ decode fl classCount origW origH out) :
    ∃ ch data, decodeRow fl classCount origW origH ch data = some d := by
  unfold decode at h
  dsimp only at h
  split_ifs at h with h1 h2
  · obtain ⟨i, -, hi⟩ := List.mem_filterMap.1 h
    exact ⟨_, _, hi⟩
  · exact absurd h (List.not_mem_nil d)
  · exact absurd h (List.not_mem_nil d)

/-- The binary32 rounding `roundF32` has the two properties `IsRounding` asks for. -/
theorem roundF32_isRounding : IsRounding roundF32 :=
  ⟨roundF32_mono, fun m e hm he _ => roundF32_exact m e hm he⟩

theorem isRounding_nmsThreshold (fl : ℚ → ℚ) (hfl : IsRounding fl) :
    fl nmsThreshold = nmsThreshold := by
  have h := hfl.exact 15099494 (-25) (by norm_num) (by norm_num) (by norm_num)
  have e : ((15099494 : Int) : ℚ) * (2 : ℚ) ^ (-25 : Int) = nmsThreshold := by
    norm_num [nmsThreshold]
  rwa [e] at h

theorem nms_of_ne_nil (fl : ℚ → ℚ) (sort : List Detection → List Detection)
    (D : List Detection) (t : ℚ) (h : D ≠ []) : nms fl sort D t = nmsSorted fl (sort D) t := by
  unfold nms
  cases D with
  | nil => exact absurd rfl h
  | cons d ds => simp

theorem iou_eq_of_areas (fl : ℚ → ℚ) (a b : Rect) (i u : Int) (hi : (a.inter b).area = i)
    (hu : (a.union b).area = u) (hpos : 0 < u) :
    iou fl a b = fl (fl (i : ℚ) / fl (u : ℚ)) := by
  unfold iou
  simp only [hi, hu, hpos, if_true]

/-! ## Inputs on which the code departs from the specification -/

theorem iou_tie : nmsThreshold < iou roundF32 tieX.box tieY.box ∧
    nmsThreshold < iou roundF32 tieY.box tieX.box := by
  have hfl := roundF32_isRounding
  have h : nmsThreshold < iou roundF32 tieX.box tieY.box := by
    rw [iou_eq_of_areas roundF32 tieX.box tieY.box 81 121 (by decide) (by decide) (by decide),
      hfl.int 81 (by norm_num), hfl.int 121 (by norm_num)]
    have h1 : roundF32 (1 / 2) ≤ roundF32 (((81 : Int) : ℚ) / ((121 : Int) : ℚ)) :=
      hfl.mono _ _ (by norm_num)
    rw [hfl.half] at h1
    exact lt_of_lt_of_le (by norm_num [nmsThreshold]) h1
  refine ⟨h, ?_⟩
  rw [iou_comm roundF32 hfl.zero]
  exact h

/-- C5 fails on the code: the two orders of the same two detections of equal
confidence give results with different detections. -/
theorem nms_order_dependent :
    [tieY, tieX].Perm [tieX, tieY] ∧
    nms roundF32 gccSort [tieX, tieY] nmsThreshold = [tieX] ∧
    nms roundF32 gccSort [tieY, tieX] nmsThreshold = [tieY] ∧
    ¬ (∀ d, d ∈ nms roundF32 gccSort [tieX, tieY] nmsThreshold ↔
      d ∈ nms roundF32 gccSort [tieY, tieX] nmsThreshold) := by
  have hxy : gccSort [tieX, tieY] = [tieX, tieY] := by decide!
  have hyx : gccSort [tieY, tieX] = [tieY, tieX] := by decide!
  have h1 : nms roundF32 gccSort [tieX, tieY] nmsThreshold = [tieX] := by
    rw [nms_of_ne_nil _ _ _ _ (by simp), hxy, nmsSorted_pair, if_pos iou_tie.1]
  have h2 : nms roundF32 gccSort [tieY, tieX] nmsThreshold = [tieY] := by
    rw [nms_of_ne_nil _ _ _ _ (by simp), hyx, nmsSorted_pair, if_pos iou_tie.2]
  refine ⟨List.Perm.swap tieX tieY [], h1, h2, ?_⟩
  intro h
  have h3 := (h tieX).1 (by rw [h1]; exact List.mem_singleton_self tieX)
  rw [h2, List.mem_singleton] at h3
  exact absurd h3 (by decide)

theorem nmsSorted_four_first (fl : ℚ → ℚ) (a b c d : Detection) (t : ℚ)
    (hab : t < iou fl a.box b.box) (hac : ¬ t < iou fl a.box c.box)
    (had : ¬ t < iou fl a.box d.box) (hcd : ¬ t < iou fl c.box d.box) :
    nmsSorted fl [a, b, c, d] t = [a, c, d] := by
  simp [nmsSorted, suppressLoop, collect, outerStep, innerLoop, innerStep, List.range,
    List.range.loop, List.range', hab, hac, had, hcd]

theorem nmsSorted_four_second (fl : ℚ → ℚ) (a b c d : Detection) (t : ℚ)
    (hab : ¬ t < iou fl a.box b.box) (hac : ¬ t < iou fl a.box c.box)
    (had : ¬ t < iou fl a.box d.box) (hbc : t < iou fl b.box c.box)
    (hbd : t < iou fl b.box d.box) :
    nmsSorted fl [a, b, c, d] t = [a, b] := by
  simp [nmsSorted, suppressLoop, collect, outerStep, innerLoop, innerStep, List.range,
    List.range.loop, List.range', hab, hac, had, hbc, hbd]

theorem nmsSorted_mono4 :
    nmsSorted roundF32 mono4 (1 / 8) =
      [⟨⟨0, 7, 10, 10⟩, 9 / 10, 0⟩, ⟨⟨0, 0, 5, 10⟩, 7 / 10, 0⟩, ⟨⟨5, 0, 5, 10⟩, 6 / 10, 0⟩] ∧
    nmsSorted roundF32 mono4 (3 / 8) =
      [⟨⟨0, 7, 10, 10⟩, 9 / 10, 0⟩, ⟨⟨0, 0, 10, 10⟩, 8 / 10, 0⟩] := by
  have hfl := roundF32_isRounding
  have e18 : roundF32 (1 / 8) = 1 / 8 := by
    have h := hfl.exact 1 (-3) (by norm_num) (by norm_num) (by norm_num)
    have e : ((1 : Int) : ℚ) * (2 : ℚ) ^ (-3 : Int) = 1 / 8 := by norm_num
    rwa [e] at h
  have e38 : roundF32 (3 / 8) = 3 / 8 := by
    have h := hfl.exact 3 (-3) (by norm_num) (by norm_num) (by norm_num)
    have e : ((3 : Int) : ℚ) * (2 : ℚ) ^ (-3 : Int) = 3 / 8 := by norm_num
    rwa [e] at h
  have e532 : roundF32 (5 / 32) = 5 / 32 := by
    have h := hfl.exact 5 (-5) (by norm_num) (by norm_num) (by norm_num)
    have e : ((5 : Int) : ℚ) * (2 : ℚ) ^ (-5 : Int) = 5 / 32 := by norm_num
    rwa [e] at h
  -- the six values of `iou` between the four boxes
  have iAB : iou roundF32 ⟨0, 7, 10, 10⟩ ⟨0, 0, 10, 10⟩ =
      roundF32 (((30 : Int) : ℚ) / ((170 : Int) : ℚ)) := by
    rw [iou_eq_of_areas roundF32 _ _ 30 170 (by decide) (by decide) (by decide),
      hfl.int 30 (by norm_num), hfl.int 170 (by norm_num)]
  have iAC : iou roundF32 ⟨0, 7, 10, 10⟩ ⟨0, 0, 5, 10⟩ =
      roundF32 (((15 : Int) : ℚ) / ((170 : Int) : ℚ)) := by
    rw [iou_eq_of_areas roundF32 _ _ 15 170 (by decide) (by decide) (by decide),
      hfl.int 15 (by norm_num), hfl.int 170 (by norm_num)]
  have iAD : iou roundF32 ⟨0, 7, 10, 10⟩ ⟨5, 0, 5, 10⟩ =
      roundF32 (((15 : Int) : ℚ) / ((170 : Int) : ℚ)) := by
    rw [iou_eq_of_areas roundF32 _ _ 15 170 (by decide) (by decide) (by decide),
      hfl.int 15 (by norm_num), hfl.int 170 (by norm_num)]
  have iBC : iou roundF32 ⟨0, 0, 10, 10⟩ ⟨0, 0, 5, 10⟩ = 1 / 2 := by
    rw [iou_eq_of_areas roundF32 _ _ 50 100 (by decide) (by decide) (by decide),
      hfl.int 50 (by norm_num), hfl.int 100 (by norm_num), ← hfl.half]
    congr 1; norm_num
  have iBD : iou roundF32 ⟨0, 0, 10, 10⟩ ⟨5, 0, 5, 10⟩ = 1 / 2 := by
    rw [iou_eq_of_areas roundF32 _ _ 50 100 (by decide) (by decide) (by decide),
      hfl.int 50 (by norm_num), hfl.int 100 (by norm_num), ← hfl.half]
    congr 1; norm_num
  have iCD : iou roundF32 ⟨0, 0, 5, 10⟩ ⟨5, 0, 5, 10⟩ = 0 :=
    iou_of_inter_area_zero roundF32 hfl.zero _ _ (by decide)
  have hAB1 : (1 : ℚ) / 8 < roundF32 (((30 : Int) : ℚ) / ((170 : Int) : ℚ)) := by
    have h := hfl.mono (5 / 32) (((30 : Int) : ℚ) / ((170 : Int) : ℚ)) (by norm_num)
    rw [e532] at h
    exact lt_of_lt_of_le (by norm_num) h
  have hAB2 : roundF32 (((30 : Int) : ℚ) / ((170 : Int) : ℚ)) ≤ 3 / 8 := by
    have h := hfl.mono (((30 : Int) : ℚ) / ((170 : Int) : ℚ)) (3 / 8) (by norm_num)
    rwa [e38] at h
  have hAC1 : roundF32 (((15 : Int) : ℚ) / ((170 : Int) : ℚ)) ≤ 1 / 8 := by
    have h := hfl.mono (((15 : Int) : ℚ) / ((170 : Int) : ℚ)) (1 / 8) (by norm_num)
    rwa [e18] at h
  have hAC2 : roundF32 (((15 : Int) : ℚ) / ((170 : Int) : ℚ)) ≤ 3 / 8 :=
    le_trans hAC1 (by norm_num)
  constructor
  · apply nmsSorted_four_first
    · rw [iAB]; exact hAB1
    · rw [iAC]; exact not_lt.2 hAC1
    · rw [iAD]; exact not_lt.2 hAC1
    · rw [iCD]; norm_num
  · apply nmsSorted_four_second
    · rw [iAB]; exact not_lt.2 hAB2
    · rw [iAC]; exact not_lt.2 hAC2
    · rw [iAD]; exact not_lt.2 hAC2
    · rw [iBC]; norm_num
    · rw [iBD]; norm_num

/-- C4 fails on the code: on the four detections of `mono4` the threshold 1/8 removes
one detection (the second) and the greater threshold 3/8 removes two (the third and
the fourth, both suppressed by the second, which is now kept). -/
theorem nms_threshold_not_monotone :
    (1 / 8 : ℚ) ≤ 3 / 8 ∧
    nms roundF32 gccSort mono4 (1 / 8) =
      [⟨⟨0, 7, 10, 10⟩, 9 / 10, 0⟩, ⟨⟨0, 0, 5, 10⟩, 7 / 10, 0⟩, ⟨⟨5, 0, 5, 10⟩, 6 / 10, 0⟩] ∧
    nms roundF32 gccSort mono4 (3 / 8) =
      [⟨⟨0, 7, 10, 10⟩, 9 / 10, 0⟩, ⟨⟨0, 0, 10, 10⟩, 8 / 10, 0⟩] ∧
    ¬ (mono4.length - (nms roundF32 gccSort mono4 (3 / 8)).length ≤
      mono4.length - (nms roundF32 gccSort mono4 (1 / 8)).length) := by
  have hsort : gccSort mono4 = mono4 := by decide!
  have h1 := nmsSorted_mono4.1
  have h2 := nmsSorted_mono4.2
  rw [← hsort, ← nms_of_ne_nil roundF32 gccSort mono4 _ (by simp [mono4])] at h1 h2
  refine ⟨by norm_num, h1, h2, ?_⟩
  rw [h1, h2]
  decide

theorem nmsSorted_of_disjoint (fl : ℚ → ℚ) (hfl : IsRounding fl) (l : List Detection) (t : ℚ)
    (ht : 0 ≤ t) (h : l.Pairwise (fun a b => (a.box.inter b.box).area = 0)) :
    nmsSorted fl l t = l := by
  apply nmsSorted_eq_self
  refine List.Pairwise.imp ?_ h
  intro a b hab hsup
  unfold suppresses at hsup
  rw [iou_of_inter_area_zero fl hfl.zero _ _ hab] at hsup
  exact absurd hsup (not_lt.2 ht)

set_option maxRecDepth 100000 in
/-- C3 fails on the code as libstdc++ runs it: on seventeen detections of equal
confidence that do not overlap, `nms` keeps all seventeen, and a second call returns
them in another order than the first (the lists give the class of each detection,
which is its position in the input). -/
theorem nms_not_idempotent :
    (nms roundF32 gccSort row17 nmsThreshold).map Detection.classId =
      [8, 16, 15, 14, 13, 12, 11, 10, 9, 0, 7, 6, 5, 4, 3, 2, 1] ∧
    (nms roundF32 gccSort (nms roundF32 gccSort row17 nmsThreshold) nmsThreshold).map
        Detection.classId =
      [9, 1, 2, 3, 4, 5, 6, 7, 0, 8, 10, 11, 12, 13, 14, 15, 16] ∧
    nms roundF32 gccSort (nms roundF32 gccSort row17 nmsThreshold) nmsThreshold ≠
      nms roundF32 gccSort row17 nmsThreshold := by
  have ht : (0 : ℚ) ≤ nmsThreshold := by norm_num [nmsThreshold]
  have h1 : nms roundF32 gccSort row17 nmsThreshold = gccSort row17 := by
    rw [nms_of_ne_nil _ _ _ _ (by decide)]
    exact nmsSorted_of_disjoint roundF32 roundF32_isRounding _ _ ht (by decide!)
  have h2 : nms roundF32 gccSort (gccSort row17) nmsThreshold = gccSort (gccSort row17) := by
    rw [nms_of_ne_nil _ _ _ _ (by decide!)]
    exact nmsSorted_of_disjoint roundF32 roundF32_isRounding _ _ ht (by decide!)
  rw [h1, h2]
  exact ⟨by decide!, by decide!, by decide!⟩

/-- C2 fails on the code: for the boxes (0,0,10,10) and (2,2,10,10) the value the
code compares is `64 / 144` rounded, the area of `a & b` over the area of the bounding
rectangle `a | b`; it is below the threshold `0.45f`, while the inclusion-exclusion
value `64 / 136` is above it, so `nms` keeps both detections. -/
theorem iou_is_not_inclusion_exclusion :
    iou roundF32 shiftA.box shiftB.box = roundF32 (64 / 144) ∧
    iouInclusionExclusion roundF32 shiftA.box shiftB.box = roundF32 (64 / 136) ∧
    iou roundF32 shiftA.box shiftB.box ≤ nmsThreshold ∧
    nmsThreshold < iouInclusionExclusion roundF32 shiftA.box shiftB.box ∧
    nms roundF32 gccSort [shiftA, shiftB] nmsThreshold = [shiftA, shiftB] := by
  have hfl := roundF32_isRounding
  have h1 : iou roundF32 shiftA.box shiftB.box = roundF32 (64 / 144) := by
    rw [iou_eq_of_areas roundF32 _ _ 64 144 (by decide) (by decide) (by decide),
      hfl.int 64 (by norm_num), hfl.int 144 (by norm_num)]
    norm_num
  have h2 : iouInclusionExclusion roundF32 shiftA.box shiftB.box = roundF32 (64 / 136) := by
    have ei : (shiftA.box.inter shiftB.box).pixels = 64 := by decide
    have eu : shiftA.box.pixels + shiftB.box.pixels - 64 = 136 := by decide
    unfold iouInclusionExclusion
    simp only [ei, eu]
    rw [if_pos (by norm_num), hfl.int 64 (by norm_num), hfl.int 136 (by norm_num)]
    norm_num
  have h3 : iou roundF32 shiftA.box shiftB.box ≤ nmsThreshold := by
    rw [h1, ← isRounding_nmsThreshold roundF32 hfl]
    exact hfl.mono _ _ (by norm_num [nmsThreshold])
  have h4 : nmsThreshold < iouInclusionExclusion roundF32 shiftA.box shiftB.box := by
    rw [h2]
    have e : roundF32 (15 / 32) = 15 / 32 := by
      have h := hfl.exact 15 (-5) (by norm_num) (by norm_num) (by norm_num)
      have e : ((15 : Int) : ℚ) * (2 : ℚ) ^ (-5 : Int) = 15 / 32 := by norm_num
      rwa [e] at h
    have h := hfl.mono (15 / 32) (64 / 136) (by norm_num)
    rw [e] at h
    exact lt_of_lt_of_le (by norm_num [nmsThreshold]) h
  refine ⟨h1, h2, h3, h4, ?_⟩
  have hsort : gccSort [shiftA, shiftB] = [shiftA, shiftB] := by decide!
  rw [nms_of_ne_nil _ _ _ _ (by simp), hsort, nmsSorted_pair, if_neg (not_lt.2 h3)]

/-! ## The theorems at concrete inputs -/

theorem scenario_perm : [detB, detC, detA].Perm [detA, detB, detC] :=
  ((List.Perm.swap detA detC []).cons detB).trans (List.Perm.swap detA detB [detC])

theorem scenario_nodup : ([detA, detB, detC].map Detection.confidence).Nodup := by
  simp [detA, detB, detC]; norm_num

/-- The scenario of C1 with the binary32 rounding, the stable sort and the input order
B, C, A. -/
theorem nms_scenario_witness :
    IsRounding roundF32 ∧ IsStdSort stableSort ∧ [detB, detC, detA].Perm [detA, detB, detC] ∧
      nms roundF32 stableSort [detB, detC, detA] (9 / 20) = [detA, detC] ∧
      nms roundF32 stableSort [detB, detC, detA] nmsThreshold = [detA, detC] :=
  ⟨roundF32_isRounding, stableSort_isStdSort, scenario_perm,
    nms_scenario roundF32 roundF32_isRounding stableSort stableSort_isStdSort
      [detB, detC, detA] scenario_perm⟩

/-- The permutation and equality statements of C3 on the scenario input. -/
theorem nms_nms_perm_witness :
    IsRounding roundF32 ∧ IsStdSort stableSort ∧
      (nms roundF32 stableSort (nms roundF32 stableSort [detB, detC, detA] nmsThreshold)
        nmsThreshold).Perm (nms roundF32 stableSort [detB, detC, detA] nmsThreshold) :=
  ⟨roundF32_isRounding, stableSort_isStdSort,
    (nms_nms_perm roundF32 roundF32_isRounding stableSort stableSort_isStdSort
      [detB, detC, detA] nmsThreshold).1⟩

/-- The statements of C4 for the thresholds 1/8 and 3/8 on `mono4`. -/
theorem nms_threshold_mono_witness :
    IsRounding roundF32 ∧ IsStdSort stableSort ∧ (1 / 8 : ℚ) ≤ 3 / 8 ∧
      (nms roundF32 stableSort (nms roundF32 stableSort mono4 (1 / 8)) (3 / 8)).Perm
        (nms roundF32 stableSort mono4 (1 / 8)) :=
  ⟨roundF32_isRounding, stableSort_isStdSort, by norm_num,
    (nms_threshold_mono roundF32 roundF32_isRounding stableSort stableSort_isStdSort mono4
      (1 / 8) (3 / 8) (by norm_num)).2.2⟩

/-- The statement of C5 for the scenario input in the orders B, C, A and A, B, C. -/
theorem nms_perm_invariant_witness :
    IsStdSort stableSort ∧ [detB, detC, detA].Perm [detA, detB, detC] ∧
      ([detA, detB, detC].map Detection.confidence).Nodup ∧
      nms roundF32 stableSort [detB, detC, detA] nmsThreshold =
        nms roundF32 stableSort [detA, detB, detC] nmsThreshold :=
  ⟨stableSort_isStdSort, scenario_perm, scenario_nodup,
    nms_perm_invariant roundF32 stableSort stableSort_isStdSort [detA, detB, detC]
      [detB, detC, detA] scenario_perm scenario_nodup nmsThreshold⟩

/-- The statement of C6 on the scenario input. -/
theorem nms_output_descending_witness :
    IsStdSort stableSort ∧
      (nms roundF32 stableSort [detB, detC, detA] nmsThreshold).Pairwise
        (fun a b => a.confidence ≥ b.confidence) :=
  ⟨stableSort_isStdSort,
    nms_output_descending roundF32 stableSort stableSort_isStdSort [detB, detC, detA]
      nmsThreshold⟩

/-- The statement of C7 for the boxes A and C of the scenario. -/
theorem nms_disjoint_pair_witness :
    IsRounding roundF32 ∧ IsStdSort stableSort ∧ (detA.box.inter detC.box).empty = true ∧
      (0 : ℚ) ≤ nmsThreshold ∧ iou roundF32 detA.box detC.box = 0 ∧
      iou roundF32 detC.box detA.box = 0 ∧
      (nms roundF32 stableSort [detA, detC] nmsThreshold).Perm [detA, detC] :=
  ⟨roundF32_isRounding, stableSort_isStdSort, by decide, by norm_num [nmsThreshold],
    nms_disjoint_pair roundF32 roundF32_isRounding stableSort stableSort_isStdSort detA detC
      (by decide) nmsThreshold (by norm_num [nmsThreshold])⟩

/-- Box A of the scenario and a copy of it with confidence 0.7: only A is kept. -/
theorem nms_identical_pair_of_fits_witness :
    IsRounding roundF32 ∧ IsStdSort stableSort ∧ nmsThreshold < 1 ∧
      iou roundF32 detA.box (⟨detA.box, 7 / 10, 1⟩ : Detection).box = 1 ∧
      ∃ d, nms roundF32 stableSort [detA, ⟨detA.box, 7 / 10, 1⟩] nmsThreshold = [d] ∧
        (d = detA ∨ d = ⟨detA.box, 7 / 10, 1⟩) ∧
        detA.confidence ≤ d.confidence ∧
        (⟨detA.box, 7 / 10, 1⟩ : Detection).confidence ≤ d.confidence :=
  ⟨roundF32_isRounding, stableSort_isStdSort, by norm_num [nmsThreshold],
    nms_identical_pair_of_fits roundF32 roundF32_isRounding stableSort stableSort_isStdSort
      detA ⟨detA.box, 7 / 10, 1⟩ rfl (by decide) (by decide) (by decide) nmsThreshold
      (by norm_num [nmsThreshold])⟩

/-- The first statement of C9 on the scenario input: B is absent from the output and
A, which is kept, overlaps it. -/
theorem nms_removed_only_by_kept_witness :
    IsStdSort stableSort ∧
      ∀ e ∈ [detB, detC, detA], e ∉ nms roundF32 stableSort [detB, detC, detA] nmsThreshold →
        ∃ d ∈ nms roundF32 stableSort [detB, detC, detA] nmsThreshold,
          d.confidence ≥ e.confidence ∧ nmsThreshold < iou roundF32 d.box e.box :=
  ⟨stableSort_isStdSort,
    (nms_removed_only_by_kept roundF32 stableSort stableSort_isStdSort [detB, detC, detA]
      nmsThreshold).1⟩

theorem decode_eq_nil_of_branch (fl : ℚ → ℚ) (classCount : Nat) (origW origH : Int) (out : Mat)
    (h : decodeBranch out ≠ DecodeBranch.decoded) : decode fl classCount origW origH out = [] := by
  unfold decodeBranch at h
  unfold decode
  dsimp only at h ⊢
  split_ifs at h ⊢ with h1 h2
  · exact absurd rfl h
  · rfl
  · rfl

theorem decode_eq_filterMap (fl : ℚ → ℚ) (classCount : Nat) (origW origH : Int) (out : Mat)
    (h : decodeBranch out = DecodeBranch.decoded) :
    decode fl classCount origW origH out =
      (List.range (out.size.getD 0 0 * out.size.getD 2 0).toNat).filterMap
        (fun i => decodeRow fl classCount origW origH (out.size.getD 1 0)
          (reshapedRow out (out.size.getD 1 0).toNat
            (out.size.getD 0 0 * out.size.getD 2 0).toNat i)) := by
  unfold decodeBranch at h
  unfold decode
  dsimp only at h ⊢
  split_ifs at h ⊢ with h1 h2
  rfl

/-- The body of the decoding loop in terms of the rounded box and the clip. -/
theorem decodeRow_eq (fl : ℚ → ℚ) (classCount : Nat) (origW origH ch : Int) (data : List ℚ) :
    decodeRow fl classCount origW origH ch data =
      if ch - (classOffset ch : Int) ≤ 0 then none
      else if combinedConfidence fl ch data ≤ confThreshold then none
      else if ((bestClass ch data).2 : Int) < 0 ∨
          ((bestClass ch data).2 : Int) ≥ (classCount : Int) then none
      else
        (clipBox origW origH (roundedBox fl origW origH data).1
          (roundedBox fl origW origH data).2.1 (roundedBox fl origW origH data).2.2.1
          (roundedBox fl origW origH data).2.2.2).map
          (fun box => ⟨box, combinedConfidence fl ch data, ((bestClass ch data).2 : Int)⟩) := by
  unfold decodeRow roundedBox
  dsimp only
  split_ifs with h1 h2 h3
  · rfl
  · rfl
  · rfl
  · split <;> rename_i hc <;> rw [hc] <;> rfl

theorem clipBox_some (origW origH rx ry rw rh : Int) (box : Rect)
    (h : clipBox origW origH rx ry rw rh = some box) :
    0 < rw ∧ 0 < rh ∧
      box.x = max 0 (min rx (wrapInt (origW - 1))) ∧
      box.y = max 0 (min ry (wrapInt (origH - 1))) ∧
      box.width = (if wrapInt (max 0 (min rx (wrapInt (origW - 1))) + rw) > origW
        then wrapInt (origW - max 0 (min rx (wrapInt (origW - 1)))) else rw) ∧
      box.height = (if wrapInt (max 0 (min ry (wrapInt (origH - 1))) + rh) > origH
        then wrapInt (origH - max 0 (min ry (wrapInt (origH - 1)))) else rh) := by
  unfold clipBox at h
  dsimp only at h
  by_cases h1 : rw ≤ 0 ∨ rh ≤ 0
  · rw [if_pos h1] at h
    exact absurd h (by simp)
  · rw [if_neg h1] at h
    have hb := (Option.some.inj h).symm
    rw [hb]
    exact ⟨by omega, by omega, rfl, rfl, rfl, rfl⟩

/-- The clip leaves the box inside the image when the sums of lines 214-215 fit `int`:
the image is at least 1 × 1 and `origW + rw`, `origH + rh` are at most `2^31`. -/
theorem clipBox_inside (origW origH rx ry rw rh : Int) (box : Rect) (hW : 1 ≤ origW)
    (hH : 1 ≤ origH) (hfw : origW + rw ≤ 2147483648) (hfh : origH + rh ≤ 2147483648)
    (h : clipBox origW origH rx ry rw rh = some box) :
    0 ≤ box.x ∧ 0 ≤ box.y ∧ 1 ≤ box.width ∧ 1 ≤ box.height ∧
      box.x + box.width ≤ origW ∧ box.y + box.height ≤ origH := by
  obtain ⟨h1, h2, hx, hy, hw, hh⟩ := clipBox_some origW origH rx ry rw rh box h
  have eW : wrapInt (origW - 1) = origW - 1 := wrapInt_of_fits _ (by omega) (by omega)
  have eH : wrapInt (origH - 1) = origH - 1 := wrapInt_of_fits _ (by omega) (by omega)
  rw [eW] at hx hw
  rw [eH] at hy hh
  have ex : wrapInt (max 0 (min rx (origW - 1)) + rw) = max 0 (min rx (origW - 1)) + rw :=
    wrapInt_of_fits _ (by omega) (by omega)
  have ey : wrapInt (max 0 (min ry (origH - 1)) + rh) = max 0 (min ry (origH - 1)) + rh :=
    wrapInt_of_fits _ (by omega) (by omega)
  have ex2 : wrapInt (origW - max 0 (min rx (origW - 1))) =
      origW - max 0 (min rx (origW - 1)) := wrapInt_of_fits _ (by omega) (by omega)
  have ey2 : wrapInt (origH - max 0 (min ry (origH - 1))) =
      origH - max 0 (min ry (origH - 1)) := wrapInt_of_fits _ (by omega) (by omega)
  rw [ex, ex2] at hw
  rw [ey, ey2] at hh
  rw [hx, hy, hw, hh]
  refine ⟨by omega, by omega, ?_, ?_, ?_, ?_⟩
  · split_ifs <;> omega
  · split_ifs <;> omega
  · split_ifs <;> omega
  · split_ifs <;> omega

theorem decodeRow_some_iff (fl : ℚ → ℚ) (classCount : Nat) (origW origH ch : Int)
    (data : List ℚ) (d : Detection) :
    decodeRow fl classCount origW origH ch data = some d ↔
      0 < ch - (classOffset ch : Int) ∧ confThreshold < combinedConfidence fl ch data ∧
      (bestClass ch data).2 < classCount ∧
      ∃ box, clipBox origW origH (roundedBox fl origW origH data).1
          (roundedBox fl origW origH data).2.1 (roundedBox fl origW origH data).2.2.1
          (roundedBox fl origW origH data).2.2.2 = some box ∧
        d = ⟨box, combinedConfidence fl ch data, ((bestClass ch data).2 : Int)⟩ := by
  rw [decodeRow_eq]
  constructor
  · intro h
    split_ifs at h with h1 h2 h3
    obtain ⟨box, hb, hd⟩ := Option.map_eq_some'.1 h
    refine ⟨by omega, not_le.1 h2, ?_, box, hb, hd.symm⟩
    have : ¬ ((bestClass ch data).2 : Int) ≥ (classCount : Int) := fun hc => h3 (Or.inr hc)
    omega
  · rintro ⟨h1, h2, h3, box, hb, hd⟩
    rw [if_neg (by omega), if_neg (not_le.2 h2), if_neg (by omega), hb, hd]
    rfl

theorem nmsSorted_head_mem (fl : ℚ → ℚ) (a : Detection) (rest : List Detection) (t : ℚ) :
    a ∈ nmsSorted fl (a :: rest) t := by
  obtain ⟨hlen, hspec⟩ := suppressLoop_spec fl (a :: rest) t
  unfold nmsSorted
  rw [mem_collect _ _ hlen]
  refine ⟨0, by simp, ?_, rfl⟩
  rw [← Bool.not_eq_true]
  intro hset
  obtain ⟨i, hi, -⟩ := (hspec 0 (by simp)).1 hset
  omega

theorem roundHalfAway_intCast (n : Int) : roundHalfAway (n : ℚ) = n := by
  unfold roundHalfAway
  split_ifs with h
  · rw [Int.floor_eq_iff]
    constructor <;> linarith
  · have : ⌊-(n : ℚ) + 1 / 2⌋ = -n := by
      rw [Int.floor_eq_iff]
      push_cast
      constructor <;> linarith
    rw [this, neg_neg]

theorem roundToInt_intCast (n : Int) (h0 : -2147483648 ≤ n) (h1 : n ≤ 2147483647) :
    roundToInt (n : ℚ) = n := by
  unfold roundToInt
  rw [roundHalfAway_intCast, if_pos ⟨h0, h1⟩]

theorem IsRounding.int_eq {fl : ℚ → ℚ} (h : IsRounding fl) (q : ℚ) (m : Int) (hq : q = (m : ℚ))
    (hm : |m| < 2 ^ 24) : fl q = (m : ℚ) := by
  rw [hq]; exact h.int m hm

/-- The rounded box of a row whose centre and size are whole pixels of a 640 × 640
image, the size even: no operation rounds. -/
theorem roundedBox_of_pixels (fl : ℚ → ℚ) (hfl : IsRounding fl) (data : List ℚ)
    (cx cy w2 h2 : Int)
    (h0 : data.getD 0 0 * 640 = (cx : ℚ)) (h1 : data.getD 1 0 * 640 = (cy : ℚ))
    (h2' : data.getD 2 0 * 640 = ((2 * w2 : Int) : ℚ))
    (h3 : data.getD 3 0 * 640 = ((2 * h2 : Int) : ℚ))
    (bx : |cx| < 2 ^ 20) (by' : |cy| < 2 ^ 20) (bw : |w2| < 2 ^ 20) (bh : |h2| < 2 ^ 20) :
    roundedBox fl 640 640 data = (cx - w2, cy - h2, 2 * w2, 2 * h2) := by
  have e640 : fl ((inputSize : Int) : ℚ) = 640 := by
    have := hfl.int 640 (by norm_num)
    simpa [inputSize] using this
  have e640' : fl (((640 : Int)) : ℚ) = 640 := by
    have := hfl.int 640 (by norm_num)
    simpa using this
  have escale : fl ((640 : ℚ) / 640) = 1 := by
    rw [div_self (by norm_num)]; exact hfl.one
  have hsub : ∀ a b : Int, |a| < 2 ^ 20 → |b| < 2 ^ 20 → |a - b| < 2 ^ 24 := by
    intro a b ha hb
    rw [abs_lt] at ha hb ⊢
    constructor <;> omega
  have abs2 : ∀ a : Int, |a| < 2 ^ 20 → |2 * a| < 2 ^ 24 := by
    intro a ha
    rw [abs_lt] at ha ⊢
    constructor <;> omega
  have abs1 : ∀ a : Int, |a| < 2 ^ 20 → |a| < 2 ^ 24 := by
    intro a ha
    rw [abs_lt] at ha ⊢
    constructor <;> omega
  have ecx : fl (data.getD 0 0 * 640) = (cx : ℚ) := hfl.int_eq _ cx h0 (abs1 _ bx)
  have ecy : fl (data.getD 1 0 * 640) = (cy : ℚ) := hfl.int_eq _ cy h1 (abs1 _ by')
  have ew : fl (data.getD 2 0 * 640) = ((2 * w2 : Int) : ℚ) := hfl.int_eq _ _ h2' (abs2 _ bw)
  have eh : fl (data.getD 3 0 * 640) = ((2 * h2 : Int) : ℚ) := hfl.int_eq _ _ h3 (abs2 _ bh)
  have ew2 : fl (((2 * w2 : Int) : ℚ) / 2) = (w2 : ℚ) :=
    hfl.int_eq _ w2 (by push_cast; ring) (abs1 _ bw)
  have eh2 : fl (((2 * h2 : Int) : ℚ) / 2) = (h2 : ℚ) :=
    hfl.int_eq _ h2 (by push_cast; ring) (abs1 _ bh)
  have ex1 : fl ((cx : ℚ) - (w2 : ℚ)) = ((cx - w2 : Int) : ℚ) :=
    hfl.int_eq _ _ (by push_cast; ring) (hsub _ _ bx bw)
  have ey1 : fl ((cy : ℚ) - (h2 : ℚ)) = ((cy - h2 : Int) : ℚ) :=
    hfl.int_eq _ _ (by push_cast; ring) (hsub _ _ by' bh)
  have erx : fl (((cx - w2 : Int) : ℚ) * 1) = ((cx - w2 : Int) : ℚ) :=
    hfl.int_eq _ _ (by ring) (hsub _ _ bx bw)
  have ery : fl (((cy - h2 : Int) : ℚ) * 1) = ((cy - h2 : Int) : ℚ) :=
    hfl.int_eq _ _ (by ring) (hsub _ _ by' bh)
  have erw : fl (((2 * w2 : Int) : ℚ) * 1) = ((2 * w2 : Int) : ℚ) :=
    hfl.int_eq _ _ (by ring) (abs2 _ bw)
  have erh : fl (((2 * h2 : Int) : ℚ) * 1) = ((2 * h2 : Int) : ℚ) :=
    hfl.int_eq _ _ (by ring) (abs2 _ bh)
  have fits : ∀ a : Int, |a| < 2 ^ 24 → roundToInt (a : ℚ) = a := by
    intro a ha
    rw [abs_lt] at ha
    exact roundToInt_intCast a (by omega) (by omega)
  unfold roundedBox
  dsimp only
  rw [e640, e640', escale, ecx, ecy, ew, eh, ew2, eh2, ex1, ey1, erx, ery, erw, erh,
    fits _ (hsub _ _ bx bw), fits _ (hsub _ _ by' bh), fits _ (abs2 _ bw), fits _ (abs2 _ bh)]

theorem reshapedRow_tensorOfRow (row : List ℚ) :
    reshapedRow (tensorOfRow row) row.length 8400 0 = row := by
  apply List.ext_getElem
  · simp [reshapedRow]
  · intro c h1 h2
    have hlt : c * 8400 < row.length * 8400 := by omega
    simp only [reshapedRow, tensorOfRow, List.getElem_map, List.getElem_range, add_zero]
    rw [List.getD_eq_getElem _ _ (by simpa using hlt)]
    simp only [List.getElem_map, List.getElem_range, Nat.mul_mod_left, if_true]
    rw [Nat.mul_div_cancel _ (by norm_num), List.getD_eq_getElem _ _ h2]

theorem combinedConfidence_half (fl : ℚ → ℚ) (hfl : IsRounding fl) (row : List ℚ)
    (ho : objectness 84 row = 1) (hb : (bestClass 84 row).1 = 1 / 2) :
    combinedConfidence fl 84 row = 1 / 2 := by
  unfold combinedConfidence
  rw [ho, hb, one_mul, hfl.half]

theorem decodeRow_rowLeftEdge (fl : ℚ → ℚ) (hfl : IsRounding fl) (classCount : Nat)
    (hc : 0 < classCount) :
    roundedBox fl 640 640 rowLeftEdge = (-5, 10, 10, 10) ∧
    decodeRow fl classCount 640 640 84 rowLeftEdge = some ⟨⟨0, 10, 10, 10⟩, 1 / 2, 0⟩ := by
  have hb : roundedBox fl 640 640 rowLeftEdge = (-5, 10, 10, 10) := by
    rw [roundedBox_of_pixels fl hfl rowLeftEdge 0 15 5 5 (by norm_num [rowLeftEdge])
      (by norm_num [rowLeftEdge]) (by norm_num [rowLeftEdge]) (by norm_num [rowLeftEdge])
      (by norm_num) (by norm_num) (by norm_num) (by norm_num)]
    rfl
  have hconf := combinedConfidence_half fl hfl rowLeftEdge (by decide!) (by decide!)
  have hcls : (bestClass 84 rowLeftEdge).2 = 0 := by decide!
  refine ⟨hb, ?_⟩
  rw [decodeRow_some_iff, hb, hconf, hcls]
  exact ⟨by decide, by norm_num [confThreshold], hc, ⟨0, 10, 10, 10⟩, by decide, rfl⟩

theorem decodeRow_box (fl : ℚ → ℚ) (classCount : Nat) (origW origH ch : Int) (data : List ℚ)
    (d : Detection) (h : decodeRow fl classCount origW origH ch data = some d) :
    clipBox origW origH (roundedBox fl origW origH data).1 (roundedBox fl origW origH data).2.1
        (roundedBox fl origW origH data).2.2.1 (roundedBox fl origW origH data).2.2.2 = some d.box ∧
      d.classId = ((bestClass ch data).2 : Int) ∧ (bestClass ch data).2 < classCount := by
  obtain ⟨-, -, h3, box, hb, hd⟩ := (decodeRow_some_iff fl classCount origW origH ch data d).1 h
  rw [hd]
  exact ⟨hb, rfl, h3⟩

/-- The box of a detection of a row lies inside the image when the sums of lines
214-215 fit `int` for the rounded width and height of the row. -/
theorem decodeRow_box_inside (fl : ℚ → ℚ) (classCount : Nat) (origW origH ch : Int)
    (data : List ℚ) (d : Detection) (hW : 1 ≤ origW) (hH : 1 ≤ origH)
    (hfw : origW + (roundedBox fl origW origH data).2.2.1 ≤ 2147483648)
    (hfh : origH + (roundedBox fl origW origH data).2.2.2 ≤ 2147483648)
    (h : decodeRow fl classCount origW origH ch data = some d) :
    0 ≤ d.box.x ∧ 0 ≤ d.box.y ∧ 1 ≤ d.box.width ∧ 1 ≤ d.box.height ∧
      d.box.x + d.box.width ≤ origW ∧ d.box.y + d.box.height ≤ origH :=
  clipBox_inside origW origH _ _ _ _ d.box hW hH hfw hfh
    (decodeRow_box fl classCount origW origH ch data d h).1

/-- C12: for every tensor of shape `[1, 90, 8400]`, whatever its contents and whatever
the class table, the decoder takes the unexpected-shape branch (its message prints the
sizes 1, 90, 8400) and emits no detection, so `nms` receives the empty list and the
final result is empty. -/
theorem decode_shape_90 (fl : ℚ → ℚ) (sort : List Detection → List Detection)
    (classCount : Nat) (origW origH : Int) (t : ℚ) (out : Mat)
    (hshape : out.size = [1, 90, 8400]) :
    decodeBranch out = DecodeBranch.unexpectedShape 1 90 8400 ∧
      decode fl classCount origW origH out = [] ∧
      nms fl sort (decode fl classCount origW origH out) t = [] := by
  have hb : decodeBranch out = DecodeBranch.unexpectedShape 1 90 8400 := by
    unfold decodeBranch
    rw [hshape]
    decide
  have hd : decode fl classCount origW origH out = [] :=
    decode_eq_nil_of_branch fl classCount origW origH out (by rw [hb]; exact fun h => nomatch h)
  refine ⟨hb, hd, ?_⟩
  rw [hd]
  rfl

/-- The statement of C12 for a tensor of shape `[1, 90, 8400]` filled with the value
1/2. -/
theorem decode_shape_90_witness :
    (⟨[1, 90, 8400], List.replicate 90 (1 / 2)⟩ : Mat).size = [1, 90, 8400] ∧
      decode roundF32 80 640 480 ⟨[1, 90, 8400], List.replicate 90 (1 / 2)⟩ = [] :=
  ⟨rfl, (decode_shape_90 roundF32 gccSort 80 640 480 nmsThreshold
    ⟨[1, 90, 8400], List.replicate 90 (1 / 2)⟩ rfl).2.1⟩

theorem nms_mem_input (fl : ℚ → ℚ) (sort : List Detection → List Detection)
    (hs : IsStdSort sort) (D : List Detection) (t : ℚ) (d : Detection)
    (h : d ∈ nms fl sort D t) : d ∈ D := by
  rw [nms_eq_nmsSorted fl sort hs] at h
  exact (hs.perm D).mem_iff.1 ((nmsSorted_sublist fl (sort D) t).subset h)

/-- C14: every detection the decoder emits has a `classId` that is a valid index into
the class table, `0 ≤ classId < class_names.size()`, and `nms` keeps this, so the
lookup `class_names[d.classId]` of line 243 is in bounds.  A row whose best class index
is outside the table emits nothing, and every other row of the tensor still contributes
its detection. -/
theorem decode_classId_in_table (fl : ℚ → ℚ) (sort : List Detection → List Detection)
    (hs : IsStdSort sort) (classCount : Nat) (origW origH : Int) :
    (∀ ch data d, decodeRow fl classCount origW origH ch data = some d →
      0 ≤ d.classId ∧ d.classId < (classCount : Int)) ∧
    (∀ out, ∀ d ∈ decode fl classCount origW origH out,
      0 ≤ d.classId ∧ d.classId < (classCount : Int)) ∧
    (∀ out t, ∀ d ∈ nms fl sort (decode fl classCount origW origH out) t,
      0 ≤ d.classId ∧ d.classId < (classCount : Int)) ∧
    (∀ ch data, classCount ≤ (bestClass ch data).2 →
      decodeRow fl classCount origW origH ch data = none) ∧
    (∀ out, decodeBranch out = DecodeBranch.decoded →
      ∀ i, i < (out.size.getD 0 0 * out.size.getD 2 0).toNat → ∀ d,
        decodeRow fl classCount origW origH (out.size.getD 1 0)
          (reshapedRow out (out.size.getD 1 0).toNat
            (out.size.getD 0 0 * out.size.getD 2 0).toNat i) = some d →
        d ∈ decode fl classCount origW origH out) := by
  have hrow : ∀ ch data d, decodeRow fl classCount origW origH ch data = some d →
      0 ≤ d.classId ∧ d.classId < (classCount : Int) := by
    intro ch data d h
    obtain ⟨-, h2, h3⟩ := decodeRow_box fl classCount origW origH ch data d h
    rw [h2]
    exact ⟨by omega, by omega⟩
  have hdec : ∀ out, ∀ d ∈ decode fl classCount origW origH out,
      0 ≤ d.classId ∧ d.classId < (classCount : Int) := by
    intro out d hd
    obtain ⟨ch, data, hrd⟩ := mem_decode fl classCount origW origH out d hd
    exact hrow ch data d hrd
  refine ⟨hrow, hdec, ?_, ?_, ?_⟩
  · intro out t d hd
    exact hdec out d (nms_mem_input fl sort hs _ t d hd)
  · intro ch data hle
    cases hr : decodeRow fl classCount origW origH ch data with
    | none => rfl
    | some d =>
      have := (decodeRow_box fl classCount origW origH ch data d hr).2.2
      omega
  · intro out hb i hi d hd
    rw [decode_eq_filterMap fl classCount origW origH out hb]
    exact List.mem_filterMap.2 ⟨i, List.mem_range.2 hi, hd⟩

/-- The statement of C14 for a table of 80 names: the detection of `rowLeftEdge` has
class 0. -/
theorem decode_classId_in_table_witness :
    IsStdSort stableSort ∧
      decodeRow roundF32 80 640 640 84 rowLeftEdge = some ⟨⟨0, 10, 10, 10⟩, 1 / 2, 0⟩ ∧
      (0 : Int) ≤ (⟨⟨0, 10, 10, 10⟩, 1 / 2, 0⟩ : Detection).classId ∧
      (⟨⟨0, 10, 10, 10⟩, 1 / 2, 0⟩ : Detection).classId < ((80 : Nat) : Int) :=
  have h := (decodeRow_rowLeftEdge roundF32 roundF32_isRounding 80 (by norm_num)).2
  have hc := (decode_classId_in_table roundF32 stableSort stableSort_isStdSort 80 640 640).1
    84 rowLeftEdge _ h
  ⟨stableSort_isStdSort, h, hc.1, hc.2⟩

/-- C18: the output of `nms` is pairwise below the threshold: any two detections at
different positions of the output have a value of `iou`, in either order, that is less
than or equal to the threshold. -/
theorem nms_output_pairwise_le (fl : ℚ → ℚ) (hfl : IsRounding fl)
    (sort : List Detection → List Detection) (hs : IsStdSort sort) (D : List Detection)
    (t : ℚ) :
    (nms fl sort D t).Pairwise
      (fun a b => iou fl a.box b.box ≤ t ∧ iou fl b.box a.box ≤ t) := by
  refine List.Pairwise.imp ?_ (nms_pairwise fl sort hs D t)
  intro a b hab
  have h1 : iou fl a.box b.box ≤ t := not_lt.1 hab
  exact ⟨h1, by rw [iou_comm fl hfl.zero]; exact h1⟩

/-- The statement of C18 on the scenario input. -/
theorem nms_output_pairwise_le_witness :
    IsRounding roundF32 ∧ IsStdSort stableSort ∧
      (nms roundF32 stableSort [detB, detC, detA] nmsThreshold).Pairwise
        (fun a b => iou roundF32 a.box b.box ≤ nmsThreshold ∧
          iou roundF32 b.box a.box ≤ nmsThreshold) :=
  ⟨roundF32_isRounding, stableSort_isStdSort,
    nms_output_pairwise_le roundF32 roundF32_isRounding stableSort stableSort_isStdSort
      [detB, detC, detA] nmsThreshold⟩

/-- C19: `nms` only filters.  Its output is a sublist of the sorted input, so every
output detection is a detection of the input, unchanged, and no detection occurs more
often in the output than in the input; the empty input gives the empty output and a
non-empty input gives a non-empty output. -/
theorem nms_only_filters (fl : ℚ → ℚ) (sort : List Detection → List Detection)
    (hs : IsStdSort sort) (D : List Detection) (t : ℚ) :
    (nms fl sort D t).Sublist (sort D) ∧
    (nms fl sort D t).Subperm D ∧
    (∀ d ∈ nms fl sort D t, d ∈ D) ∧
    (∀ d, (nms fl sort D t).count d ≤ D.count d) ∧
    nms fl sort [] t = [] ∧
    (D ≠ [] → nms fl sort D t ≠ []) := by
  have hsub : (nms fl sort D t).Sublist (sort D) := by
    rw [nms_eq_nmsSorted fl sort hs]
    exact nmsSorted_sublist fl (sort D) t
  have hsp : (nms fl sort D t).Subperm D := hsub.subperm.trans (hs.perm D).subperm
  refine ⟨hsub, hsp, fun d hd => hsp.subset hd, fun d => hsp.count_le d, rfl, ?_⟩
  intro hD
  rw [nms_eq_nmsSorted fl sort hs]
  have hne : sort D ≠ [] := by
    intro h0
    have := (hs.perm D).length_eq
    rw [h0] at this
    exact hD (List.length_eq_zero.1 this.symm)
  cases hsd : sort D with
  | nil => exact absurd hsd hne
  | cons a rest => exact List.ne_nil_of_mem (nmsSorted_head_mem fl a rest t)

/-- The statement of C19 on the scenario input. -/
theorem nms_only_filters_witness :
    IsStdSort stableSort ∧
      (nms roundF32 stableSort [detB, detC, detA] nmsThreshold).Sublist
        (stableSort [detB, detC, detA]) :=
  ⟨stableSort_isStdSort,
    (nms_only_filters roundF32 stableSort stableSort_isStdSort [detB, detC, detA]
      nmsThreshold).1⟩

theorem Rect.zero_pixels : Rect.zero.pixels = 0 := by
  decide

theorem Rect.pixels_eq_zero_of_empty (a : Rect) (hw : 0 ≤ a.width) (hh : 0 ≤ a.height)
    (he : a.empty = true) : a.pixels = 0 := by
  simp only [Rect.empty, Bool.or_eq_true, decide_eq_true_eq] at he
  unfold Rect.pixels
  rcases he with h | h
  · have : a.width = 0 := by omega
    rw [this, zero_mul]
  · have : a.height = 0 := by omega
    rw [this, mul_zero]

theorem bounding_ge (aw ah bw bh iw ih : Int) (haw : 0 < aw) (hah : 0 < ah) (hbw : 0 < bw)
    (_hbh : 0 < bh) (h1 : iw ≤ aw) (h2 : iw ≤ bw) (h3 : ih ≤ ah) (h4 : ih ≤ bh) :
    aw * ah + bw * bh - (if 0 < iw ∧ 0 < ih then iw * ih else 0) ≤
      (aw + bw - iw) * (ah + bh - ih) := by
  by_cases hpos : 0 < iw ∧ 0 < ih
  · rw [if_pos hpos]
    nlinarith [mul_nonneg (sub_nonneg.2 h1) (sub_nonneg.2 h4),
      mul_nonneg (sub_nonneg.2 h2) (sub_nonneg.2 h3)]
  · rw [if_neg hpos]
    by_cases hiw : 0 < iw
    · have hih : ih ≤ 0 := by
        by_contra hc
        exact hpos ⟨hiw, by omega⟩
      nlinarith [mul_nonneg (sub_nonneg.2 h1) (by omega : 0 ≤ ah + bh - ih),
        mul_nonneg (le_of_lt hbw) (by omega : 0 ≤ ah - ih),
        mul_nonneg (le_of_lt haw) (by omega : 0 ≤ bh - ih),
        mul_nonneg (sub_nonneg.2 h2) (by omega : 0 ≤ ah + bh - ih)]
    · have hiw' : iw ≤ 0 := by omega
      nlinarith [mul_nonneg (by omega : 0 ≤ -iw) (by omega : 0 ≤ ah + bh - ih),
        mul_nonneg (le_of_lt haw) (by omega : 0 ≤ bh - ih),
        mul_nonneg (le_of_lt hbw) (by omega : 0 ≤ ah - ih)]

theorem Rect.inter_pixels_eq (a b : Rect) (ha : a.empty = false) (hb : b.empty = false) :
    (a.inter b).pixels =
      if 0 < min (a.x + a.width) (b.x + b.width) - max a.x b.x ∧
          0 < min (a.y + a.height) (b.y + b.height) - max a.y b.y
      then (min (a.x + a.width) (b.x + b.width) - max a.x b.x) *
        (min (a.y + a.height) (b.y + b.height) - max a.y b.y)
      else 0 := by
  unfold Rect.inter
  simp only [ha, hb, Bool.or_self, Bool.false_eq_true, if_false]
  by_cases hr : (Rect.mk (max a.x b.x) (max a.y b.y)
      (min (a.x + a.width) (b.x + b.width) - max a.x b.x)
      (min (a.y + a.height) (b.y + b.height) - max a.y b.y)).empty = true
  · rw [if_pos hr]
    simp only [Rect.empty, Bool.or_eq_true, decide_eq_true_eq] at hr
    rw [if_neg (by omega), Rect.zero_pixels]
  · rw [if_neg hr]
    simp only [Rect.empty, Bool.or_eq_true, decide_eq_true_eq, not_or, not_le] at hr
    rw [if_pos hr]
    rfl

theorem Rect.union_pixels_eq (a b : Rect) (ha : a.empty = false) (hb : b.empty = false) :
    (a.union b).pixels =
      (a.width + b.width - (min (a.x + a.width) (b.x + b.width) - max a.x b.x)) *
        (a.height + b.height - (min (a.y + a.height) (b.y + b.height) - max a.y b.y)) := by
  unfold Rect.union
  simp only [ha, hb, Bool.false_eq_true, if_false, Bool.not_false, if_true, Rect.pixels]
  congr 1 <;> omega

/-- For boxes of non-negative width and height: the number of pixels of `a & b` is between 0 and
the inclusion-exclusion sum `area(a) + area(b) - area(a & b)`, which is at most the number of
pixels of the bounding rectangle `a | b`. -/
theorem Rect.pixels_le (a b : Rect) (haw : 0 ≤ a.width) (hah : 0 ≤ a.height)
    (hbw : 0 ≤ b.width) (hbh : 0 ≤ b.height) :
    0 ≤ (a.inter b).pixels ∧
      (a.inter b).pixels ≤ a.pixels + b.pixels - (a.inter b).pixels ∧
      a.pixels + b.pixels - (a.inter b).pixels ≤ (a.union b).pixels := by
  have hI := Rect.inter_area_nonneg a b
  have hann : 0 ≤ a.pixels := mul_nonneg haw hah
  have hbnn : 0 ≤ b.pixels := mul_nonneg hbw hbh
  by_cases ha : a.empty = true
  · have h0 := Rect.pixels_eq_zero_of_empty a haw hah ha
    have hu : a.union b = b := by unfold Rect.union; rw [if_pos ha]
    rw [Rect.inter_of_empty_left a b ha, Rect.zero_pixels, hu, h0]
    omega
  · by_cases hb : b.empty = true
    · have h0 := Rect.pixels_eq_zero_of_empty b hbw hbh hb
      have hu : a.union b = a := by
        unfold Rect.union; rw [if_neg ha]; simp [hb]
      rw [Rect.inter_of_empty_right a b hb, Rect.zero_pixels, hu, h0]
      omega
    · have ha' : a.empty = false := by simpa using ha
      have hb' : b.empty = false := by simpa using hb
      have hwa : 0 < a.width ∧ 0 < a.height := by
        simp only [Rect.empty, Bool.or_eq_false_iff, decide_eq_false_iff_not, not_le] at ha'
        exact ha'
      have hwb : 0 < b.width ∧ 0 < b.height := by
        simp only [Rect.empty, Bool.or_eq_false_iff, decide_eq_false_iff_not, not_le] at hb'
        exact hb'
      have key := bounding_ge a.width a.height b.width b.height
        (min (a.x + a.width) (b.x + b.width) - max a.x b.x)
        (min (a.y + a.height) (b.y + b.height) - max a.y b.y)
        hwa.1 hwa.2 hwb.1 hwb.2 (by omega) (by omega) (by omega) (by omega)
      rw [← Rect.inter_pixels_eq a b ha' hb', ← Rect.union_pixels_eq a b ha' hb'] at key
      have ka : a.pixels = a.width * a.height := rfl
      have kb : b.pixels = b.width * b.height := rfl
      rw [← ka, ← kb] at key
      refine ⟨hI, ?_, key⟩
      -- the intersection is no larger than either box
      have hle : (a.inter b).pixels ≤ a.pixels := by
        rw [Rect.inter_pixels_eq a b ha' hb']
        split_ifs with hp
        · unfold Rect.pixels
          exact mul_le_mul (by omega) (by omega) (le_of_lt hp.2) haw
        · exact hann
      have hle2 : (a.inter b).pixels ≤ b.pixels := by
        rw [Rect.inter_pixels_eq a b ha' hb']
        split_ifs with hp
        · unfold Rect.pixels
          exact mul_le_mul (by omega) (by omega) (le_of_lt hp.2) hbw
        · exact hbnn
      omega

theorem Rect.sum_eq_union_of_containsRect (a b : Rect) (haw : 0 ≤ a.width) (hah : 0 ≤ a.height)
    (hbw : 0 ≤ b.width) (hbh : 0 ≤ b.height) (hc : a.containsRect b) :
    a.pixels + b.pixels - (a.inter b).pixels = (a.union b).pixels := by
  by_cases ha : a.empty = true
  · have h0 := Rect.pixels_eq_zero_of_empty a haw hah ha
    have hu : a.union b = b := by unfold Rect.union; rw [if_pos ha]
    rw [Rect.inter_of_empty_left a b ha, Rect.zero_pixels, hu, h0]
    omega
  · by_cases hb : b.empty = true
    · have h0 := Rect.pixels_eq_zero_of_empty b hbw hbh hb
      have hu : a.union b = a := by
        unfold Rect.union; rw [if_neg ha]; simp [hb]
      rw [Rect.inter_of_empty_right a b hb, Rect.zero_pixels, hu, h0]
      omega
    · have ha' : a.empty = false := by simpa using ha
      have hb' : b.empty = false := by simpa using hb
      have hwb : 0 < b.width ∧ 0 < b.height := by
        simp only [Rect.empty, Bool.or_eq_false_iff, decide_eq_false_iff_not, not_le] at hb'
        exact hb'
      obtain ⟨c1, c2, c3, c4⟩ := hc
      have e1 : min (a.x + a.width) (b.x + b.width) - max a.x b.x = b.width := by omega
      have e2 : min (a.y + a.height) (b.y + b.height) - max a.y b.y = b.height := by omega
      rw [Rect.inter_pixels_eq a b ha' hb', Rect.union_pixels_eq a b ha' hb', e1, e2,
        if_pos hwb]
      unfold Rect.pixels
      ring

theorem iouInclusionExclusion_comm (fl : ℚ → ℚ) (a b : Rect) :
    iouInclusionExclusion fl a b = iouInclusionExclusion fl b a := by
  unfold iouInclusionExclusion
  rw [Rect.inter_comm a b, add_comm a.pixels b.pixels]

theorem Rect.union_pixels_comm (a b : Rect) (haw : 0 ≤ a.width) (hah : 0 ≤ a.height)
    (hbw : 0 ≤ b.width) (hbh : 0 ≤ b.height) : (a.union b).pixels = (b.union a).pixels := by
  by_cases ha : a.empty = true
  · have h0 := Rect.pixels_eq_zero_of_empty a haw hah ha
    have hu : a.union b = b := by unfold Rect.union; rw [if_pos ha]
    by_cases hb : b.empty = true
    · have hu2 : b.union a = a := by unfold Rect.union; rw [if_pos hb]
      rw [hu, hu2, h0, Rect.pixels_eq_zero_of_empty b hbw hbh hb]
    · have hu2 : b.union a = b := by
        unfold Rect.union; rw [if_neg hb]; simp [ha]
      rw [hu, hu2]
  · by_cases hb : b.empty = true
    · have hu : a.union b = a := by
        unfold Rect.union; rw [if_neg ha]; simp [hb]
      have hu2 : b.union a = a := by unfold Rect.union; rw [if_pos hb]
      rw [hu, hu2]
    · have ha' : a.empty = false := by simpa using ha
      have hb' : b.empty = false := by simpa using hb
      rw [Rect.union_pixels_eq a b ha' hb', Rect.union_pixels_eq b a hb' ha']
      congr 1 <;> omega

/-- When the number of pixels of the bounding rectangle `a | b` fits `int`, the two calls
of `area()` of line 57 return the numbers of pixels. -/
theorem Rect.area_of_fits (a b : Rect) (haw : 0 ≤ a.width) (hah : 0 ≤ a.height)
    (hbw : 0 ≤ b.width) (hbh : 0 ≤ b.height) (hfit : (a.union b).pixels < 2147483648) :
    (a.inter b).area = (a.inter b).pixels ∧ (a.union b).area = (a.union b).pixels := by
  obtain ⟨hI, hIV, hVU⟩ := Rect.pixels_le a b haw hah hbw hbh
  exact ⟨Rect.area_eq_pixels _ (by omega) (by omega),
    Rect.area_eq_pixels _ (by omega) hfit⟩

theorem iou_eq_of_sum_eq_union (fl : ℚ → ℚ) (a b : Rect)
    (hI : (a.inter b).area = (a.inter b).pixels) (hU : (a.union b).area = (a.union b).pixels)
    (h : a.pixels + b.pixels - (a.inter b).pixels = (a.union b).pixels) :
    iou fl a b = iouInclusionExclusion fl a b := by
  unfold iou iouInclusionExclusion
  dsimp only
  rw [hI, hU, h]

/-- For two boxes of non-negative width and height whose bounding rectangle has a
number of pixels that fits `int`: the value of `iou` lies between 0 and 1 and is at most
the inclusion-exclusion IoU. -/
theorem iou_bounds (fl : ℚ → ℚ) (hfl : IsRounding fl) (a b : Rect) (haw : 0 ≤ a.width)
    (hah : 0 ≤ a.height) (hbw : 0 ≤ b.width) (hbh : 0 ≤ b.height)
    (hfit : (a.union b).pixels < 2147483648) :
    0 ≤ iou fl a b ∧ iou fl a b ≤ 1 ∧ iou fl a b ≤ iouInclusionExclusion fl a b := by
  obtain ⟨hI, hIV, hVU⟩ := Rect.pixels_le a b haw hah hbw hbh
  obtain ⟨hIa, hUa⟩ := Rect.area_of_fits a b haw hah hbw hbh hfit
  have hflI : 0 ≤ fl ((a.inter b).pixels : ℚ) := by
    have := hfl.mono 0 ((a.inter b).pixels : ℚ) (by exact_mod_cast hI)
    rwa [hfl.zero] at this
  have hnn : ∀ u : Int, 0 < u → 0 ≤ fl (fl ((a.inter b).pixels : ℚ) / fl (u : ℚ)) := by
    intro u hu
    have h1 := hfl.pos_int u hu
    have := hfl.mono 0 _ (div_nonneg hflI (by linarith : (0 : ℚ) ≤ fl (u : ℚ)))
    rwa [hfl.zero] at this
  have hIE : 0 ≤ iouInclusionExclusion fl a b := by
    unfold iouInclusionExclusion
    dsimp only
    split_ifs with hv
    · exact hnn _ hv
    · exact le_refl _
  by_cases hU : 0 < (a.union b).pixels
  · have hUq := hfl.pos_int _ hU
    have e : iou fl a b = fl (fl ((a.inter b).pixels : ℚ) / fl ((a.union b).pixels : ℚ)) := by
      unfold iou; dsimp only; rw [hIa, hUa, if_pos hU]
    refine ⟨by rw [e]; exact hnn _ hU, ?_, ?_⟩
    · rw [e, ← hfl.one]
      apply hfl.mono
      rw [div_le_one (by linarith)]
      exact hfl.mono _ _ (by exact_mod_cast le_trans hIV hVU)
    · by_cases hV : 0 < a.pixels + b.pixels - (a.inter b).pixels
      · have hVq := hfl.pos_int _ hV
        have e2 : iouInclusionExclusion fl a b =
            fl (fl ((a.inter b).pixels : ℚ) /
              fl ((a.pixels + b.pixels - (a.inter b).pixels : Int) : ℚ)) := by
          unfold iouInclusionExclusion; dsimp only; rw [if_pos hV]
        rw [e, e2]
        apply hfl.mono
        exact div_le_div_of_nonneg_left hflI (by linarith)
          (hfl.mono _ _ (by exact_mod_cast hVU))
      · have hI0 : (a.inter b).area = 0 := by rw [hIa]; omega
        rw [iou_of_inter_area_zero fl hfl.zero a b hI0]
        exact hIE
  · have e : iou fl a b = 0 := by
      unfold iou; dsimp only; rw [hUa, if_neg hU]
    rw [e]
    exact ⟨le_refl _, by norm_num, hIE⟩

theorem stableSort_isComparisonSort : IsComparisonSort stableSort := by
  intro f hf l
  unfold stableSort
  rw [List.map_insertionSort (fun a b : Detection => a.confidence ≥ b.confidence)
    (fun a b : Detection => a.confidence ≥ b.confidence) f l]
  intro a _ b _
  rw [hf a, hf b]

theorem getD_map_box (f : Detection → Detection) (hf : ∀ d, (f d).box = d.box)
    (l : List Detection) (i : Nat) :
    ((l.map f).getD i default).box = (l.getD i default).box := by
  by_cases hi : i < l.length
  · rw [List.getD_eq_getElem _ _ (by simpa using hi), List.getD_eq_getElem _ _ hi,
      List.getElem_map, hf]
  · rw [List.getD_eq_default _ _ (by simpa using hi), List.getD_eq_default _ _ (by omega)]

theorem suppressLoop_map (fl : ℚ → ℚ) (f : Detection → Detection) (hf : ∀ d, (f d).box = d.box)
    (l : List Detection) (t : ℚ) : suppressLoop fl (l.map f) t = suppressLoop fl l t := by
  have hinner : ∀ i, innerStep fl (l.map f) t i = innerStep fl l t i := by
    intro i
    funext sup j
    unfold innerStep
    rw [getD_map_box f hf l i, getD_map_box f hf l j]
  have houter : outerStep fl (l.map f) t = outerStep fl l t := by
    funext sup i
    unfold outerStep innerLoop
    rw [hinner i, List.length_map]
  unfold suppressLoop
  rw [houter, List.length_map]

theorem nmsSorted_map (fl : ℚ → ℚ) (f : Detection → Detection) (hf : ∀ d, (f d).box = d.box)
    (l : List Detection) (t : ℚ) : nmsSorted fl (l.map f) t = (nmsSorted fl l t).map f := by
  have hlen := (suppressLoop_spec fl l t).1
  unfold nmsSorted
  rw [suppressLoop_map fl f hf l t, collect_eq _ _ (by rw [hlen, List.length_map]),
    collect_eq _ _ hlen, List.zip_map_left, List.filter_map, List.map_map, List.map_map]
  rfl

theorem nms_map (fl : ℚ → ℚ) (sort : List Detection → List Detection)
    (hc : IsComparisonSort sort) (f : Detection → Detection)
    (hbox : ∀ d, (f d).box = d.box) (hconf : ∀ d, (f d).confidence = d.confidence)
    (D : List Detection) (t : ℚ) : nms fl sort (D.map f) t = (nms fl sort D t).map f := by
  cases D with
  | nil => rfl
  | cons a rest =>
    rw [nms_of_ne_nil _ _ _ _ (by simp), nms_of_ne_nil _ _ _ _ (by simp), hc f hconf,
      nmsSorted_map fl f hbox]

theorem withIndex_map_classFrom (D : List Detection) : (withIndex D).map (classFrom D) = D := by
  apply List.ext_getElem
  · simp [withIndex]
  · intro i h1 h2
    simp only [withIndex, classFrom, List.getElem_map, List.getElem_range, Int.toNat_ofNat]
    rw [List.getD_eq_getElem _ _ h2]

theorem withIndex_congr (D D' : List Detection)
    (h : List.Forall₂ (fun a b => a.box = b.box ∧ a.confidence = b.confidence) D D') :
    withIndex D' = withIndex D := by
  have hlen : D.length = D'.length := h.length_eq
  unfold withIndex
  rw [← hlen]
  apply List.map_congr_left
  intro i hi
  have hi1 : i < D.length := List.mem_range.1 hi
  have hi2 : i < D'.length := by omega
  have := List.forall₂_iff_get.1 h |>.2 i hi1 hi2
  simp only [List.get_eq_getElem] at this
  rw [List.getD_eq_getElem _ _ hi1, List.getD_eq_getElem _ _ hi2, this.1, this.2]

theorem classFrom_of_mem_withIndex (D : List Detection) (d : Detection)
    (h : d ∈ withIndex D) :
    d.classId.toNat < D.length ∧ classFrom D d = D.getD d.classId.toNat default := by
  obtain ⟨i, hi, rfl⟩ := List.mem_map.1 h
  have hi1 : i < D.length := List.mem_range.1 hi
  simp only [classFrom, Int.toNat_ofNat]
  exact ⟨hi1, trivial⟩

/-- C15: suppression is class-agnostic.  For two input lists that agree position by
position on boxes and confidences, `nms` keeps the detections of the same positions of
both, in the same order: there is one list of distinct positions that gives both
results. -/
theorem nms_class_agnostic (fl : ℚ → ℚ) (sort : List Detection → List Detection)
    (hs : IsStdSort sort) (hc : IsComparisonSort sort) (D D' : List Detection)
    (h : List.Forall₂ (fun a b => a.box = b.box ∧ a.confidence = b.confidence) D D') (t : ℚ) :
    ∃ idx : List Nat, idx.Nodup ∧ (∀ i ∈ idx, i < D.length) ∧
      nms fl sort D t = idx.map (fun i => D.getD i default) ∧
      nms fl sort D' t = idx.map (fun i => D'.getD i default) := by
  have hlen : D.length = D'.length := h.length_eq
  have key : ∀ E : List Detection, withIndex E = withIndex D →
      nms fl sort E t =
        ((nms fl sort (withIndex D) t).map (fun d => d.classId.toNat)).map
          (fun i => E.getD i default) := by
    intro E hE
    conv_lhs => rw [← withIndex_map_classFrom E, hE]
    rw [nms_map fl sort hc (classFrom E) (fun _ => rfl) (fun _ => rfl), List.map_map]
    apply List.map_congr_left
    intro d hd
    have hmem : d ∈ withIndex E := by
      rw [hE]; exact nms_mem_input fl sort hs _ t d hd
    exact (classFrom_of_mem_withIndex E d hmem).2
  refine ⟨(nms fl sort (withIndex D) t).map (fun d => d.classId.toNat), ?_, ?_,
    key D rfl, key D' (withIndex_congr D D' h)⟩
  · have hsub : (nms fl sort (withIndex D) t).Sublist (sort (withIndex D)) := by
      rw [nms_eq_nmsSorted fl sort hs]
      exact nmsSorted_sublist fl _ t
    have hnd : ((withIndex D).map (fun d => d.classId.toNat)).Nodup := by
      have e : (withIndex D).map (fun d => d.classId.toNat) = List.range D.length := by
        unfold withIndex
        rw [List.map_map]
        conv_rhs => rw [← List.map_id (List.range D.length)]
        apply List.map_congr_left
        intro i _
        simp
      rw [e]
      exact List.nodup_range _
    have hnd2 : ((sort (withIndex D)).map (fun d => d.classId.toNat)).Nodup :=
      ((hs.perm (withIndex D)).map _).nodup_iff.2 hnd
    exact List.Nodup.sublist (hsub.map _) hnd2
  · intro i hi
    obtain ⟨d, hd, rfl⟩ := List.mem_map.1 hi
    exact (classFrom_of_mem_withIndex D d (nms_mem_input fl sort hs _ t d hd)).1

/-! ## The overlap ratio, class-agnostic suppression and ties -/

/-- Two boxes of non-negative width and height whose bounding rectangle `a | b` has a
number of pixels that fits `int` (below `2^31`): the ratio the code computes lies between
0 and 1 and is less than or equal to the inclusion-exclusion IoU; the two are equal when
one box contains the other.  This holds for every rounding `fl`, the exact quotient
(`fl = id`) included. -/
theorem iou_le_inclusion_exclusion_of_fits (fl : ℚ → ℚ) (hfl : IsRounding fl) (a b : Rect)
    (haw : 0 ≤ a.width) (hah : 0 ≤ a.height) (hbw : 0 ≤ b.width) (hbh : 0 ≤ b.height)
    (hfit : (a.union b).pixels < 2147483648) :
    0 ≤ iou fl a b ∧ iou fl a b ≤ 1 ∧ iou fl a b ≤ iouInclusionExclusion fl a b ∧
      (a.containsRect b ∨ b.containsRect a → iou fl a b = iouInclusionExclusion fl a b) := by
  obtain ⟨h1, h2, h3⟩ := iou_bounds fl hfl a b haw hah hbw hbh hfit
  refine ⟨h1, h2, h3, ?_⟩
  rintro (hc | hc)
  · obtain ⟨hI, hU⟩ := Rect.area_of_fits a b haw hah hbw hbh hfit
    exact iou_eq_of_sum_eq_union fl a b hI hU
      (Rect.sum_eq_union_of_containsRect a b haw hah hbw hbh hc)
  · have hfit2 : (b.union a).pixels < 2147483648 := by
      rw [← Rect.union_pixels_comm a b haw hah hbw hbh]; exact hfit
    obtain ⟨hI, hU⟩ := Rect.area_of_fits b a hbw hbh haw hah hfit2
    rw [iou_comm fl hfl.zero a b, iouInclusionExclusion_comm fl a b]
    exact iou_eq_of_sum_eq_union fl b a hI hU
      (Rect.sum_eq_union_of_containsRect b a hbw hbh haw hah hc)

/-- The boxes (0,0,10,10) and (2,2,10,10), with the exact quotient: `64 / 144 ≤ 64 / 136`. -/
theorem iou_le_inclusion_exclusion_of_fits_witness :
    IsRounding id ∧ (0 : Int) ≤ shiftA.box.width ∧ (0 : Int) ≤ shiftA.box.height ∧
      (0 : Int) ≤ shiftB.box.width ∧ (0 : Int) ≤ shiftB.box.height ∧
      (shiftA.box.union shiftB.box).pixels < 2147483648 ∧
      0 ≤ iou id shiftA.box shiftB.box ∧ iou id shiftA.box shiftB.box ≤ 1 ∧
      iou id shiftA.box shiftB.box ≤ iouInclusionExclusion id shiftA.box shiftB.box :=
  have h := iou_le_inclusion_exclusion_of_fits id isRounding_id shiftA.box shiftB.box
    (by decide) (by decide) (by decide) (by decide) (by decide)
  ⟨isRounding_id, by decide, by decide, by decide, by decide, by decide, h.1, h.2.1, h.2.2.1⟩

/-- The statement of C15 for the scenario input and the same boxes and confidences with
every class set to 7. -/
theorem nms_class_agnostic_witness :
    IsStdSort stableSort ∧ IsComparisonSort stableSort ∧
      List.Forall₂ (fun a b : Detection => a.box = b.box ∧ a.confidence = b.confidence)
        [detB, detC, detA]
        [⟨detB.box, detB.confidence, 7⟩, ⟨detC.box, detC.confidence, 7⟩,
          ⟨detA.box, detA.confidence, 7⟩] ∧
      ∃ idx : List Nat, idx.Nodup ∧ (∀ i ∈ idx, i < [detB, detC, detA].length) ∧
        nms roundF32 stableSort [detB, detC, detA] nmsThreshold =
          idx.map (fun i => [detB, detC, detA].getD i default) ∧
        nms roundF32 stableSort
            [⟨detB.box, detB.confidence, 7⟩, ⟨detC.box, detC.confidence, 7⟩,
              ⟨detA.box, detA.confidence, 7⟩] nmsThreshold =
          idx.map (fun i =>
            ([⟨detB.box, detB.confidence, 7⟩, ⟨detC.box, detC.confidence, 7⟩,
              ⟨detA.box, detA.confidence, 7⟩] : List Detection).getD i default) :=
  have hf : List.Forall₂ (fun a b : Detection => a.box = b.box ∧ a.confidence = b.confidence)
      [detB, detC, detA]
      [⟨detB.box, detB.confidence, 7⟩, ⟨detC.box, detC.confidence, 7⟩,
        ⟨detA.box, detA.confidence, 7⟩] :=
    List.Forall₂.cons ⟨rfl, rfl⟩ (List.Forall₂.cons ⟨rfl, rfl⟩
      (List.Forall₂.cons ⟨rfl, rfl⟩ List.Forall₂.nil))
  ⟨stableSort_isStdSort, stableSort_isComparisonSort, hf,
    nms_class_agnostic roundF32 stableSort stableSort_isStdSort stableSort_isComparisonSort
      _ _ hf nmsThreshold⟩

/-! ### The order of ties -/

theorem filter_orderedInsert (c : ℚ) (a : Detection) (l : List Detection) :
    (List.orderedInsert (fun x y : Detection => x.confidence ≥ y.confidence) a l).filter
        (fun d => decide (d.confidence = c)) =
      (a :: l).filter (fun d => decide (d.confidence = c)) := by
  induction l with
  | nil => rfl
  | cons b rest ih =>
    rw [List.orderedInsert]
    split_ifs with h
    · rfl
    · have hlt : a.confidence < b.confidence := not_le.1 h
      rw [List.filter_cons, ih]
      by_cases hb : b.confidence = c
      · have ha : ¬ a.confidence = c := fun hac => by rw [hac, hb] at hlt; exact lt_irrefl _ hlt
        simp [List.filter_cons, hb, ha]
      · simp [List.filter_cons, hb]

/-- The insertion sort keeps the order of ties of every list. -/
theorem stableSort_keepsTieOrder (l : List Detection) : KeepsTieOrder stableSort l := by
  intro c
  unfold stableSort
  induction l with
  | nil => rfl
  | cons a rest ih =>
    rw [List.insertionSort, filter_orderedInsert, List.filter_cons, List.filter_cons, ih]

theorem keepsTieOrder_of_nodup (sort : List Detection → List Detection) (hs : IsStdSort sort)
    (l : List Detection) (hnd : (l.map Detection.confidence).Nodup) :
    KeepsTieOrder sort l := by
  intro c
  have hsame : sort l = stableSort l :=
    eq_of_perm_of_desc_of_nodup _ _
      ((hs.perm l).trans (stableSort_isStdSort.perm l).symm) (hs.desc l)
      (stableSort_isStdSort.desc l)
      (((stableSort_isStdSort.perm l).map _).nodup_iff.2 hnd)
  rw [hsame]
  exact stableSort_keepsTieOrder l c

/-- C17, as the code has it: `std::sort` leaves a permutation of the input in
descending confidence order, and `nms` keeps the relative order of that sorted list.
Detections of equal confidence come in input order whenever the sort keeps the order
of ties on the input (then the detections of each confidence that `nms` keeps are
in input order too), in particular when no two confidences of the input are equal. -/
theorem sort_order_up_to_ties (fl : ℚ → ℚ) (sort : List Detection → List Detection)
    (hs : IsStdSort sort) (D : List Detection) (t : ℚ) :
    (sort D).Perm D ∧
    (sort D).Pairwise (fun a b => a.confidence ≥ b.confidence) ∧
    (nms fl sort D t).Sublist (sort D) ∧
    (KeepsTieOrder sort D → ∀ c : ℚ,
      ((nms fl sort D t).filter (fun d => decide (d.confidence = c))).Sublist
        (D.filter (fun d => decide (d.confidence = c)))) ∧
    ((D.map Detection.confidence).Nodup → KeepsTieOrder sort D) := by
  have hsub : (nms fl sort D t).Sublist (sort D) := by
    rw [nms_eq_nmsSorted fl sort hs]
    exact nmsSorted_sublist fl (sort D) t
  refine ⟨hs.perm D, hs.desc D, hsub, ?_, keepsTieOrder_of_nodup sort hs D⟩
  intro hk c
  rw [← hk c]
  exact hsub.filter _

/-- The statement of C17 for the insertion sort on the two tied detections. -/
theorem sort_order_up_to_ties_witness :
    IsStdSort stableSort ∧ KeepsTieOrder stableSort [tieY, tieX] ∧
      ∀ c : ℚ, ((nms roundF32 stableSort [tieY, tieX] nmsThreshold).filter
        (fun d => decide (d.confidence = c))).Sublist
          ([tieY, tieX].filter (fun d => decide (d.confidence = c))) :=
  ⟨stableSort_isStdSort, stableSort_keepsTieOrder _,
    (sort_order_up_to_ties roundF32 stableSort stableSort_isStdSort [tieY, tieX]
      nmsThreshold).2.2.2.1 (stableSort_keepsTieOrder _)⟩

set_option maxRecDepth 100000 in
/-- C17 fails on the code as libstdc++ runs it: the seventeen detections of `row17`
have the same confidence, and the sort returns them in another order than the input
(the lists give the class of each detection, which is its position in the input);
`nms` removes none of them, so its output has the order of the sort. -/
theorem sort_not_stable :
    ((gccSort row17).filter (fun d => decide (d.confidence = 1 / 2))).map Detection.classId =
      [8, 16, 15, 14, 13, 12, 11, 10, 9, 0, 7, 6, 5, 4, 3, 2, 1] ∧
    (row17.filter (fun d => decide (d.confidence = 1 / 2))).map Detection.classId =
      [0, 1, 2, 3, 4, 5, 6, 7, 8, 9, 10, 11, 12, 13, 14, 15, 16] ∧
    nms roundF32 gccSort row17 nmsThreshold = gccSort row17 ∧
    ¬ KeepsTieOrder gccSort row17 := by
  have h1 : ((gccSort row17).filter (fun d => decide (d.confidence = 1 / 2))).map
      Detection.classId = [8, 16, 15, 14, 13, 12, 11, 10, 9, 0, 7, 6, 5, 4, 3, 2, 1] := by
    decide!
  have h2 : (row17.filter (fun d => decide (d.confidence = 1 / 2))).map Detection.classId =
      [0, 1, 2, 3, 4, 5, 6, 7, 8, 9, 10, 11, 12, 13, 14, 15, 16] := by
    decide!
  have h3 : nms roundF32 gccSort row17 nmsThreshold = gccSort row17 := by
    rw [nms_of_ne_nil _ _ _ _ (by decide)]
    exact nmsSorted_of_disjoint roundF32 roundF32_isRounding _ _
      (by norm_num [nmsThreshold]) (by decide!)
  refine ⟨h1, h2, h3, ?_⟩
  intro hk
  have := congrArg (List.map Detection.classId) (hk (1 / 2))
  rw [h1, h2] at this
  exact absurd this (by decide)

/-! ## The shape check and the class table -/

theorem decodeBranch_tensorOfRow (row : List ℚ) (hlen : row.length = 84 ∨ row.length = 85) :
    decodeBranch (tensorOfRow row) = DecodeBranch.decoded := by
  have h : ((row.length : Int) = 84 ∨ (row.length : Int) = 85) ∧ (8400 : Int) = 8400 :=
    ⟨by omega, rfl⟩
  unfold decodeBranch tensorOfRow
  exact if_pos h

/-- The detection of the row of a one-candidate tensor is a detection of the tensor. -/
theorem mem_decode_tensorOfRow (fl : ℚ → ℚ) (classCount : Nat) (origW origH : Int)
    (row : List ℚ) (d : Detection) (hlen : row.length = 84 ∨ row.length = 85)
    (h : decodeRow fl classCount origW origH (row.length : Int) row = some d) :
    d ∈ decode fl classCount origW origH (tensorOfRow row) := by
  rw [decode_eq_filterMap fl classCount origW origH _ (decodeBranch_tensorOfRow row hlen)]
  have h0 : 0 < ((tensorOfRow row).size.getD 0 0 * (tensorOfRow row).size.getD 2 0).toNat := by
    show 0 < ((1 : Int) * 8400).toNat
    decide
  refine List.mem_filterMap.2 ⟨0, List.mem_range.2 h0, ?_⟩
  have e : reshapedRow (tensorOfRow row) ((tensorOfRow row).size.getD 1 0).toNat
      ((tensorOfRow row).size.getD 0 0 * (tensorOfRow row).size.getD 2 0).toNat 0 = row :=
    reshapedRow_tensorOfRow row
  rw [e]
  exact h

theorem decodeRow_rowCentre (fl : ℚ → ℚ) (hfl : IsRounding fl) (classCount : Nat)
    (hc : 0 < classCount) :
    decodeRow fl classCount 640 640 84 rowCentre = some ⟨⟨240, 240, 160, 160⟩, 1 / 2, 0⟩ := by
  have hb : roundedBox fl 640 640 rowCentre = (240, 240, 160, 160) := by
    rw [roundedBox_of_pixels fl hfl rowCentre 320 320 80 80 (by norm_num [rowCentre])
      (by norm_num [rowCentre]) (by norm_num [rowCentre]) (by norm_num [rowCentre])
      (by norm_num) (by norm_num) (by norm_num) (by norm_num)]
    rfl
  have hconf := combinedConfidence_half fl hfl rowCentre (by decide!) (by decide!)
  have hcls : (bestClass 84 rowCentre).2 = 0 := by decide!
  rw [decodeRow_some_iff, hb, hconf, hcls]
  exact ⟨by decide, by norm_num [confThreshold], hc, ⟨240, 240, 160, 160⟩, by decide, rfl⟩

theorem decodeRow_rowObjectness (fl : ℚ → ℚ) (hfl : IsRounding fl) (classCount : Nat)
    (hc : 0 < classCount) :
    decodeRow fl classCount 640 640 85 rowObjectness =
      some ⟨⟨240, 240, 160, 160⟩, 1 / 2, 0⟩ := by
  have hb : roundedBox fl 640 640 rowObjectness = (240, 240, 160, 160) := by
    rw [roundedBox_of_pixels fl hfl rowObjectness 320 320 80 80 (by norm_num [rowObjectness])
      (by norm_num [rowObjectness]) (by norm_num [rowObjectness]) (by norm_num [rowObjectness])
      (by norm_num) (by norm_num) (by norm_num) (by norm_num)]
    rfl
  have ho : objectness 85 rowObjectness = 1 / 2 := by decide!
  have hs : (bestClass 85 rowObjectness).1 = 1 := by decide!
  have hconf : combinedConfidence fl 85 rowObjectness = 1 / 2 := by
    unfold combinedConfidence
    rw [ho, hs, mul_one, hfl.half]
  have hcls : (bestClass 85 rowObjectness).2 = 0 := by decide!
  rw [decodeRow_some_iff, hb, hconf, hcls]
  exact ⟨by decide, by norm_num [confThreshold], hc, ⟨240, 240, 160, 160⟩, by decide, rfl⟩

/-- C13, as the code has it: the shape check compares the channel count with the
constants 84 and 85 and the candidate count with 8400, whatever the class table.  A
3-dimensional tensor that fails this check takes the unexpected-shape branch, which
prints the three sizes, and a tensor that is not 3-dimensional takes the
unexpected-dims branch; both emit no detection.  The objectness channel is read
exactly when the channel count is 85.  For a class table of 80 names these are the
channel counts `4 + numClasses` and `4 + 1 + numClasses` of the claim. -/
theorem decode_shape_check (fl : ℚ → ℚ) (classCount : Nat) (origW origH : Int) :
    (∀ out : Mat, out.size.length = 3 →
      ¬ ((out.size.getD 1 0 = 84 ∨ out.size.getD 1 0 = 85) ∧ out.size.getD 2 0 = 8400) →
      decodeBranch out = DecodeBranch.unexpectedShape (out.size.getD 0 0) (out.size.getD 1 0)
          (out.size.getD 2 0) ∧
        decode fl classCount origW origH out = []) ∧
    (∀ out : Mat, out.size.length ≠ 3 →
      decodeBranch out = DecodeBranch.unexpectedDims out.size.length ∧
        decode fl classCount origW origH out = []) ∧
    (∀ ch : Int, hasObjectness ch = true ↔ ch = 85) ∧
    (∀ (ch : Int) (data : List ℚ), objectness ch data = if ch = 85 then data.getD 4 0 else 1) ∧
    (classCount = 80 → ∀ out : Mat, out.size.length = 3 →
      out.size.getD 1 0 ≠ 4 + (classCount : Int) →
      out.size.getD 1 0 ≠ 4 + 1 + (classCount : Int) →
      decodeBranch out = DecodeBranch.unexpectedShape (out.size.getD 0 0) (out.size.getD 1 0)
          (out.size.getD 2 0) ∧
        decode fl classCount origW origH out = []) ∧
    (classCount = 80 → ∀ ch : Int, hasObjectness ch = true ↔ ch = 4 + 1 + (classCount : Int)) := by
  have hshape : ∀ out : Mat, out.size.length = 3 →
      ¬ ((out.size.getD 1 0 = 84 ∨ out.size.getD 1 0 = 85) ∧ out.size.getD 2 0 = 8400) →
      decodeBranch out = DecodeBranch.unexpectedShape (out.size.getD 0 0) (out.size.getD 1 0)
          (out.size.getD 2 0) ∧
        decode fl classCount origW origH out = [] := by
    intro out h3 hbad
    have hb : decodeBranch out = DecodeBranch.unexpectedShape (out.size.getD 0 0)
        (out.size.getD 1 0) (out.size.getD 2 0) := by
      unfold decodeBranch
      dsimp only
      rw [if_pos h3, if_neg hbad]
    exact ⟨hb, decode_eq_nil_of_branch fl classCount origW origH out
      (by rw [hb]; exact fun h => nomatch h)⟩
  have hobj : ∀ ch : Int, hasObjectness ch = true ↔ ch = 85 := by
    intro ch
    unfold hasObjectness
    exact decide_eq_true_iff
  refine ⟨hshape, ?_, hobj, ?_, ?_, ?_⟩
  · intro out h3
    have hb : decodeBranch out = DecodeBranch.unexpectedDims out.size.length := by
      unfold decodeBranch
      dsimp only
      rw [if_neg h3]
    exact ⟨hb, decode_eq_nil_of_branch fl classCount origW origH out
      (by rw [hb]; exact fun h => nomatch h)⟩
  · intro ch data
    unfold objectness
    by_cases h : ch = 85
    · rw [if_pos ((hobj ch).2 h), if_pos h]
    · rw [if_neg (fun hh => h ((hobj ch).1 hh)), if_neg h]
  · intro h80 out h3 hn1 hn2
    refine hshape out h3 ?_
    rintro ⟨h | h, -⟩
    · apply hn1; rw [h, h80]; rfl
    · apply hn2; rw [h, h80]; rfl
  · intro h80 ch
    rw [hobj ch, h80]
    constructor
    · intro h; rw [h]; rfl
    · intro h; rw [h]; rfl

/-- The statement of C13 for a tensor of shape `[1, 14, 8400]` (14 channels are the
`4 + numClasses` of a table of 10 names): it is refused, whatever the class table. -/
theorem decode_shape_check_witness :
    (⟨[1, 14, 8400], List.replicate 14 (1 / 2)⟩ : Mat).size.length = 3 ∧
      decodeBranch ⟨[1, 14, 8400], List.replicate 14 (1 / 2)⟩ =
        DecodeBranch.unexpectedShape 1 14 8400 ∧
      decode roundF32 10 640 640 ⟨[1, 14, 8400], List.replicate 14 (1 / 2)⟩ = [] :=
  have h := (decode_shape_check roundF32 10 640 640).1
    ⟨[1, 14, 8400], List.replicate 14 (1 / 2)⟩ rfl (by decide)
  ⟨rfl, h.1, h.2⟩

/-- C13 fails for a class table of 10 names.  The tensor `tensorOfRow rowCentre` has
shape `[1, 84, 8400]`, and 84 is neither `4 + 10` nor `4 + 1 + 10`: the decoder takes
the decoding branch and emits the detection of candidate 0.  With 85 channels the
objectness value of the row is read (the confidence 1/2 of the detection is the
objectness 1/2 times the class score 1), and 85 is not `4 + 1 + 10`; with
`4 + 1 + 10 = 15` channels no objectness is read. -/
theorem decode_shape_ignores_class_table :
    (tensorOfRow rowCentre).size = [1, 84, 8400] ∧
    (84 : Int) ≠ 4 + ((10 : Nat) : Int) ∧ (84 : Int) ≠ 4 + 1 + ((10 : Nat) : Int) ∧
    decodeBranch (tensorOfRow rowCentre) = DecodeBranch.decoded ∧
    (⟨⟨240, 240, 160, 160⟩, 1 / 2, 0⟩ : Detection) ∈
      decode roundF32 10 640 640 (tensorOfRow rowCentre) ∧
    (85 : Int) ≠ 4 + 1 + ((10 : Nat) : Int) ∧ hasObjectness 85 = true ∧
    objectness 85 rowObjectness = 1 / 2 ∧ (bestClass 85 rowObjectness).1 = 1 ∧
    (⟨⟨240, 240, 160, 160⟩, 1 / 2, 0⟩ : Detection) ∈
      decode roundF32 10 640 640 (tensorOfRow rowObjectness) ∧
    hasObjectness (4 + 1 + ((10 : Nat) : Int)) = false := by
  refine ⟨rfl, by decide, by decide, decodeBranch_tensorOfRow rowCentre (Or.inl rfl), ?_,
    by decide, by decide, by decide!, by decide!, ?_, by decide⟩
  · exact mem_decode_tensorOfRow roundF32 10 640 640 rowCentre _ (Or.inl rfl)
      (decodeRow_rowCentre roundF32 roundF32_isRounding 10 (by norm_num))
  · exact mem_decode_tensorOfRow roundF32 10 640 640 rowObjectness _ (Or.inr rfl)
      (decodeRow_rowObjectness roundF32 roundF32_isRounding 10 (by norm_num))

/-! ## The clip and the intersection with the image -/

/-- When the corner of the rounded box lies inside the image and the sums of lines
214-215 fit `int`, the clip of lines 211-215 is the intersection with the image
rectangle. -/
theorem clipBox_eq_inter_of_corner_inside (origW origH rx ry rw rh : Int)
    (hx0 : 0 ≤ rx) (hx1 : rx < origW) (hy0 : 0 ≤ ry) (hy1 : ry < origH)
    (hw : 0 < rw) (hh : 0 < rh) (hfw : origW + rw ≤ 2147483648)
    (hfh : origH + rh ≤ 2147483648) :
    clipBox origW origH rx ry rw rh =
      some ((Rect.mk rx ry rw rh).inter (imageRect origW origH)) := by
  have eW : wrapInt (origW - 1) = origW - 1 := wrapInt_of_fits _ (by omega) (by omega)
  have eH : wrapInt (origH - 1) = origH - 1 := wrapInt_of_fits _ (by omega) (by omega)
  have e1 : max 0 (min rx (wrapInt (origW - 1))) = rx := by rw [eW]; omega
  have e2 : max 0 (min ry (wrapInt (origH - 1))) = ry := by rw [eH]; omega
  have f1 : wrapInt (rx + rw) = rx + rw := wrapInt_of_fits _ (by omega) (by omega)
  have f2 : wrapInt (ry + rh) = ry + rh := wrapInt_of_fits _ (by omega) (by omega)
  have f3 : wrapInt (origW - rx) = origW - rx := wrapInt_of_fits _ (by omega) (by omega)
  have f4 : wrapInt (origH - ry) = origH - ry := wrapInt_of_fits _ (by omega) (by omega)
  have ha : (Rect.mk rx ry rw rh).empty = false := by
    simp only [Rect.empty, Bool.or_eq_false_iff, decide_eq_false_iff_not]
    exact ⟨by omega, by omega⟩
  have hb : (imageRect origW origH).empty = false := by
    simp only [Rect.empty, imageRect, Bool.or_eq_false_iff, decide_eq_false_iff_not]
    exact ⟨by omega, by omega⟩
  unfold clipBox Rect.inter
  dsimp only
  rw [if_neg (by omega), e1, e2, f1, f2, f3, f4, ha, hb]
  simp only [Bool.or_self, Bool.false_eq_true, if_false, imageRect, zero_add]
  have e3 : max rx 0 = rx := by omega
  have e4 : max ry 0 = ry := by omega
  rw [e3, e4]
  have hr : (Rect.mk rx ry (min (rx + rw) origW - rx) (min (ry + rh) origH - ry)).empty
      = false := by
    simp only [Rect.empty, Bool.or_eq_false_iff, decide_eq_false_iff_not]
    exact ⟨by omega, by omega⟩
  rw [hr]
  simp only [Bool.false_eq_true, if_false, Option.some.injEq, Rect.mk.injEq, true_and]
  constructor
  · split_ifs <;> omega
  · split_ifs <;> omega

/-- C16 fails on the code.  The row `rowLeftEdge` has the rounded box (-5, 10, 10, 10),
whose intersection with the 640 × 640 image is (0, 10, 5, 10); the decoder emits
(0, 10, 10, 10), which is not contained in the unclipped box.  The row `rowOutside`
has the rounded box (700, 10, 10, 10), which has no pixel inside the image (the
intersection is empty); the decoder does not discard it and emits (639, 10, 1, 10). -/
theorem clip_is_not_intersection :
    roundedBox roundF32 640 640 rowLeftEdge = (-5, 10, 10, 10) ∧
    (Rect.mk (-5) 10 10 10).inter (imageRect 640 640) = ⟨0, 10, 5, 10⟩ ∧
    clipBox 640 640 (-5) 10 10 10 = some ⟨0, 10, 10, 10⟩ ∧
    ¬ (Rect.mk (-5) 10 10 10).containsRect ⟨0, 10, 10, 10⟩ ∧
    (⟨⟨0, 10, 10, 10⟩, 1 / 2, 0⟩ : Detection) ∈
      decode roundF32 80 640 640 (tensorOfRow rowLeftEdge) ∧
    roundedBox roundF32 640 640 rowOutside = (700, 10, 10, 10) ∧
    ((Rect.mk 700 10 10 10).inter (imageRect 640 640)).empty = true ∧
    clipBox 640 640 700 10 10 10 = some ⟨639, 10, 1, 10⟩ ∧
    (⟨⟨639, 10, 1, 10⟩, 1 / 2, 0⟩ : Detection) ∈
      decode roundF32 80 640 640 (tensorOfRow rowOutside) := by
  have hl := decodeRow_rowLeftEdge roundF32 roundF32_isRounding 80 (by norm_num)
  have hb : roundedBox roundF32 640 640 rowOutside = (700, 10, 10, 10) := by
    rw [roundedBox_of_pixels roundF32 roundF32_isRounding rowOutside 705 15 5 5
      (by norm_num [rowOutside]) (by norm_num [rowOutside]) (by norm_num [rowOutside])
      (by norm_num [rowOutside]) (by norm_num) (by norm_num) (by norm_num) (by norm_num)]
    rfl
  have hconf := combinedConfidence_half roundF32 roundF32_isRounding rowOutside
    (by decide!) (by decide!)
  have hcls : (bestClass 84 rowOutside).2 = 0 := by decide!
  have ho : decodeRow roundF32 80 640 640 84 rowOutside =
      some ⟨⟨639, 10, 1, 10⟩, 1 / 2, 0⟩ := by
    rw [decodeRow_some_iff, hb, hconf, hcls]
    exact ⟨by decide, by norm_num [confThreshold], by norm_num, ⟨639, 10, 1, 10⟩,
      by decide, rfl⟩
  refine ⟨hl.1, by decide, by decide, fun h => absurd h.2.2.1 (by decide), ?_, hb, by decide,
    by decide, ?_⟩
  · exact mem_decode_tensorOfRow roundF32 80 640 640 rowLeftEdge _ (Or.inl rfl) hl.2
  · exact mem_decode_tensorOfRow roundF32 80 640 640 rowOutside _ (Or.inl rfl) ho

/-! ## Values beyond the range of `int` -/

/-- A 24-bit integer times a power of two is a `float`. -/
theorem IsRounding.shifted {fl : ℚ → ℚ} (h : IsRounding fl) (m : Int) (k : Nat)
    (hm : |m| < 2 ^ 24) (hk : k ≤ 104) (n : Int) (hn : n = m * 2 ^ k) :
    fl (n : ℚ) = (n : ℚ) := by
  have := h.exact m (k : Int) hm (by omega) (by omega)
  rw [zpow_natCast] at this
  rw [hn]
  push_cast
  exact this

/-- The rounded box of a row of a 640 × 640 image whose centre, size, half size and
corner are `float` values that are integers in the range of `int`: no operation
rounds. -/
theorem roundedBox_of_exact (fl : ℚ → ℚ) (hfl : IsRounding fl) (data : List ℚ)
    (cx cy w2 h2 : Int)
    (h0 : data.getD 0 0 * 640 = (cx : ℚ)) (h1 : data.getD 1 0 * 640 = (cy : ℚ))
    (h2' : data.getD 2 0 * 640 = ((2 * w2 : Int) : ℚ))
    (h3 : data.getD 3 0 * 640 = ((2 * h2 : Int) : ℚ))
    (ex : ∀ m : Int, m = cx ∨ m = cy ∨ m = 2 * w2 ∨ m = 2 * h2 ∨ m = w2 ∨ m = h2 ∨
      m = cx - w2 ∨ m = cy - h2 → fl (m : ℚ) = (m : ℚ))
    (rg : ∀ m : Int, m = cx - w2 ∨ m = cy - h2 ∨ m = 2 * w2 ∨ m = 2 * h2 →
      -2147483648 ≤ m ∧ m ≤ 2147483647) :
    roundedBox fl 640 640 data = (cx - w2, cy - h2, 2 * w2, 2 * h2) := by
  have e640 : fl ((inputSize : Int) : ℚ) = 640 := by
    have := hfl.int 640 (by norm_num)
    simpa [inputSize] using this
  have e640' : fl (((640 : Int)) : ℚ) = 640 := by
    have := hfl.int 640 (by norm_num)
    simpa using this
  have escale : fl ((640 : ℚ) / 640) = 1 := by
    rw [div_self (by norm_num)]; exact hfl.one
  have ecx : fl (data.getD 0 0 * 640) = (cx : ℚ) := by
    rw [h0]; exact ex cx (by simp)
  have ecy : fl (data.getD 1 0 * 640) = (cy : ℚ) := by
    rw [h1]; exact ex cy (by simp)
  have ew : fl (data.getD 2 0 * 640) = ((2 * w2 : Int) : ℚ) := by
    rw [h2']; exact ex (2 * w2) (by simp)
  have eh : fl (data.getD 3 0 * 640) = ((2 * h2 : Int) : ℚ) := by
    rw [h3]; exact ex (2 * h2) (by simp)
  have ew2 : fl (((2 * w2 : Int) : ℚ) / 2) = (w2 : ℚ) := by
    have e : ((2 * w2 : Int) : ℚ) / 2 = (w2 : ℚ) := by push_cast; ring
    rw [e]; exact ex w2 (by simp)
  have eh2 : fl (((2 * h2 : Int) : ℚ) / 2) = (h2 : ℚ) := by
    have e : ((2 * h2 : Int) : ℚ) / 2 = (h2 : ℚ) := by push_cast; ring
    rw [e]; exact ex h2 (by simp)
  have ex1 : fl ((cx : ℚ) - (w2 : ℚ)) = ((cx - w2 : Int) : ℚ) := by
    have e : (cx : ℚ) - (w2 : ℚ) = ((cx - w2 : Int) : ℚ) := by push_cast; ring
    rw [e]; exact ex (cx - w2) (by simp)
  have ey1 : fl ((cy : ℚ) - (h2 : ℚ)) = ((cy - h2 : Int) : ℚ) := by
    have e : (cy : ℚ) - (h2 : ℚ) = ((cy - h2 : Int) : ℚ) := by push_cast; ring
    rw [e]; exact ex (cy - h2) (by simp)
  have erx : fl (((cx - w2 : Int) : ℚ) * 1) = ((cx - w2 : Int) : ℚ) := by
    rw [mul_one]; exact ex (cx - w2) (by simp)
  have ery : fl (((cy - h2 : Int) : ℚ) * 1) = ((cy - h2 : Int) : ℚ) := by
    rw [mul_one]; exact ex (cy - h2) (by simp)
  have erw : fl (((2 * w2 : Int) : ℚ) * 1) = ((2 * w2 : Int) : ℚ) := by
    rw [mul_one]; exact ex (2 * w2) (by simp)
  have erh : fl (((2 * h2 : Int) : ℚ) * 1) = ((2 * h2 : Int) : ℚ) := by
    rw [mul_one]; exact ex (2 * h2) (by simp)
  have fits : ∀ m : Int, m = cx - w2 ∨ m = cy - h2 ∨ m = 2 * w2 ∨ m = 2 * h2 →
      roundToInt (m : ℚ) = m := fun m hm => roundToInt_intCast m (rg m hm).1 (rg m hm).2
  unfold roundedBox
  dsimp only
  rw [e640, e640', escale, ecx, ecy, ew, eh, ew2, eh2, ex1, ey1, erx, ery, erw, erh,
    fits (cx - w2) (by simp), fits (cy - h2) (by simp), fits (2 * w2) (by simp),
    fits (2 * h2) (by simp)]

theorem roundedBox_rowWide (fl : ℚ → ℚ) (hfl : IsRounding fl) :
    roundedBox fl 640 640 rowWide = (1073741760, 240, 2147483520, 160) := by
  have hb := roundedBox_of_exact fl hfl rowWide 2147483520 320 1073741760 80
    (by norm_num [rowWide]) (by norm_num [rowWide]) (by norm_num [rowWide])
    (by norm_num [rowWide])
    (by
      intro m hm
      have hcases : m = 2147483520 ∨ m = 1073741760 ∨ m = 320 ∨ m = 160 ∨ m = 80 ∨
          m = 240 := by omega
      rcases hcases with h | h | h | h | h | h
      · exact hfl.shifted 16777215 7 (by norm_num) (by norm_num) m (by rw [h]; norm_num)
      · exact hfl.shifted 16777215 6 (by norm_num) (by norm_num) m (by rw [h]; norm_num)
      · rw [h]; exact hfl.int 320 (by norm_num)
      · rw [h]; exact hfl.int 160 (by norm_num)
      · rw [h]; exact hfl.int 80 (by norm_num)
      · rw [h]; exact hfl.int 240 (by norm_num))
    (by intro m hm; omega)
  rw [hb]
  rfl

theorem decodeRow_rowWide (fl : ℚ → ℚ) (hfl : IsRounding fl) (classCount : Nat)
    (hc : 0 < classCount) :
    decodeRow fl classCount 640 640 84 rowWide = some ⟨wideBox, 1 / 2, 0⟩ := by
  have hconf := combinedConfidence_half fl hfl rowWide (by decide!) (by decide!)
  have hcls : (bestClass 84 rowWide).2 = 0 := by decide!
  rw [decodeRow_some_iff, roundedBox_rowWide fl hfl, hconf, hcls]
  exact ⟨by decide, by norm_num [confThreshold], hc, wideBox, by decide, rfl⟩

/-- C11 fails on the code.  In a 640 × 640 image the row `rowWide` has the rounded box
(1073741760, 240, 2147483520, 160), every value in the range of `int`.  Line 211
moves the corner to `x = 639`; the sum `rx + rw = 639 + 2147483520` of line 214 does
not fit `int` and is negative after the wrap, so the test `rx + rw > origW` fails and the
width is not cut.  The decoder emits the box (639, 240, 2147483520, 160), whose right
edge is far outside the image. -/
theorem decode_box_outside_image :
    roundedBox roundF32 640 640 rowWide = (1073741760, 240, 2147483520, 160) ∧
    wrapInt (639 + 2147483520) = -2147483137 ∧
    clipBox 640 640 1073741760 240 2147483520 160 = some wideBox ∧
    (⟨wideBox, 1 / 2, 0⟩ : Detection) ∈ decode roundF32 80 640 640 (tensorOfRow rowWide) ∧
    ¬ (wideBox.x + wideBox.width ≤ 640) := by
  refine ⟨roundedBox_rowWide roundF32 roundF32_isRounding, by decide, by decide, ?_, by decide⟩
  exact mem_decode_tensorOfRow roundF32 80 640 640 rowWide _ (Or.inl rfl)
    (decodeRow_rowWide roundF32 roundF32_isRounding 80 (by norm_num))

set_option maxRecDepth 100000 in
/-- C8 fails on the code.  The product `width * height` of `area()` is an `int`
product: for the square of 65536 × 65536 pixels it is `2^32`, which wraps to 0.  For two
detections with this box the test `uni.area() > 0` of line 57 fails, the value of `iou` is
0 and not 1, and `nms` keeps both detections at the threshold `0.45f`. -/
theorem nms_identical_pair_overflow :
    bigSquare.pixels = 4294967296 ∧ bigSquare.area = 0 ∧
    bigSquare.inter bigSquare = bigSquare ∧ bigSquare.union bigSquare = bigSquare ∧
    iou roundF32 bigSquare bigSquare = 0 ∧
    nms roundF32 gccSort [⟨bigSquare, 9 / 10, 0⟩, ⟨bigSquare, 8 / 10, 0⟩] nmsThreshold =
      [⟨bigSquare, 9 / 10, 0⟩, ⟨bigSquare, 8 / 10, 0⟩] := by
  refine ⟨by decide, by decide, by decide, by decide, by decide!, by decide!⟩

/-- C20 fails on the code.  The box `smallSquare` (1000 × 1000) lies inside `bigRect`
(65536 × 65537), so `a & b` is `smallSquare` and `a | b` is `bigRect`, whose number of
pixels `2^32 + 65536` wraps to the area 65536.  The value of `iou` is
`1000000 / 65536 = 15625 / 1024`, which is above 1 and above the inclusion-exclusion IoU
(at most 1), although one box contains the other. -/
theorem iou_overflow_above_one :
    (0 : Int) ≤ bigRect.width ∧ (0 : Int) ≤ bigRect.height ∧
    (0 : Int) ≤ smallSquare.width ∧ (0 : Int) ≤ smallSquare.height ∧
    bigRect.containsRect smallSquare ∧
    bigRect.inter smallSquare = smallSquare ∧ bigRect.union smallSquare = bigRect ∧
    bigRect.pixels = 4295032832 ∧ bigRect.area = 65536 ∧ smallSquare.area = 1000000 ∧
    iou roundF32 bigRect smallSquare = 15625 / 1024 ∧
    ¬ (iou roundF32 bigRect smallSquare ≤ 1) ∧
    iouInclusionExclusion roundF32 bigRect smallSquare ≤ 1 ∧
    ¬ (iou roundF32 bigRect smallSquare ≤ iouInclusionExclusion roundF32 bigRect smallSquare) ∧
    iou roundF32 bigRect smallSquare ≠ iouInclusionExclusion roundF32 bigRect smallSquare := by
  have hfl := roundF32_isRounding
  have h1 : iou roundF32 bigRect smallSquare = 15625 / 1024 := by
    rw [iou_eq_of_areas roundF32 _ _ 1000000 65536 (by decide) (by decide) (by decide),
      hfl.int 1000000 (by norm_num), hfl.int 65536 (by norm_num)]
    have h := hfl.exact 15625 (-10) (by norm_num) (by norm_num) (by norm_num)
    have e : ((15625 : Int) : ℚ) * (2 : ℚ) ^ (-10 : Int) = 15625 / 1024 := by norm_num
    rw [e] at h
    have e2 : (((1000000 : Int)) : ℚ) / ((65536 : Int) : ℚ) = 15625 / 1024 := by norm_num
    rw [e2]
    exact h
  have h2 : iouInclusionExclusion roundF32 bigRect smallSquare ≤ 1 := by
    have ei : (bigRect.inter smallSquare).pixels = 1000000 := by decide
    have eu : bigRect.pixels + smallSquare.pixels - 1000000 = 4295032832 := by decide
    unfold iouInclusionExclusion
    simp only [ei, eu]
    rw [if_pos (by norm_num), hfl.int 1000000 (by norm_num),
      hfl.shifted 65537 16 (by norm_num) (by norm_num) 4295032832 (by norm_num), ← hfl.one]
    exact hfl.mono _ _ (by norm_num)
  refine ⟨by decide, by decide, by decide, by decide, ⟨by decide, by decide, by decide,
    by decide⟩, by decide, by decide, by decide, by decide, by decide, h1, ?_, h2, ?_, ?_⟩
  · rw [h1]; norm_num
  · intro h
    have := le_trans h h2
    rw [h1] at this
    norm_num at this
  · intro h
    rw [← h, h1] at h2
    norm_num at h2

end Yolo
